import Mathlib

/-!
# The routing trie of `httpmux`, the tokens of `jwt` and the transactions of `sqltx`

A shallow embedding of `build-your-own-http-router/httpmux`, of
`implement-your-own-jwt/jwt/jwt.go` and of `sql-transaction-in-go/sqltx/sqltx.go`.
The definitions of the three packages come first, then the facts about them.

* Go `string` values are lists of characters (`GoString`); the code only
  compares strings, strips one-byte prefixes and suffixes, splits on the byte
  `/` and matches `varsNameRegex`, all of which agree on the characters of a
  well-formed UTF-8 string and on its bytes.
* Go `map[string]T` values are functions `GoString → Option T`: `m k = none`
  is the absent key, `m k = some v` the pair `(v, true)` of the two-result
  index expression.
* `*TrieNode` pointers are owned: every node is created by `NewTrieNode` and
  stored under exactly one key of exactly one parent, so the heap reachable
  from a `*Trie` is a tree and is modelled by the inductive type `TrieNode`.
  The in-place updates of `Trie.Insert` become a rebuilt node that is returned
  together with the error, also when the error is not nil.
* `http.Handler` is an interface type: `Handler H` is `Option H`, `none`
  being the nil interface value.
-/

namespace Httpmux

/-! ## Strings and errors -/

/-- Go `string`. -/
abbrev GoString := List Char

/-- Go `error`: `none` is the nil error, `some msg` is `errors.New(msg)`. -/
abbrev GoError := Option GoString

/-- Go `strings.TrimPrefix`. -/
def TrimPrefix (s pre : GoString) : GoString :=
  if pre.isPrefixOf s then s.drop pre.length else s

/-- Go `strings.TrimSuffix`. -/
def TrimSuffix (s suf : GoString) : GoString :=
  if suf.isSuffixOf s then s.take (s.length - suf.length) else s

/-- Go `strings.Split(s, sep)` for a separator `sep` of one byte: the pieces of
`s` between the occurrences of `sep`, one more than there are occurrences. -/
def Split : GoString → Char → List GoString
  | [], _ => [[]]
  | c :: cs, sep =>
    if c = sep then [] :: Split cs sep
    else
      match Split cs sep with
      | [] => [[c]]
      | seg :: segs => (c :: seg) :: segs

/-- The character class `[a-zA-z]` of `varsNameRegex` as written in the source:
the ranges `a`..`z` and `A`..`z`. -/
def varsNameClass (c : Char) : Bool :=
  ('a' ≤ c && c ≤ 'z') || ('A' ≤ c && c ≤ 'z')

/-- `varsNameRegex.MatchString`, for the pattern `^\{[a-zA-z]+\}$`: an opening
brace, one or more characters of the class, a closing brace, and nothing else. -/
def varsNameRegex (s : GoString) : Bool :=
  s.head? == some '\x7b' && s.getLast? == some '\x7d' && decide (3 ≤ s.length)
    && ((s.drop 1).dropLast).all varsNameClass

/-! ## Data model -/

/-- Go `type NodeKind string`. -/
abbrev NodeKind := GoString

/-- Go `type Var struct`. -/
structure Var where
  Name : GoString
  Value : GoString
  deriving DecidableEq, Repr

/-- Go `type Vars []Var`. -/
abbrev Vars := List Var

def RootNode : NodeKind := "root".toList
def VarsNode : NodeKind := "vars".toList
def PathNode : NodeKind := "path".toList

def RootLabel : GoString := "__ROOT__".toList
def VarsLabel : GoString := "__VARS__".toList

/-- Go interface value of type `http.Handler`. -/
abbrev Handler (H : Type) := Option H

/-- Go `type TrieNode struct`. -/
inductive TrieNode (H : Type) where
  | mk (Label : GoString) (Kind : NodeKind)
       (Value : GoString → Option (Handler H))
       (Children : GoString → Option (TrieNode H)) : TrieNode H

namespace TrieNode

variable {H : Type}

def Label : TrieNode H → GoString
  | mk l _ _ _ => l

def Kind : TrieNode H → NodeKind
  | mk _ k _ _ => k

def Value : TrieNode H → GoString → Option (Handler H)
  | mk _ _ v _ => v

def Children : TrieNode H → GoString → Option (TrieNode H)
  | mk _ _ _ c => c

/-- The assignment `node.Value[method] = handler`. -/
def setValue (node : TrieNode H) (method : GoString) (handler : Handler H) : TrieNode H :=
  mk node.Label node.Kind (fun k => if k = method then some handler else node.Value k)
    node.Children

/-- The assignment `node.Children[key] = child`; it also stands for the state
of `node` after the node stored under `key` has been updated in place. -/
def setChild (node : TrieNode H) (key : GoString) (child : TrieNode H) : TrieNode H :=
  mk node.Label node.Kind node.Value (fun k => if k = key then some child else node.Children k)

end TrieNode

/-- Go `NewTrieNode`. -/
def NewTrieNode {H : Type} (kind : NodeKind) (label : GoString) : TrieNode H :=
  TrieNode.mk label kind (fun _ => none) (fun _ => none)

/-- Go `type Trie struct`. -/
structure Trie (H : Type) where
  root : TrieNode H

/-- Go `NewTrie`. -/
def NewTrie {H : Type} : Trie H :=
  { root := TrieNode.mk RootLabel RootNode (fun _ => none) (fun _ => none) }

def errConflict : GoError := some "conflict location".toList
def errNotFound : GoError := some "handler not found".toList

/-! ## `Trie.Insert` -/

/-- The `for _, segment := range segments` loop of `Trie.Insert` followed by
the handler registration, started at `visitedNode`. The result is
`visitedNode` after the call and the returned error. -/
def insertLoop {H : Type} (method : GoString) (handler : Handler H) :
    List GoString → TrieNode H → TrieNode H × GoError
  | [], visitedNode =>
    match visitedNode.Value method with
    | some _ => (visitedNode, errConflict)
    | none => (visitedNode.setValue method handler, none)
  | segment :: rest, visitedNode =>
    match visitedNode.Children segment with
    | some nextNode =>
      let r := insertLoop method handler rest nextNode
      (visitedNode.setChild segment r.1, r.2)
    | none =>
      if varsNameRegex segment then
        let name := TrimPrefix (TrimSuffix segment "\x7d".toList) "\x7b".toList
        let varsNode :=
          match visitedNode.Children VarsLabel with
          | some n => n
          | none => NewTrieNode VarsNode name
        if varsNode.Label ≠ name then
          (visitedNode.setChild VarsLabel varsNode, errConflict)
        else
          let r := insertLoop method handler rest varsNode
          (visitedNode.setChild VarsLabel r.1, r.2)
      else
        let r := insertLoop method handler rest (NewTrieNode PathNode segment)
        (visitedNode.setChild segment r.1, r.2)

/-- The path normalisation shared by `Trie.Insert` and `Trie.Get`:
`strings.TrimPrefix(path, "/")`, `strings.TrimSuffix(path, "/")`,
`strings.Split(path, "/")`. -/
def segmentsOf (path : GoString) : List GoString :=
  Split (TrimSuffix (TrimPrefix path "/".toList) "/".toList) '/'

/-- Go `(*Trie).Insert`: the trie after the call and the returned error. -/
def Trie.Insert {H : Type} (t : Trie H) (path method : GoString) (handler : Handler H) :
    Trie H × GoError :=
  let r := insertLoop method handler (segmentsOf path) t.root
  ({ root := r.1 }, r.2)

/-! ## `Trie.Get` -/

/-- The `for _, segment := range segments` loop of `Trie.Get`: `none` when the
loop returns "handler not found", otherwise the node reached; in both cases
with the variables collected so far. -/
def getLoop {H : Type} : List GoString → TrieNode H → Vars → Option (TrieNode H) × Vars
  | [], visitedNode, vars => (some visitedNode, vars)
  | segment :: rest, visitedNode, vars =>
    match visitedNode.Children segment with
    | none =>
      match visitedNode.Children VarsLabel with
      | none => (none, vars)
      | some varsNode =>
        getLoop rest varsNode (vars ++ [{ Name := varsNode.Label, Value := segment }])
    | some childNode => getLoop rest childNode vars

/-- Go `(*Trie).Get`: the returned handler, variables and error. -/
def Trie.Get {H : Type} (t : Trie H) (path method : GoString) :
    Handler H × Vars × GoError :=
  match getLoop (segmentsOf path) t.root [] with
  | (none, vars) => (none, vars, errNotFound)
  | (some visitedNode, vars) =>
    match visitedNode.Value method with
    | none => (none, vars, errNotFound)
    | some handler => (handler, vars, none)

/-! ## `Vars.ByName` -/

/-- Go `(Vars).ByName`; the empty string is the empty list. -/
def Vars.ByName : Vars → GoString → GoString
  | [], _ => []
  | e :: rest, name => if e.Name = name then e.Value else Vars.ByName rest name

/-! ## `httpmux.go`: the router

* A `context.Context` is the chain of the key/value pairs attached to it with
  `context.WithValue`, the last one first; `Value` returns the value of the
  first pair with the key, or nil.
* `Router.Handle` returns the router after the call and the error it panics
  with, `none` when it returns normally.
* `Router.ServeHTTP` returns the calls it makes, in order: `http.NotFound` or
  the method `ServeHTTP` of the handler; the response writer is passed on
  unchanged and is left out. With the calls it returns the value it panics
  with, `none` when it returns normally: the method call on a nil interface
  value is a run-time panic and calls nothing.
* An `http.HandlerFunc`, the nil function included, converts to a non-nil
  interface value, so `Router.HandleFunc` takes an `H`.
-/

/-- The keys of context values: the package variable `varsContextKey` and the
keys of other packages. -/
inductive ContextKey where
  | varsContextKey
  | other (id : Nat)
  deriving DecidableEq

/-- The values a context holds: a `Vars`, or a value of another type. -/
inductive ContextValue where
  | vars (v : Vars)
  | other (id : Nat)
  deriving DecidableEq

/-- Go `context.Context`. -/
abbrev Context := List (ContextKey × ContextValue)

/-- Go `context.WithValue`. -/
def Context.WithValue (ctx : Context) (key : ContextKey) (val : ContextValue) : Context :=
  (key, val) :: ctx

/-- Go `(context.Context).Value`; `none` is the nil interface value. -/
def Context.Value : Context → ContextKey → Option ContextValue
  | [], _ => none
  | (k, v) :: rest, key => if k = key then some v else Context.Value rest key

/-- Go `contextWithVars`. -/
def contextWithVars (ctx : Context) (vars : Vars) : Context :=
  ctx.WithValue ContextKey.varsContextKey (ContextValue.vars vars)

/-- Go `GetVars`: the type assertion `ctx.Value(varsContextKey).(Vars)`, whose
result is the nil `Vars` when it fails. -/
def GetVars (ctx : Context) : Vars :=
  match ctx.Value ContextKey.varsContextKey with
  | some (ContextValue.vars vars) => vars
  | _ => []

/-- Go `*http.Request`, as far as the router reads it: `req.Method`,
`req.URL.Path` and `req.Context()`. -/
structure Request where
  Method : GoString
  Path : GoString
  ctx : Context
  deriving DecidableEq

/-- Go `(*http.Request).WithContext`. -/
def Request.WithContext (req : Request) (ctx : Context) : Request :=
  { req with ctx := ctx }

/-- The calls that `Router.ServeHTTP` makes; the handler of a call is a
non-nil interface value. -/
inductive Call (H : Type) where
  | NotFound (req : Request)
  | ServeHTTP (handler : H) (req : Request)
  deriving DecidableEq

/-- The run-time panic of a method call on a nil interface value. -/
def errNilDereference : GoError :=
  some "runtime error: invalid memory address or nil pointer dereference".toList

/-- Go `type Router struct`. -/
structure Router (H : Type) where
  trie : Trie H

/-- Go `NewRouter`. -/
def NewRouter {H : Type} : Router H :=
  { trie := NewTrie }

/-- Go `(*Router).Handle`. -/
def Router.Handle {H : Type} (r : Router H) (method path : GoString) (handler : Handler H) :
    Router H × GoError :=
  let res := r.trie.Insert path method handler
  match res.2 with
  | some err => ({ trie := res.1 }, some err)
  | none => ({ trie := res.1 }, none)

/-- Go `(*Router).HandleFunc`; the `http.HandlerFunc` is passed to `Insert` as
an `http.Handler`, which is then not the nil interface value. -/
def Router.HandleFunc {H : Type} (r : Router H) (method path : GoString)
    (handler : H) : Router H × GoError :=
  let res := r.trie.Insert path method (some handler)
  match res.2 with
  | some err => ({ trie := res.1 }, some err)
  | none => ({ trie := res.1 }, none)

/-- Go `(*Router).ServeHTTP`: the calls made and the value of the panic. -/
def Router.ServeHTTP {H : Type} (r : Router H) (req : Request) : List (Call H) × GoError :=
  match r.trie.Get req.Path req.Method with
  | (_, _, some _) => ([Call.NotFound req], none)
  | (handler, vars, none) =>
    let ctx := contextWithVars req.ctx vars
    match handler with
    | none => ([], errNilDereference)
    | some h => ([Call.ServeHTTP h (req.WithContext ctx)], none)

/-! ## Auxiliary notions used to state the properties -/

section Notions

variable {H : Type}

/-- The node reached from `n` by following the children stored under the keys
`ks`, one after the other. -/
def descend : List GoString → TrieNode H → Option (TrieNode H)
  | [], n => some n
  | k :: ks, n =>
    match n.Children k with
    | none => none
    | some c => descend ks c

/-- The fields of a node other than its children. -/
structure NodeInfo (H : Type) where
  Label : GoString
  Kind : NodeKind
  Value : GoString → Option (Handler H)

/-- The fields of `n` other than its children. -/
def TrieNode.info (n : TrieNode H) : NodeInfo H :=
  { Label := n.Label, Kind := n.Kind, Value := n.Value }

/-- `NodeInfo` counterpart of `TrieNode.setValue`. -/
def NodeInfo.setValue (i : NodeInfo H) (method : GoString) (handler : Handler H) : NodeInfo H :=
  { i with Value := fun k => if k = method then some handler else i.Value k }

/-- The trie below `n` seen as a partial function from key paths to node
fields. -/
def view (n : TrieNode H) (ks : List GoString) : Option (NodeInfo H) :=
  (descend ks n).map TrieNode.info

/-- The key of `Children` under which `Trie.Insert` stores the node of a
segment that has no child of its own yet. -/
def keyOf (segment : GoString) : GoString :=
  if varsNameRegex segment then VarsLabel else segment

/-- The name that `Trie.Insert` extracts from a placeholder segment. -/
def nameOf (segment : GoString) : GoString :=
  TrimPrefix (TrimSuffix segment "\x7d".toList) "\x7b".toList

/-- The node that `Trie.Insert` creates for a segment that has no node yet. -/
def freshNode (segment : GoString) : TrieNode H :=
  if varsNameRegex segment then NewTrieNode VarsNode (nameOf segment)
  else NewTrieNode PathNode segment

/-- A node without children and without handlers. -/
def IsEmptyNode (n : TrieNode H) : Prop :=
  (∀ k, n.Children k = none) ∧ ∀ m, n.Value m = none

/-- No node at or below `n` has a child stored under a key that
`varsNameRegex` matches. -/
def NoRegexKeys (n : TrieNode H) : Prop :=
  ∀ ks N, descend ks n = some N → ∀ k, varsNameRegex k = true → N.Children k = none

/-- The tries that `NewTrie` and calls of `Trie.Insert`, failed ones included,
can produce. -/
inductive Reachable : Trie H → Prop
  | new : Reachable NewTrie
  | insert (t : Trie H) (path method : GoString) (handler : Handler H) :
      Reachable t → Reachable (t.Insert path method handler).1

/-- The fields, after a successful insertion of `segs`, of the node at a key
path `ks` that is a prefix of the key path of `segs`; `old` are the fields
before the insertion, if the node was there. -/
def insInfo (m : GoString) (h : Handler H) (segs ks : List GoString)
    (old : Option (NodeInfo H)) : NodeInfo H :=
  if ks.length = segs.length then
    (old.getD (freshNode (segs.getD (ks.length - 1) [])).info).setValue m h
  else old.getD (freshNode (segs.getD (ks.length - 1) [])).info

/-- The two conflicts of `Trie.Insert` below `n`: a placeholder segment whose
name differs from the label of the node it leads to, or a handler already
registered for the method at the node the segments lead to. -/
def InsertConflict (n : TrieNode H) (m : GoString) (segs : List GoString) : Prop :=
  (∃ pre s post i, segs = pre ++ s :: post ∧ varsNameRegex s = true ∧
      view n ((pre ++ [s]).map keyOf) = some i ∧ i.Label ≠ nameOf s) ∨
  (∃ i x, view n (segs.map keyOf) = some i ∧ i.Value m = some x)

/-- The arguments `(path, method, handler)` of one call of `Trie.Insert`. -/
abbrev Route (H : Type) := GoString × GoString × Handler H

/-- The trie after the calls `Insert(path, method, handler)` of `routes`, made
one after the other on `t`, whatever they return. -/
def runInserts (t : Trie H) : List (Route H) → Trie H
  | [] => t
  | r :: rest => runInserts (t.Insert r.1 r.2.1 r.2.2).1 rest

/-- Every call of `runInserts t routes` returns a nil error. -/
def allSucceed (t : Trie H) : List (Route H) → Bool
  | [] => true
  | r :: rest =>
    (t.Insert r.1 r.2.1 r.2.2).2.isNone && allSucceed (t.Insert r.1 r.2.1 r.2.2).1 rest

/-- The routes `/users/{uid}` and `/users/static`, both for `GET`. -/
def usersRoutes : List (Route Nat) :=
  [("/users/{uid}".toList, "GET".toList, some 1),
   ("/users/static".toList, "GET".toList, some 2)]

/-- The segments that a prefix `P` contributes to the normalised path
`P ++ "/" ++ rest`. -/
def prefixSegments (P : GoString) : List GoString :=
  if P = [] then [] else Split (TrimPrefix P "/".toList) '/'

/-- A template segment that names a placeholder: the name between braces. -/
def placeholder (name : GoString) : GoString :=
  '\x7b' :: (name ++ ['\x7d'])

/-- The walk of the loop of `Trie.Get`: the nodes entered, each with the
request segment consumed on entering it. -/
def getTrace : List GoString → TrieNode H → List (TrieNode H × GoString)
  | [], _ => []
  | segment :: rest, visitedNode =>
    match visitedNode.Children segment with
    | some childNode => (childNode, segment) :: getTrace rest childNode
    | none =>
      match visitedNode.Children VarsLabel with
      | some varsNode => (varsNode, segment) :: getTrace rest varsNode
      | none => []

/-- The dynamic nodes (kind `VarsNode`) entered by `Trie.Get` on `path`, in the
order of the walk, each as the variable made of its label and of the segment
consumed on entering it. -/
def dynamicEntered (t : Trie H) (path : GoString) : Vars :=
  ((getTrace (segmentsOf path) t.root).filter (fun e => e.1.Kind == VarsNode)).map
    (fun e => { Name := e.1.Label, Value := e.2 })

/-- The nodes stored under the reserved key, and no others, are of kind
`VarsNode`. -/
def KindInv (n : TrieNode H) : Prop :=
  ∀ ks k i, view n (ks ++ [k]) = some i → (i.Kind = VarsNode ↔ k = VarsLabel)

/-- The route `/v1/users/{uid}/profiles/{pid}`, for `GET`. -/
def profileRoutes : List (Route Nat) :=
  [("/v1/users/{uid}/profiles/{pid}".toList, "GET".toList, some 1)]

/-- The route `/{a}/{b}`, for `GET`. -/
def twoPlaceholderRoutes : List (Route Nat) :=
  [("/{a}/{b}".toList, "GET".toList, some 1)]

/-- The routes `/users/{uid}` for `GET` and `/users` for `POST`. -/
def betweenRoutes : List (Route Nat) :=
  [("/users/{uid}".toList, "GET".toList, some 2), ("/users".toList, "POST".toList, some 3)]

/-- The segments that a suffix `s`, empty or starting with a slash,
contributes to the normalised path `rest ++ s`. -/
def suffixSegments (s : GoString) : List GoString :=
  (Split (TrimSuffix s "/".toList) '/').tail

/-- The calls of `runInserts t routes` that returned a nil error, in order. -/
def registered (t : Trie H) : List (Route H) → List (Route H)
  | [] => []
  | r :: rest =>
    if (t.Insert r.1 r.2.1 r.2.2).2 = none then
      r :: registered (t.Insert r.1 r.2.1 r.2.2).1 rest
    else registered (t.Insert r.1 r.2.1 r.2.2).1 rest

/-- Conflict (a): a route of `R` has the method `method` and the normalised
segment list of `path`. -/
def DuplicateOf (R : List (Route H)) (path method : GoString) : Prop :=
  ∃ r ∈ R, r.2.1 = method ∧ segmentsOf r.1 = segmentsOf path

/-- Conflict (b): after the same preceding segments, `path` and a route of `R`
both have a placeholder, with different names. -/
def NameClashWith (R : List (Route H)) (path : GoString) : Prop :=
  ∃ r ∈ R, ∃ pre s post s' post', segmentsOf path = pre ++ s :: post ∧
    segmentsOf r.1 = pre ++ s' :: post' ∧ varsNameRegex s = true ∧
    varsNameRegex s' = true ∧ nameOf s' ≠ nameOf s

/-- Below `n`, the node of every placeholder segment of `segs`, if there is
one, is labelled with the name of the placeholder. -/
def LabelsAgree (n : TrieNode H) (segs : List GoString) : Prop :=
  ∀ pre s post i, segs = pre ++ s :: post → varsNameRegex s = true →
    view n ((pre ++ [s]).map keyOf) = some i → i.Label = nameOf s

/-- The trie `t` holds the routes `R` and nothing else: every node lies on the
key path of a route of `R`, every handler is the one of a route of `R`, the
placeholders of the routes of `R` name the labels of their nodes, and the
handler of every route of `R` is registered at the end of its key path. -/
structure Rep (t : Trie H) (R : List (Route H)) : Prop where
  onRoute : ∀ ks i, ks ≠ [] → view t.root ks = some i →
    ∃ r ∈ R, ks <+: (segmentsOf r.1).map keyOf
  handlers : ∀ ks i m x, view t.root ks = some i → i.Value m = some x →
    ∃ r ∈ R, (segmentsOf r.1).map keyOf = ks ∧ r.2.1 = m ∧ r.2.2 = x
  labels : ∀ r ∈ R, ∀ pre s post, segmentsOf r.1 = pre ++ s :: post →
    varsNameRegex s = true →
    ∃ i, view t.root ((pre ++ [s]).map keyOf) = some i ∧ i.Label = nameOf s
  stored : ∀ r ∈ R, ∃ i, view t.root ((segmentsOf r.1).map keyOf) = some i ∧
    i.Value r.2.1 = some r.2.2

/-- The literal route `/__VARS__`, for `GET`. -/
def reservedRoutes : List (Route Nat) :=
  [("/__VARS__".toList, "GET".toList, some 1)]

/-- No node at or below `n` has a child stored under the reserved key. -/
def NoVarsChild (n : TrieNode H) : Prop :=
  ∀ ks N, descend ks n = some N → N.Children VarsLabel = none

/-- The routes `/v1/users` and `/v1/users/profiles`, both for `GET`. -/
def literalRoutes : List (Route Nat) :=
  [("/v1/users".toList, "GET".toList, some 1),
   ("/v1/users/profiles".toList, "GET".toList, some 2)]

/-- The trie of `/a/x/c` and `/a/{id}/d`, inserted in this order. -/
def precedenceTrie (m : GoString) (h1 h2 : Handler H) : Trie H :=
  (((NewTrie : Trie H).Insert "/a/x/c".toList m h1).1.Insert "/a/{id}/d".toList m h2).1

/-- The trie of `/a/{id}/d` and `/a/x/c`, inserted in this order. -/
def precedenceTrieRev (m : GoString) (h1 h2 : Handler H) : Trie H :=
  (((NewTrie : Trie H).Insert "/a/{id}/d".toList m h2).1.Insert "/a/x/c".toList m h1).1

/-- An ASCII letter, `A`..`Z` or `a`..`z`. -/
def asciiLetter (c : Char) : Bool :=
  ('a' ≤ c && c ≤ 'z') || ('A' ≤ c && c ≤ 'Z')

/-- The segment classification in the words of the specification: an opening
brace, one or more ASCII letters, a closing brace. -/
def specPlaceholder (s : GoString) : Bool :=
  s.head? == some '\x7b' && s.getLast? == some '\x7d' && decide (3 ≤ s.length)
    && ((s.drop 1).dropLast).all asciiLetter

/-- The nodes stored under a key other than the reserved one are of kind
`PathNode` and labelled with their key. -/
def LiteralInv (n : TrieNode H) : Prop :=
  ∀ ks k i, view n (ks ++ [k]) = some i → k ≠ VarsLabel → i.Kind = PathNode ∧ i.Label = k

/-- The route `/a/{x}/b/{x}`, for `GET`. -/
def repeatedNameRoutes : List (Route Nat) :=
  [("/a/{x}/b/{x}".toList, "GET".toList, some 1)]

/-- The router after `Handle("GET", "/users/{uid}", 1)` and
`Handle("GET", "/users/static", 2)`. -/
def usersRouter : Router Nat :=
  ((NewRouter.Handle "GET".toList "/users/{uid}".toList (some 1)).1.Handle
    "GET".toList "/users/static".toList (some 2)).1

/-- The router after the calls `Handle(method, path, handler)` of `routes`,
made one after the other on `r`, whatever they do. -/
def runHandles (r : Router H) : List (Route H) → Router H
  | [] => r
  | rt :: rest => runHandles (r.Handle rt.2.1 rt.1 rt.2.2).1 rest

/-- The router after `Handle("GET", "/", nil)`. -/
def nilRouter : Router Nat :=
  (NewRouter.Handle "GET".toList "/".toList none).1

/-- A `GET` request for `/`, with the background context. -/
def rootRequest : Request :=
  { Method := "GET".toList, Path := "/".toList, ctx := [] }

/-- A `GET` request for `/users/7`, with the background context. -/
def userRequest : Request :=
  { Method := "GET".toList, Path := "/users/7".toList, ctx := [] }

/-- The nodes stored under the reserved key are of kind `VarsNode`, or are the
node of the literal segment `__VARS__`. -/
def SlotInv (n : TrieNode H) : Prop :=
  ∀ ks i, view n (ks ++ [VarsLabel]) = some i →
    i.Kind = VarsNode ∨ (i.Kind = PathNode ∧ i.Label = VarsLabel)

/-- The routes `/a` and `/a/b`, both for `GET`. -/
def nestedRoutes : List (Route Nat) :=
  [("/a".toList, "GET".toList, some 1), ("/a/b".toList, "GET".toList, some 2)]

/-- The trie of `/{id}` for `GET` and of the literal route `/__VARS__` for
`POST`, inserted in this order. -/
def slotTrie : Trie Nat :=
  (((NewTrie : Trie Nat).Insert "/{id}".toList "GET".toList (some 1)).1.Insert
    "/__VARS__".toList "POST".toList (some 2)).1

/-- The trie in which `/a` is registered for `GET`. -/
def singleTrie : Trie Nat :=
  ((NewTrie : Trie Nat).Insert "/a".toList "GET".toList (some 1)).1

/-- The trie in which `/a/{x}/b` is registered for `GET`. -/
def namedTrie : Trie Nat :=
  ((NewTrie : Trie Nat).Insert "/a/{x}/b".toList "GET".toList (some 1)).1

/-- The variables that `Trie.Get` binds when the request segments are the
segments `segs` of a registered template themselves: every segment that
`varsNameRegex` matches is bound, as text, to its own name. -/
def selfVars (segs : List GoString) : Vars :=
  (segs.filter (fun s => varsNameRegex s)).map (fun s => { Name := nameOf s, Value := s })

/-- The route `/users/{uid}/{a}/x`, for `GET`. -/
def sharedNameRoutes : List (Route Nat) :=
  [("/users/{uid}/{a}/x".toList, "GET".toList, some 1)]

end Notions

end Httpmux

open Httpmux

/-! ## The Go library calls made by the `jwt` and `sqltx` packages

`strconv`, `encoding/json` and `time` are not part of the repository: what
follows describes, after their documentation, the few functions the two
packages call. A byte slice is, like a string, a list of characters. -/

namespace strconv

/-- The decimal digit `d`, for `d < 10`. -/
def digitChar (d : Nat) : Char := Char.ofNat (48 + d)

/-- The decimal digits of `n`, the most significant first, at most `fuel` of
them. -/
def formatBits : Nat → Nat → GoString
  | 0, _ => []
  | fuel + 1, n =>
    if n < 10 then [digitChar n] else formatBits fuel (n / 10) ++ [digitChar (n % 10)]

/-- Go `strconv.FormatInt(i, 10)` for an `int64`, which has at most 19
digits. -/
def FormatInt (i : Int) : GoString :=
  if i < 0 then '-' :: formatBits 20 i.natAbs else formatBits 20 i.natAbs

/-- Whether `c` is one of `0` .. `9`. -/
def isDigit (c : Char) : Bool := decide ('0' ≤ c ∧ c ≤ '9')

/-- The number a string of decimal digits denotes behind the digits already
read as `acc`; `none` when a character is not a digit. -/
def parseDigits : GoString → Nat → Option Nat
  | [], acc => some acc
  | c :: cs, acc => if isDigit c then parseDigits cs (acc * 10 + (c.toNat - 48)) else none

/-- The digits of `strconv.ParseInt` behind the sign: `none` when there is none
or one of the characters is not a digit. -/
def parseMagnitude (ds : GoString) : Option Nat :=
  if ds = [] then none else parseDigits ds 0

/-- Go `strconv.ParseInt(s, 10, 64)`: `none` is an error (a syntax error, or a
value outside of `int64`). -/
def ParseInt (s : GoString) : Option Int :=
  match s with
  | [] => none
  | c :: ds =>
    if c = '-' then
      match parseMagnitude ds with
      | some n => if n ≤ 2 ^ 63 then some (-(n : Int)) else none
      | none => none
    else
      match parseMagnitude (if c = '+' then ds else c :: ds) with
      | some n => if n < 2 ^ 63 then some (n : Int) else none
      | none => none

end strconv

namespace json

open strconv (isDigit)

/-- The `for len(s) > 0 && '0' <= s[0] && s[0] <= '9'` loops of
`isValidNumber`. -/
def skipDigits (s : GoString) : GoString := s.dropWhile isDigit

/-- The integer part of a JSON number: what follows it, `none` when there is
no integer part. -/
def skipInt (s : GoString) : Option GoString :=
  match s with
  | [] => none
  | c :: rest =>
    if c = '0' then some rest
    else if '1' ≤ c ∧ c ≤ '9' then some (skipDigits rest)
    else none

/-- The optional fraction of a JSON number: what follows it. -/
def skipFrac (s : GoString) : GoString :=
  match s with
  | c :: d :: rest => if c = '.' ∧ isDigit d = true then skipDigits rest else s
  | _ => s

/-- The optional exponent of a JSON number: what follows it, `none` when a
sign ends the string. -/
def skipExp (s : GoString) : Option GoString :=
  match s with
  | c :: d :: rest =>
    if c = 'e' ∨ c = 'E' then
      if d = '+' ∨ d = '-' then
        if rest = [] then none else some (skipDigits rest)
      else some (skipDigits (d :: rest))
    else some s
  | _ => some s

/-- Go `encoding/json`, `isValidNumber`: whether `s` is a JSON number
literal. -/
def isValidNumber (s : GoString) : Bool :=
  match s with
  | [] => false
  | c :: rest =>
    let s1 := if c = '-' then rest else s
    if s1 = [] then false
    else
      match skipInt s1 with
      | none => false
      | some s2 =>
        match skipExp (skipFrac s2) with
        | none => false
        | some s3 => decide (s3 = [])

/-- JSON white space. -/
def isSpace (c : Char) : Bool := decide (c = ' ' ∨ c = '\t' ∨ c = '\r' ∨ c = '\n')

/-- The text without the white space around it. -/
def trimSpace (s : GoString) : GoString :=
  ((s.dropWhile isSpace).reverse.dropWhile isSpace).reverse

/-- The value of a hexadecimal digit. -/
def hexVal (c : Char) : Option Nat :=
  if '0' ≤ c ∧ c ≤ '9' then some (c.toNat - 48)
  else if 'a' ≤ c ∧ c ≤ 'f' then some (c.toNat - 87)
  else if 'A' ≤ c ∧ c ≤ 'F' then some (c.toNat - 55)
  else none

/-- Go `getu4`: the number that the four hexadecimal digits of a `\u` escape
denote. -/
def getu4 (a b c d : Char) : Option Nat :=
  match hexVal a, hexVal b, hexVal c, hexVal d with
  | some p, some q, some r, some s => some (p * 4096 + q * 256 + r * 16 + s)
  | _, _, _, _ => none

/-- Go `unicode.ReplacementChar`. -/
def replacementChar : Char := Char.ofNat 0xFFFD

/-- The character of a `\u` escape `rr` that is followed by the text `rest`,
and what is left of `rest`: a surrogate pair written as two escapes is one
character, a surrogate alone is the replacement character. -/
def escapedRune (rr : Nat) (rest : GoString) : Char × GoString :=
  if 0xD800 ≤ rr ∧ rr < 0xE000 then
    match rest with
    | '\\' :: 'u' :: a :: b :: c :: d :: rest1 =>
      match getu4 a b c d with
      | some rr1 =>
        if rr < 0xDC00 ∧ 0xDC00 ≤ rr1 ∧ rr1 < 0xE000 then
          (Char.ofNat ((rr - 0xD800) * 1024 + (rr1 - 0xDC00) + 0x10000), rest1)
        else (replacementChar, rest)
      | none => (replacementChar, rest)
    | _ => (replacementChar, rest)
  else (Char.ofNat rr, rest)

/-- Go `unquote` of `encoding/json`, on the text between the quotes of a
string literal: the string the literal denotes, with at most `fuel`
steps, of which the length of the text plus one is enough; `none` when the
text is not the inside of a JSON string literal (a quote or a control
character that is not escaped, or an escape that JSON does not have). -/
def unquoteBody : Nat → GoString → Option GoString
  | 0, _ => none
  | _ + 1, [] => some []
  | fuel + 1, c :: rest =>
    if c = '\\' then
      match rest with
      | e :: rest1 =>
        if e = 'u' then
          match rest1 with
          | a :: b :: c1 :: d :: rest2 =>
            match getu4 a b c1 d with
            | some rr =>
              (unquoteBody fuel (escapedRune rr rest2).2).map
                (fun s => (escapedRune rr rest2).1 :: s)
            | none => none
          | _ => none
        else
          let plain : Option Char :=
            if e = '\x22' ∨ e = '\\' ∨ e = '/' then some e
            else if e = 'b' then some (Char.ofNat 8)
            else if e = 'f' then some (Char.ofNat 12)
            else if e = 'n' then some '\n'
            else if e = 'r' then some '\r'
            else if e = 't' then some '\t'
            else none
          match plain with
          | some x => (unquoteBody fuel rest1).map (fun s => x :: s)
          | none => none
      | [] => none
    else if c = '\x22' ∨ c.toNat < 32 then none
    else (unquoteBody fuel rest).map (fun s => c :: s)

/-- Go `json.Unmarshal(b, &ms)` for `var ms json.Number`: the text left in
`ms`, `none` for an error. A number literal is stored as it is written, a
string literal that denotes a number literal is stored as the string it
denotes, `null` leaves the empty `ms`, and every other text is an error. -/
def UnmarshalNumber (b : GoString) : Option GoString :=
  let v := trimSpace b
  if isValidNumber v then some v
  else if v = "null".toList then some []
  else
    match v with
    | c :: rest =>
      if c = '\x22' ∧ rest.getLast? = some '\x22' then
        match unquoteBody (rest.length + 1) rest.dropLast with
        | some s => if isValidNumber s then some s else none
        | none => none
      else none
    | [] => none

end json

namespace time

/-- The location pointer of a Go `time.Time`, as `reflect.DeepEqual` and `==`
tell locations apart: the nil pointer, which stands for UTC; `time.Local`, the
location of the values of `time.Now` and `time.Unix`; or another location. -/
inductive Location where
  | UTC
  | Local
  | other (id : Nat)
  deriving DecidableEq

/-- Go `time.Time` without a monotonic clock reading: `sec` seconds since the
Unix epoch, `nsec < 10^9` nanoseconds within that second, and the location
`loc`. The monotonic clock reading that a value of `time.Now` carries is left
out: `Truncate` strips it before anything else, `time.Unix` sets none, and
`After`, `Before` and `UnixMilli` are used here on times without one. A time
written without its location is in `Local`. -/
structure Time where
  sec : Int
  nsec : Nat
  loc : Location := Location.Local
  deriving DecidableEq

/-- Go `time.Millisecond`, in nanoseconds. -/
def Millisecond : Int := 1000000

/-- Seconds from January 1 of year 1, the zero time, to the Unix epoch. -/
def unixToInternal : Int := 62135596800

/-- The value of an `int64` computation whose exact result is `x`. -/
def wrapInt64 (x : Int) : Int := (x + 2 ^ 63) % 2 ^ 64 - 2 ^ 63

/-- Go `(Time).After`. -/
def Time.After (t u : Time) : Bool :=
  decide (t.sec > u.sec ∨ (t.sec = u.sec ∧ t.nsec > u.nsec))

/-- Go `(Time).Before`. -/
def Time.Before (t u : Time) : Bool :=
  decide (t.sec < u.sec ∨ (t.sec = u.sec ∧ t.nsec < u.nsec))

/-- Go `(Time).Truncate`: `t` rounded down to a multiple of `d` since the zero
time, in the location of `t`; `t` itself when `d <= 0`. -/
def Time.Truncate (t : Time) (d : Int) : Time :=
  if d ≤ 0 then t
  else
    let r := ((t.sec + unixToInternal) * 1000000000 + (t.nsec : Int)) % d
    let total := t.sec * 1000000000 + (t.nsec : Int) - r
    { sec := total / 1000000000, nsec := (total % 1000000000).toNat, loc := t.loc }

/-- Go `(Time).UnixMilli`: `t.unixSec()*1e3 + int64(t.nsec())/1e6` in
`int64`. -/
def Time.UnixMilli (t : Time) : Int :=
  wrapInt64 (t.sec * 1000 + (t.nsec : Int) / 1000000)

/-- Go `time.Unix`: a time in the location `Local`. -/
def Unix (sec nsec : Int) : Time :=
  if nsec < 0 ∨ nsec ≥ 1000000000 then
    let n := nsec.tdiv 1000000000
    let sec1 := sec + n
    let nsec1 := nsec - n * 1000000000
    if nsec1 < 0 then
      { sec := sec1 - 1, nsec := (nsec1 + 1000000000).toNat, loc := Location.Local }
    else { sec := sec1, nsec := nsec1.toNat, loc := Location.Local }
  else { sec := sec, nsec := nsec.toNat, loc := Location.Local }

/-- Go `time.UnixMilli`: `Unix(msec/1e3, (msec%1e3)*1e6)`, with the division of
Go, which truncates. -/
def UnixMilli (msec : Int) : Time :=
  Unix (msec.tdiv 1000) (msec.tmod 1000 * 1000000)

end time

/-! ## `jwt.go`: times and standard claims -/

namespace Jwt

set_option linter.dupNamespace false

def ErrExpired : GoError := some "jwt: claims expired".toList
def ErrNotBefore : GoError := some "jwt: claims not active yet".toList
def ErrInvalidFormat : GoError := some "jwt: invalid token format".toList

/-- Go `jwt.Time`, which embeds a `time.Time`. -/
structure Time where
  Time : time.Time
  deriving DecidableEq

/-- Go `NewTime`. -/
def NewTime (at_ : time.Time) : Time := { Time := at_.Truncate time.Millisecond }

/-- Go `(*Time).MarshalJSON`; `json.Marshal` of an `int64` is its decimal
representation, and has no error. -/
def Time.MarshalJSON (t : Jwt.Time) : GoString × GoError :=
  let ms := (t.Time.Truncate time.Millisecond).UnixMilli
  (strconv.FormatInt ms, none)

/-- Go `(*Time).UnmarshalJSON`: the time `t` points to after the call, and the
error. The texts of the errors of `json.Unmarshal` and of `Number.Int64` are
not described: each is one fixed message. -/
def Time.UnmarshalJSON (t : Jwt.Time) (b : GoString) : Jwt.Time × GoError :=
  match json.UnmarshalNumber b with
  | none => (t, some "json: cannot unmarshal into Number".toList)
  | some ms =>
    match strconv.ParseInt ms with
    | none => (t, some "strconv.ParseInt: parsing failed".toList)
    | some msi64 =>
      let mst := time.UnixMilli msi64
      ({ Time := mst }, none)

/-- Go `StandardClaims`; a nil `*Time` is `none`. -/
structure StandardClaims where
  ID : GoString := []
  Issuer : GoString := []
  Subject : GoString := []
  Audience : GoString := []
  IssuedAt : Option Time := none
  ExpiresAt : Option Time := none
  NotBefore : Option Time := none
  deriving DecidableEq

/-- Go `(StandardClaims).Valid`, for a non-nil `at`. -/
def StandardClaims.Valid (s : StandardClaims) (at_ : Time) : GoError :=
  if s.ExpiresAt.any (fun e => at_.Time.After e.Time) then ErrExpired
  else if s.NotBefore.any (fun n => at_.Time.Before n.Time) then ErrNotBefore
  else none

/-- The instant of a time, in nanoseconds since the Unix epoch. -/
def instant (t : time.Time) : Int := t.sec * 1000000000 + (t.nsec : Int)

/-- The whole milliseconds from the Unix epoch to `t`, rounded down. -/
def unixMillis (t : time.Time) : Int := instant t / 1000000

/-- The instant `time.Unix(1<<62, 0)`, some 146 thousand million years after
1970. -/
def farFuture : time.Time := { sec := 2 ^ 62, nsec := 0 }

/-- The instant `time.Unix(1700000000, 123456789)`. -/
def sampleInstant : time.Time := { sec := 1700000000, nsec := 123456789 }

/-- The time `time.Unix(1700000000, 123456789).UTC()`. -/
def sampleInstantUTC : time.Time :=
  { sec := 1700000000, nsec := 123456789, loc := time.Location.UTC }

end Jwt

/-! ## `jwt.go`: tokens

`CreateToken` and `DecodeToken` call `encoding/json` and `encoding/base64`,
which are not part of the repository; these calls are the fields of `Lib`,
and `goLib`, further down, is the library of Go written out. A call either
returns or panics: `Outcome`. -/

namespace strings

/-- The text before and after the first `sep`; `none` when there is no
`sep`. -/
def cut (sep : Char) : GoString → Option (GoString × GoString)
  | [] => none
  | c :: cs =>
    if c = sep then some ([], cs)
    else
      match cut sep cs with
      | none => none
      | some (a, b) => some (c :: a, b)

/-- The pieces of `s` between its first `k` separators, the last piece being
the unsplit remainder. -/
def splitUpTo (sep : Char) : Nat → GoString → List GoString
  | 0, s => [s]
  | k + 1, s =>
    match cut sep s with
    | none => [s]
    | some (a, b) => a :: splitUpTo sep k b

/-- Go `strings.SplitN(s, sep, n)` for a separator of one character and
`n >= 0`. -/
def SplitN (s : GoString) (sep : Char) (n : Nat) : List GoString :=
  if n = 0 then [] else splitUpTo sep (n - 1) s

end strings

namespace Jwt

/-- A value of type `interface{}` held by a `Header`: a string, or a value `a`
of another kind. -/
inductive Value (A : Type) where
  | str (s : GoString)
  | other (a : A)
  deriving DecidableEq

/-- A non-nil Go `map[string]interface{}`: the list of its entries, the last
one written first; the value of a key is the value of the first entry with
the key. -/
abbrev HeaderMap (A : Type) := List (GoString × Value A)

/-- Go `Header`; `none` is the nil map. -/
abbrev Header (A : Type) := Option (HeaderMap A)

/-- Go `v, ok := m[key]`; `none` when the key is absent. -/
def HeaderMap.get {A : Type} (m : HeaderMap A) (key : GoString) : Option (Value A) :=
  match m with
  | [] => none
  | e :: rest => if e.1 = key then some e.2 else HeaderMap.get rest key

/-- The map after `m[key] = v`. -/
def HeaderMap.set {A : Type} (m : HeaderMap A) (key : GoString) (v : Value A) : HeaderMap A :=
  (key, v) :: m

/-- Go `s, _ := header[key].(string)`, also for a nil `header`. -/
def Header.stringAt {A : Type} (header : Header A) (key : GoString) : GoString :=
  match header with
  | none => []
  | some m =>
    match m.get key with
    | some (Value.str s) => s
    | _ => []

/-- Go `Signer`. -/
structure Signer where
  Alg : GoString
  KeyID : GoString
  Sign : GoString → GoString × GoError

/-- Go `Verifier`. -/
structure Verifier where
  Verify : GoString → GoString → GoError

/-- Go `VerifierSelector`; the verifier it returns may be nil, `none`. -/
abbrev VerifierSelector := GoString → GoString → Option Verifier × GoError

/-- How a call ends: it returns `a`, or it panics. -/
inductive Outcome (α : Type) where
  | returned (a : α)
  | panicked (msg : GoString)
  deriving DecidableEq

/-- The library calls of `CreateToken` and `DecodeToken`, for headers with
values in `A` and a claims type `C`. -/
structure Lib (A C : Type) where
  /-- Go `json.Marshal(header)`. -/
  marshalHeader : HeaderMap A → GoString × GoError
  /-- Go `json.Marshal(claims)`. -/
  marshalClaims : C → GoString × GoError
  /-- Go `base64.RawURLEncoding.Encode`, and `EncodeToString`. -/
  b64Encode : GoString → GoString
  /-- Go `base64.RawURLEncoding.DecodeString`. -/
  b64DecodeString : GoString → GoString × GoError
  /-- Go `json.NewDecoder(base64.NewDecoder(base64.RawURLEncoding,
  strings.NewReader(s))).Decode(&header)`: the header afterwards and the
  error. -/
  decodeHeader : GoString → Header A → Header A × GoError
  /-- The same call for the claims destination: the claims afterwards and the
  error. -/
  decodeClaims : GoString → C → C × GoError
  /-- The method `Valid` of the claims destination, `none` when its type does
  not implement the interface `Valid`. -/
  valid : Option (C → Jwt.Time → GoError)
  /-- Go `time.Now()`. -/
  now : time.Time

/-- Go `b64URLEncoded`. -/
def b64URLEncoded {A C α : Type} (L : Lib A C) (marshal : α → GoString × GoError) (v : α) :
    GoString × GoError :=
  match marshal v with
  | (_, some err) => ([], some err)
  | (b, none) => (L.b64Encode b, none)

/-- Go `b64URLEncodeToJSON`; `decode` is the library call for the type of
`v`. -/
def b64URLEncodeToJSON {α : Type} (decode : GoString → α → α × GoError)
    (urlEncoded : GoString) (v : α) : α × GoError :=
  decode urlEncoded v

/-- Go `fmt.Errorf("%w: " + what, err)`. -/
def wrapError (err what : GoString) : GoError := some (err ++ ": ".toList ++ what)

/-- Go `CreateToken`. The assignment `header["alg"] = ...` panics on a nil
map. The line `log.Println(header)` is left out. -/
def CreateToken {A C : Type} (L : Lib A C) (signer : Signer) (header : Header A) (claims : C) :
    Outcome (GoString × GoError) :=
  match header with
  | none => Outcome.panicked "assignment to entry in nil map".toList
  | some header0 =>
    let header1 := header0.set "alg".toList (Value.str signer.Alg)
    let header2 := header1.set "kid".toList (Value.str signer.KeyID)
    match b64URLEncoded L L.marshalHeader header2 with
    | (_, some err) => Outcome.returned ([], wrapError err "encode header part".toList)
    | (headerB64Encoded, none) =>
      match b64URLEncoded L L.marshalClaims claims with
      | (_, some err) => Outcome.returned ([], wrapError err "encode claims part".toList)
      | (claimsB64Encoded, none) =>
        let sb := headerB64Encoded ++ '.' :: claimsB64Encoded
        match signer.Sign sb with
        | (_, some err) => Outcome.returned ([], wrapError err "create signature".toList)
        | (signature, none) => Outcome.returned (sb ++ '.' :: L.b64Encode signature, none)

/-- What a call of `DecodeToken` did: how it ended, the claims destination
afterwards, and the `(alg, kid)` of each call of the selector. -/
structure Decoded (C : Type) where
  ret : Outcome GoError
  claims : C
  selected : List (GoString × GoString)
  deriving DecidableEq

/-- Go `DecodeToken`; `claims` is what the destination holds before the call.
Calling `Verify` on a nil verifier panics. -/
def DecodeToken {A C : Type} (L : Lib A C) (selector : VerifierSelector) (token : GoString)
    (claims : C) : Decoded C :=
  match strings.SplitN token '.' 3 with
  | [part0, part1, part2] =>
    match b64URLEncodeToJSON L.decodeHeader part0 none with
    | (_, some err) =>
      { ret := Outcome.returned (wrapError err "encode base64-url header into Header".toList),
        claims := claims, selected := [] }
    | (header, none) =>
      match L.b64DecodeString part2 with
      | (_, some err) =>
        { ret := Outcome.returned (wrapError err "creating signature".toList),
          claims := claims, selected := [] }
      | (signature, none) =>
        let kid := header.stringAt "kid".toList
        let alg := header.stringAt "alg".toList
        match selector alg kid with
        | (_, some err) =>
          { ret := Outcome.returned (wrapError err "selecting verifier".toList),
            claims := claims, selected := [(alg, kid)] }
        | (none, none) =>
          { ret := Outcome.panicked "invalid memory address or nil pointer dereference".toList,
            claims := claims, selected := [(alg, kid)] }
        | (some verifier, none) =>
          let content := part0 ++ '.' :: part1
          match verifier.Verify content signature with
          | some err =>
            { ret := Outcome.returned (wrapError err "verifying signature".toList),
              claims := claims, selected := [(alg, kid)] }
          | none =>
            match b64URLEncodeToJSON L.decodeClaims part1 claims with
            | (claims1, some err) =>
              { ret := Outcome.returned
                  (wrapError err "encode base64-url body into claims".toList),
                claims := claims1, selected := [(alg, kid)] }
            | (claims1, none) =>
              match L.valid with
              | some valid =>
                { ret := Outcome.returned (valid claims1 (NewTime L.now)),
                  claims := claims1, selected := [(alg, kid)] }
              | none =>
                { ret := Outcome.returned none, claims := claims1, selected := [(alg, kid)] }
  | _ => { ret := Outcome.returned ErrInvalidFormat, claims := claims, selected := [] }

/-! ### Base 64, and a signer to run the functions

The unpadded URL alphabet of base 64, `base64.RawURLEncoding`, and a signer, a
verifier and a selector on which `CreateToken` and `DecodeToken` can be run. -/

/-- The URL alphabet of base 64. -/
def b64Alphabet : GoString :=
  "ABCDEFGHIJKLMNOPQRSTUVWXYZabcdefghijklmnopqrstuvwxyz0123456789-_".toList

/-- The character for six bits. -/
def b64Char (n : Nat) : Char := b64Alphabet.getD n 'A'

/-- Unpadded base 64 of a sequence of bytes. -/
def b64Raw : GoString → GoString
  | a :: b :: c :: rest =>
    let x := a.toNat % 256 * 65536 + b.toNat % 256 * 256 + c.toNat % 256
    b64Char (x / 262144) :: b64Char (x / 4096 % 64) :: b64Char (x / 64 % 64) ::
      b64Char (x % 64) :: b64Raw rest
  | [a, b] =>
    let x := a.toNat % 256 * 1024 + b.toNat % 256 * 4
    [b64Char (x / 4096), b64Char (x / 64 % 64), b64Char (x % 64)]
  | [a] =>
    let x := a.toNat % 256 * 16
    [b64Char (x / 64), b64Char (x % 64)]
  | [] => []

/-- The six bits of a character of the alphabet. -/
def b64Bits (c : Char) : Option Nat :=
  if c ∈ b64Alphabet then some (b64Alphabet.indexOf c) else none

/-- A signer whose signature of `b` is `b` reversed. -/
def demoSigner : Signer where
  Alg := "REV".toList
  KeyID := "k1".toList
  Sign := fun b => (b.reverse, none)

/-- The verifier that accepts the signatures of `demoSigner`. -/
def demoVerifier : Verifier where
  Verify := fun b sig => if sig = b.reverse then none else some "bad signature".toList

/-- The selector that knows `demoVerifier` under `REV` and `k1`. -/
def demoSelector : VerifierSelector := fun alg kid =>
  if alg = "REV".toList ∧ kid = "k1".toList then (some demoVerifier, none)
  else (none, some "unknown verifier".toList)

/-- Claims issued at `sampleInstant` that expire an hour later. -/
def demoClaims : StandardClaims :=
  { ID := "123".toList, Issuer := "notebook".toList, Subject := "12345".toList,
    IssuedAt := some (NewTime sampleInstant),
    ExpiresAt := some (NewTime { sec := 1700003600, nsec := 123456789 }) }

end Jwt

/-! ## `sqltx.go`

The database is not part of the repository: `DB` holds the three calls that
`ExecTransactions` makes on it, each a function of the state `σ` of the
database and of its connection. A run is described by what it returns, the
state it leaves, and the calls it made, in order. -/

namespace Sqltx

/-- Go `errors.Wrap(err, message)` of `github.com/pkg/errors`, and `Wrapf` once
the message is formatted: nil for a nil `err`, otherwise the error
`message: err`. -/
def Wrap (err : GoError) (message : GoString) : GoError :=
  match err with
  | none => none
  | some e => some (message ++ ": ".toList ++ e)

/-- A non-nil Go `Transaction`, for contexts `K`: the context and the error it
returns, and the state it leaves. -/
abbrev Transaction (K σ : Type) := K → σ → (K × GoError) × σ

/-- The calls `db.Beginx()`, `tx.Rollback()` and `tx.Commit()`: the error each
returns and the state it leaves. -/
structure DB (σ : Type) where
  Beginx : σ → GoError × σ
  Rollback : σ → GoError × σ
  Commit : σ → GoError × σ

/-- A call made by `ExecTransactions`: `call i ctx ctx1 err` is the call
`transactions[i](ctx, tx)` that returned `(ctx1, err)`; the other three carry
the error the call returned. -/
inductive Event (K : Type) where
  | beginx (err : GoError)
  | call (i : Nat) (ctx ctx1 : K) (err : GoError)
  | rollback (err : GoError)
  | commit (err : GoError)
  deriving DecidableEq

/-- The `for` loop of `ExecTransactions` from index `i` on, `transactions`
being what is left of the slice: `some err` when the loop returns `err` from
the function and `none` when it ends, the state, and the calls made. A nil
transaction is `none`. -/
def execLoop {K σ : Type} (db : DB σ) :
    List (Option (Transaction K σ)) → Nat → K → σ → Option GoError × σ × List (Event K)
  | [], _, _, s => (none, s, [])
  | none :: rest, i, ctx, s => execLoop db rest (i + 1) ctx s
  | some transaction :: rest, i, ctx, s =>
    match transaction ctx s with
    | ((ctx1, some err), s1) =>
      match db.Rollback s1 with
      | (some rollbackErr, s2) =>
        (some (Wrap (some err) ("rolling back transactions[".toList ++
            strconv.FormatInt i ++ "] failed with error: ".toList ++ rollbackErr)),
          s2, [Event.call i ctx ctx1 (some err), Event.rollback (some rollbackErr)])
      | (none, s2) =>
        (some (Wrap (some err) ("evaluating transactions[".toList ++
            strconv.FormatInt i ++ "]".toList)),
          s2, [Event.call i ctx ctx1 (some err), Event.rollback none])
    | ((ctx1, none), s1) =>
      match execLoop db rest (i + 1) ctx1 s1 with
      | (ret, s2, events) => (ret, s2, Event.call i ctx ctx1 none :: events)

/-- What a call of `ExecTransactions` did. -/
structure Run (K σ : Type) where
  err : GoError
  state : σ
  events : List (Event K)

/-- Go `ExecTransactions`, from the state `s`. -/
def ExecTransactions {K σ : Type} (ctx : K) (db : DB σ)
    (transactions : List (Option (Transaction K σ))) (s : σ) : Run K σ :=
  match db.Beginx s with
  | (some err, s1) =>
    { err := Wrap (some err) "begin transaction".toList, state := s1,
      events := [Event.beginx (some err)] }
  | (none, s1) =>
    match execLoop db transactions 0 ctx s1 with
    | (some ret, s2, events) =>
      { err := ret, state := s2, events := Event.beginx none :: events }
    | (none, s2, events) =>
      match db.Commit s2 with
      | (some err, s3) =>
        { err := Wrap (some err) "committing transaction".toList, state := s3,
          events := Event.beginx none :: (events ++ [Event.commit (some err)]) }
      | (none, s3) =>
        { err := none, state := s3,
          events := Event.beginx none :: (events ++ [Event.commit none]) }

/-! ### Notions used to state the property -/

/-- The indexes, counted from `i`, of the transactions that are not nil. -/
def nonNilFrom {T : Type} : Nat → List (Option T) → List Nat
  | _, [] => []
  | i, none :: rest => nonNilFrom (i + 1) rest
  | i, some _ :: rest => i :: nonNilFrom (i + 1) rest

/-- The indexes of the transactions called, in the order of the calls. -/
def called {K : Type} : List (Event K) → List Nat
  | [] => []
  | Event.call i _ _ _ :: rest => i :: called rest
  | _ :: rest => called rest

/-- The indexes of the transactions whose call returned an error. -/
def failed {K : Type} : List (Event K) → List Nat
  | [] => []
  | Event.call i _ _ (some _) :: rest => i :: failed rest
  | _ :: rest => failed rest

/-- The number of calls of `Rollback`. -/
def rollbacks {K : Type} : List (Event K) → Nat
  | [] => 0
  | Event.rollback _ :: rest => rollbacks rest + 1
  | _ :: rest => rollbacks rest

/-- The number of calls of `Commit`. -/
def commits {K : Type} : List (Event K) → Nat
  | [] => 0
  | Event.commit _ :: rest => commits rest + 1
  | _ :: rest => commits rest

/-- The error returned by the last call of `Commit`, if there is one. -/
def commitError {K : Type} : List (Event K) → Option GoError
  | [] => none
  | Event.commit err :: rest =>
    match commitError rest with
    | none => some err
    | some e => some e
  | _ :: rest => commitError rest

/-- Each call receives the context returned by the call before it, and the
first call receives `ctx`. -/
def Chained {K : Type} : K → List (Event K) → Prop
  | _, [] => True
  | ctx, Event.call _ c c1 _ :: rest => c = ctx ∧ Chained c1 rest
  | ctx, _ :: rest => Chained ctx rest

/-- Each call recorded is the call of the transaction at its index, on the
context recorded, and returned what is recorded. -/
def Faithful {K σ : Type} (transactions : List (Option (Transaction K σ))) :
    List (Event K) → Prop
  | [] => True
  | Event.call i c c1 err :: rest =>
    (∃ t s, transactions[i]? = some (some t) ∧ (t c s).1 = (c1, err)) ∧
      Faithful transactions rest
  | _ :: rest => Faithful transactions rest

/-- A database on which every call succeeds; the state counts the statements
executed. -/
def demoDB : DB Nat where
  Beginx := fun s => (none, s)
  Rollback := fun _ => (none, 0)
  Commit := fun s => (none, s)

/-- A database on which no transaction can be begun. -/
def downDB : DB Nat where
  Beginx := fun s => (some "connection refused".toList, s)
  Rollback := fun s => (none, s)
  Commit := fun s => (none, s)

/-- A transaction that executes one statement and adds one to the context. -/
def demoInsert : Transaction Nat Nat := fun ctx s => ((ctx + 1, none), s + 1)

/-- A transaction that fails. -/
def demoFail : Transaction Nat Nat := fun ctx s => ((ctx, some "duplicate key".toList), s)

/-- Three transactions around a nil one, the third of which fails. -/
def demoBatch : List (Option (Transaction Nat Nat)) :=
  [some demoInsert, none, some demoFail, some demoInsert]

/-- Two transactions around a nil one, none of which fails. -/
def demoBatchOk : List (Option (Transaction Nat Nat)) :=
  [some demoInsert, none, some demoInsert]

end Sqltx

/-! ## The Go library calls of `CreateToken` and `DecodeToken`

`encoding/json`, `encoding/base64` and `unicode/utf8` are not part of the
repository. They are written out here after the Go library, as far as
`CreateToken` and `DecodeToken` call them on a `Header` and on a
`StandardClaims`.

* A `[]byte` is the list of its bytes, each as the character of that code,
  below 256. A `string` is the list of its characters; its bytes are their
  UTF-8 encoding.
* The texts of the errors of the library are not described: each kind of
  error is one fixed message.
-/

namespace utf8

/-- Go `utf8.RuneError`, the replacement character. -/
def RuneError : Char := Char.ofNat 0xFFFD

/-- Go `utf8.AppendRune`: the bytes of a character. -/
def encodeRune (c : Char) : GoString :=
  if c.toNat < 0x80 then [c]
  else if c.toNat < 0x800 then
    [Char.ofNat (0xC0 + c.toNat / 64), Char.ofNat (0x80 + c.toNat % 64)]
  else if c.toNat < 0x10000 then
    [Char.ofNat (0xE0 + c.toNat / 4096), Char.ofNat (0x80 + c.toNat / 64 % 64),
      Char.ofNat (0x80 + c.toNat % 64)]
  else
    [Char.ofNat (0xF0 + c.toNat / 262144), Char.ofNat (0x80 + c.toNat / 4096 % 64),
      Char.ofNat (0x80 + c.toNat / 64 % 64), Char.ofNat (0x80 + c.toNat % 64)]

/-- Go `[]byte(s)`: the bytes of a string. -/
def encode (s : GoString) : GoString := (s.map encodeRune).flatten

/-- Whether the byte `b` lies between `lo` and `hi`. -/
def inRange (b : Char) (lo hi : Nat) : Bool := decide (lo ≤ b.toNat ∧ b.toNat ≤ hi)

/-- Go `utf8.DecodeRune`: the first character of the bytes `b` and the number
of bytes it takes; for bytes that do not start with a well-formed character,
the replacement character and the width 1. -/
def DecodeRune (b : GoString) : Char × Nat :=
  match b with
  | [] => (RuneError, 0)
  | b0 :: rest =>
    if b0.toNat < 0x80 then (b0, 1)
    else if inRange b0 0xC2 0xDF then
      match rest with
      | b1 :: _ =>
        if inRange b1 0x80 0xBF then
          (Char.ofNat ((b0.toNat - 0xC0) * 64 + (b1.toNat - 0x80)), 2)
        else (RuneError, 1)
      | _ => (RuneError, 1)
    else if inRange b0 0xE0 0xEF then
      match rest with
      | b1 :: b2 :: _ =>
        if inRange b1 (if b0.toNat = 0xE0 then 0xA0 else 0x80)
            (if b0.toNat = 0xED then 0x9F else 0xBF) && inRange b2 0x80 0xBF then
          (Char.ofNat ((b0.toNat - 0xE0) * 4096 + (b1.toNat - 0x80) * 64 + (b2.toNat - 0x80)), 3)
        else (RuneError, 1)
      | _ => (RuneError, 1)
    else if inRange b0 0xF0 0xF4 then
      match rest with
      | b1 :: b2 :: b3 :: _ =>
        if inRange b1 (if b0.toNat = 0xF0 then 0x90 else 0x80)
            (if b0.toNat = 0xF4 then 0x8F else 0xBF) && inRange b2 0x80 0xBF
            && inRange b3 0x80 0xBF then
          (Char.ofNat ((b0.toNat - 0xF0) * 262144 + (b1.toNat - 0x80) * 4096
            + (b2.toNat - 0x80) * 64 + (b3.toNat - 0x80)), 4)
        else (RuneError, 1)
      | _ => (RuneError, 1)
    else (RuneError, 1)

/-- The characters of at most `fuel` steps of `DecodeRune` over the bytes
`b`. -/
def decodeRunes : Nat → GoString → GoString
  | 0, _ => []
  | fuel + 1, b =>
    if b = [] then [] else (DecodeRune b).1 :: decodeRunes fuel (b.drop (DecodeRune b).2)

/-- Go `[]rune(string(b))`: the characters of the bytes `b`, a byte that
starts no well-formed character being read as the replacement character. -/
def decode (b : GoString) : GoString := decodeRunes b.length b

end utf8

namespace base64

open Jwt (b64Raw b64Bits)

/-- Go `base64.RawURLEncoding.EncodeToString`, and `Encode`. -/
def EncodeToString (src : GoString) : GoString := b64Raw src

/-- The loop of `base64.RawURLEncoding.Decode` over groups of four characters:
the bytes decoded before the first character outside of the alphabet, or
before a last group of one character, and whether there was such an error. -/
def decodeQuanta : GoString → GoString × Bool
  | a :: b :: c :: d :: rest =>
    match b64Bits a, b64Bits b, b64Bits c, b64Bits d with
    | some p, some q, some r, some s =>
      (Char.ofNat ((p * 262144 + q * 4096 + r * 64 + s) / 65536) ::
        Char.ofNat ((p * 262144 + q * 4096 + r * 64 + s) / 256 % 256) ::
        Char.ofNat ((p * 262144 + q * 4096 + r * 64 + s) % 256) :: (decodeQuanta rest).1,
        (decodeQuanta rest).2)
    | _, _, _, _ => ([], true)
  | [a, b, c] =>
    match b64Bits a, b64Bits b, b64Bits c with
    | some p, some q, some r =>
      ([Char.ofNat ((p * 4096 + q * 64 + r) / 1024), Char.ofNat ((p * 4096 + q * 64 + r) / 4 % 256)],
        false)
    | _, _, _ => ([], true)
  | [a, b] =>
    match b64Bits a, b64Bits b with
    | some p, some q => ([Char.ofNat ((p * 64 + q) / 16)], false)
    | _, _ => ([], true)
  | [_] => ([], true)
  | [] => ([], false)

/-- Go `base64.RawURLEncoding.DecodeString`: line feeds and carriage returns
are skipped; with an error come the bytes decoded before it. -/
def DecodeString (s : GoString) : GoString × GoError :=
  let r := decodeQuanta (s.filter (fun c => c != '\r' && c != '\n'))
  (r.1, if r.2 then some "illegal base64 data".toList else none)

end base64

namespace json

/-- The digit of `n < 16` in `"0123456789abcdef"`. -/
def hexDigit (n : Nat) : Char := "0123456789abcdef".toList.getD n '0'

/-- What `appendString` of `encoding/json` writes for one character of a
string, with `escapeHTML` set as in `json.Marshal`. -/
def quoteRune (c : Char) : GoString :=
  if c = '\x22' ∨ c = '\\' then ['\\', c]
  else if c = Char.ofNat 8 then ['\\', 'b']
  else if c = Char.ofNat 12 then ['\\', 'f']
  else if c = '\n' then ['\\', 'n']
  else if c = '\r' then ['\\', 'r']
  else if c = '\t' then ['\\', 't']
  else if c.toNat < 32 ∨ c = '<' ∨ c = '>' ∨ c = '&' then
    ['\\', 'u', '0', '0', hexDigit (c.toNat / 16), hexDigit (c.toNat % 16)]
  else if c = Char.ofNat 0x2028 then ['\\', 'u', '2', '0', '2', '8']
  else if c = Char.ofNat 0x2029 then ['\\', 'u', '2', '0', '2', '9']
  else [c]

/-- The text between the quotes of the string literal of `s`. -/
def quoteBody (s : GoString) : GoString := (s.map quoteRune).flatten

/-- Go `appendString`: the JSON string literal that `json.Marshal` writes for
the string `s`. -/
def quote (s : GoString) : GoString := '\x22' :: (quoteBody s ++ ['\x22'])

/-- Go `parseObjectKey`, `parseObjectValue` and `parseArrayValue`: what the
scanner is inside of. -/
inductive Frame where
  | objectKey
  | objectValue
  | arrayValue
  deriving DecidableEq

/-- The states of the scanner of `encoding/json` (`scanner.go`), named after
its step functions; `literal rest` stands for the states inside `true`,
`false` and `null`, with `rest` still to come. -/
inductive Mode where
  | beginValue
  | beginValueOrEmpty
  | beginStringOrEmpty
  | beginString
  | endValue
  | inString
  | inStringEsc
  | inStringEscU (left : Nat)
  | neg
  | state0
  | state1
  | dot
  | dot0
  | stateE
  | stateESign
  | stateE0
  | literal (rest : GoString)
  deriving DecidableEq

/-- What one byte does to the scanner: it goes on, or the top-level value has
ended, with this byte as its last one (`finish true`) or before this byte
(`finish false`), or the byte is a syntax error. -/
inductive Step where
  | next (m : Mode) (st : List Frame)
  | finish (consumed : Bool)
  | err
  deriving DecidableEq

/-- The state after the byte that ends a value: `stateEndValue` is the next
step, and the top-level value has ended when the scanner is inside
nothing. -/
def afterValue (st : List Frame) : Step :=
  if st = [] then Step.finish true else Step.next Mode.endValue st

/-- Go `stateEndValue`. -/
def stateEndValue (st : List Frame) (c : Char) : Step :=
  match st with
  | [] => Step.finish false
  | top :: below =>
    if isSpace c then Step.next Mode.endValue st
    else
      match top with
      | Frame.objectKey =>
        if c = ':' then Step.next Mode.beginValue (Frame.objectValue :: below) else Step.err
      | Frame.objectValue =>
        if c = ',' then Step.next Mode.beginString (Frame.objectKey :: below)
        else if c = '\x7d' then afterValue below
        else Step.err
      | Frame.arrayValue =>
        if c = ',' then Step.next Mode.beginValue st
        else if c = ']' then afterValue below
        else Step.err

/-- Go `stateBeginValue`. -/
def stateBeginValue (st : List Frame) (c : Char) : Step :=
  if isSpace c then Step.next Mode.beginValue st
  else if c = '\x7b' then Step.next Mode.beginStringOrEmpty (Frame.objectKey :: st)
  else if c = '[' then Step.next Mode.beginValueOrEmpty (Frame.arrayValue :: st)
  else if c = '\x22' then Step.next Mode.inString st
  else if c = '-' then Step.next Mode.neg st
  else if c = '0' then Step.next Mode.state0 st
  else if c = 't' then Step.next (Mode.literal "rue".toList) st
  else if c = 'f' then Step.next (Mode.literal "alse".toList) st
  else if c = 'n' then Step.next (Mode.literal "ull".toList) st
  else if '1' ≤ c ∧ c ≤ '9' then Step.next Mode.state1 st
  else Step.err

/-- Go `stateBeginString`. -/
def stateBeginString (st : List Frame) (c : Char) : Step :=
  if isSpace c then Step.next Mode.beginString st
  else if c = '\x22' then Step.next Mode.inString st
  else Step.err

/-- Go `state0`, the state after a leading `0` of a number. -/
def stateAfter0 (st : List Frame) (c : Char) : Step :=
  if c = '.' then Step.next Mode.dot st
  else if c = 'e' ∨ c = 'E' then Step.next Mode.stateE st
  else stateEndValue st c

/-- One step of the scanner: the step function of the state `m`, applied to
the byte `c`. -/
def step (m : Mode) (st : List Frame) (c : Char) : Step :=
  match m with
  | Mode.beginValue => stateBeginValue st c
  | Mode.beginValueOrEmpty =>
    if isSpace c then Step.next Mode.beginValueOrEmpty st
    else if c = ']' then stateEndValue st c
    else stateBeginValue st c
  | Mode.beginStringOrEmpty =>
    if isSpace c then Step.next Mode.beginStringOrEmpty st
    else if c = '\x7d' then
      match st with
      | _ :: below => stateEndValue (Frame.objectValue :: below) c
      | [] => Step.err
    else stateBeginString st c
  | Mode.beginString => stateBeginString st c
  | Mode.endValue => stateEndValue st c
  | Mode.inString =>
    if c = '\x22' then afterValue st
    else if c = '\\' then Step.next Mode.inStringEsc st
    else if c.toNat < 32 then Step.err
    else Step.next Mode.inString st
  | Mode.inStringEsc =>
    if c = 'b' ∨ c = 'f' ∨ c = 'n' ∨ c = 'r' ∨ c = 't' ∨ c = '\\' ∨ c = '/' ∨ c = '\x22' then
      Step.next Mode.inString st
    else if c = 'u' then Step.next (Mode.inStringEscU 4) st
    else Step.err
  | Mode.inStringEscU left =>
    if (hexVal c).isSome then
      if left ≤ 1 then Step.next Mode.inString st else Step.next (Mode.inStringEscU (left - 1)) st
    else Step.err
  | Mode.neg =>
    if c = '0' then Step.next Mode.state0 st
    else if '1' ≤ c ∧ c ≤ '9' then Step.next Mode.state1 st
    else Step.err
  | Mode.state1 =>
    if strconv.isDigit c then Step.next Mode.state1 st else stateAfter0 st c
  | Mode.state0 => stateAfter0 st c
  | Mode.dot => if strconv.isDigit c then Step.next Mode.dot0 st else Step.err
  | Mode.dot0 =>
    if strconv.isDigit c then Step.next Mode.dot0 st
    else if c = 'e' ∨ c = 'E' then Step.next Mode.stateE st
    else stateEndValue st c
  | Mode.stateE =>
    if c = '+' ∨ c = '-' then Step.next Mode.stateESign st
    else if strconv.isDigit c then Step.next Mode.stateE0 st
    else Step.err
  | Mode.stateESign => if strconv.isDigit c then Step.next Mode.stateE0 st else Step.err
  | Mode.stateE0 =>
    if strconv.isDigit c then Step.next Mode.stateE0 st else stateEndValue st c
  | Mode.literal rest =>
    match rest with
    | [] => Step.err
    | [x] => if c = x then afterValue st else Step.err
    | x :: more => if c = x then Step.next (Mode.literal more) st else Step.err

/-- The scanner run by `(*Decoder).Decode` from the state `m` inside `st`, up
to the end of the top-level value: what follows the value, `none` for a syntax
error and for a text that ends before the value does. At the end of the text
`Decode` feeds the scanner a space. -/
def scan : Mode → List Frame → GoString → Option GoString
  | m, st, [] =>
    match step m st ' ' with
    | Step.finish _ => some []
    | _ => none
  | m, st, c :: cs =>
    match step m st c with
    | Step.next m1 st1 => scan m1 st1 cs
    | Step.finish true => some cs
    | Step.finish false => some (c :: cs)
    | Step.err => none

/-- The text without the white space in front of it. -/
def skipSpace (s : GoString) : GoString := s.dropWhile isSpace

/-- The members of a JSON object, read from the text behind its opening brace
or behind a comma: each key, as the string its literal denotes, with the text
of its value, and what follows the closing brace. `first` tells that no member
was read yet, so that the object may be empty. At most `fuel` members are read;
the length of the text plus one is enough. `none` is a syntax error. -/
def members : Nat → Bool → GoString → Option (List (GoString × GoString) × GoString)
  | 0, _, _ => none
  | fuel + 1, first, s =>
    match skipSpace s with
    | c :: rest =>
      if c = '\x7d' then (if first then some ([], rest) else none)
      else if c = '\x22' then
        match scan Mode.inString [] rest with
        | none => none
        | some afterKey =>
          match unquoteBody (rest.length + 1)
              (rest.take (rest.length - afterKey.length - 1)) with
          | none => none
          | some key =>
            match skipSpace afterKey with
            | c1 :: r1 =>
              if c1 = ':' then
                match scan Mode.beginValue [] (skipSpace r1) with
                | none => none
                | some afterValue =>
                  match skipSpace afterValue with
                  | c2 :: r2 =>
                    if c2 = ',' then
                      (members fuel false r2).map (fun p =>
                        ((key, (skipSpace r1).take
                          ((skipSpace r1).length - afterValue.length)) :: p.1, p.2))
                    else if c2 = '\x7d' then
                      some ([(key, (skipSpace r1).take
                        ((skipSpace r1).length - afterValue.length))], r2)
                    else none
                  | [] => none
              else none
            | [] => none
      else none
    | [] => none

/-- The JSON value at the start of a text, as a destination of struct type or
of map type sees it: an object with its members, `null`, a value of another
kind, or no value. -/
inductive Top where
  | object (ms : List (GoString × GoString))
  | null
  | other
  | invalid
  deriving DecidableEq

/-- The first value of the text that `(*Decoder).Decode` reads; what follows
it is not looked at. -/
def top (text : GoString) : Top :=
  match skipSpace text with
  | c :: rest =>
    if c = '\x7b' then
      match members (rest.length + 1) true rest with
      | some p => Top.object p.1
      | none => Top.invalid
    else
      match scan Mode.beginValue [] (c :: rest) with
      | none => Top.invalid
      | some _ => if c = 'n' then Top.null else Top.other
  | [] => Top.invalid

/-- The text of the members of an object, as `json.Marshal` writes them: each
key as a string literal, a colon, the text of the value, and commas in
between. -/
def membersText : List (GoString × GoString) → GoString
  | [] => []
  | [m] => quote m.1 ++ ':' :: m.2
  | m :: rest => quote m.1 ++ ':' :: (m.2 ++ ',' :: membersText rest)

/-- The text `raw` is one JSON value as `json.Marshal` writes it inside an
object: it does not start with white space, and the scanner reads exactly it
when a comma or a closing brace follows. -/
def IsValueText (raw : GoString) : Prop :=
  (∃ c tail, raw = c :: tail ∧ isSpace c = false) ∧
    ∀ (c : Char) (rest : GoString), c = ',' ∨ c = '\x7d' →
      scan Mode.beginValue [] (raw ++ c :: rest) = some (c :: rest)

/-- The text of an object with the given members. -/
def objectText (ms : List (GoString × GoString)) : GoString :=
  '\x7b' :: (membersText ms ++ ['\x7d'])

end json

namespace Jwt

/-! ### `json.Marshal` and `(*Decoder).Decode` for `StandardClaims` -/

/-- The member that `json.Marshal` writes for a string field tagged
`omitempty`. -/
def stringMember (name value : GoString) : List (GoString × GoString) :=
  if value = [] then [] else [(name, json.quote value)]

/-- The member that `json.Marshal` writes for a `*Time` field tagged
`omitempty`: the bytes of `MarshalJSON`, a number, which the compaction of
`json.Marshal` leaves as they are. -/
def timeMember (name : GoString) (value : Option Jwt.Time) : List (GoString × GoString) :=
  match value with
  | none => []
  | some t => [(name, t.MarshalJSON.1)]

/-- The members of the object that `json.Marshal` writes for a
`StandardClaims`, in the order of the fields. -/
def claimsMembers (c : StandardClaims) : List (GoString × GoString) :=
  stringMember "jti".toList c.ID ++ stringMember "iss".toList c.Issuer ++
    stringMember "sub".toList c.Subject ++ stringMember "aud".toList c.Audience ++
    timeMember "iat".toList c.IssuedAt ++ timeMember "exp".toList c.ExpiresAt ++
    timeMember "nbf".toList c.NotBefore

/-- Go `json.Marshal(claims)` for a `StandardClaims`; `MarshalJSON` of `Time`
has no error, so there is none. -/
def MarshalClaims (c : StandardClaims) : GoString × GoError :=
  (utf8.encode (json.objectText (claimsMembers c)), none)

/-- A `Time` that is the same after its round trip through JSON: truncated to
milliseconds, in the location `Local`, and with a count of milliseconds since
the Unix epoch that is an `int64`. -/
def Time.Portable (t : Jwt.Time) : Prop :=
  t.Time.nsec < 1000000000 ∧ t.Time.nsec % 1000000 = 0 ∧
    t.Time.loc = time.Location.Local ∧
    -(2 : Int) ^ 63 ≤ unixMillis t.Time ∧ unixMillis t.Time < 2 ^ 63

/-- The times of the claims `c` are the same after their round trip through
JSON. -/
def StandardClaims.Portable (c : StandardClaims) : Prop :=
  (∀ t, c.IssuedAt = some t → t.Portable) ∧ (∀ t, c.ExpiresAt = some t → t.Portable) ∧
    (∀ t, c.NotBefore = some t → t.Portable)

/-- The destination `c2` holds nothing in the fields that `c` leaves empty:
`json.Marshal` omits these fields, and the decoder leaves a field without a
member as it is. -/
def StandardClaims.FreshFor (c2 c : StandardClaims) : Prop :=
  (c.ID = [] → c2.ID = []) ∧ (c.Issuer = [] → c2.Issuer = []) ∧
    (c.Subject = [] → c2.Subject = []) ∧ (c.Audience = [] → c2.Audience = []) ∧
    (c.IssuedAt = none → c2.IssuedAt = none) ∧ (c.ExpiresAt = none → c2.ExpiresAt = none) ∧
    (c.NotBefore = none → c2.NotBefore = none)

/-- The zero `time.Time`: January 1 of year 1, in UTC. -/
def zeroTime : Jwt.Time := { Time := { sec := -62135596800, nsec := 0, loc := time.Location.UTC } }

/-- The folding of `encoding/json` under which a key of an object names a
field: the letters `a` to `z` count as `A` to `Z`, the Kelvin sign as `K` and
the long s as `S`. -/
def foldRune (c : Char) : Char :=
  if 'a' ≤ c ∧ c ≤ 'z' then Char.ofNat (c.toNat - 32)
  else if c = Char.ofNat 0x212A then 'K'
  else if c = Char.ofNat 0x17F then 'S'
  else c

/-- A string field after the value `raw` was stored in it, and the type error
when the value is no string; `null` changes nothing. -/
def storeString (raw old : GoString) : GoString × GoError :=
  match raw with
  | c :: rest =>
    if c = '\x22' then
      match json.unquoteBody (rest.length + 1) rest.dropLast with
      | some s => (s, none)
      | none => (old, some "json: invalid string".toList)
    else if raw = "null".toList then (old, none)
    else (old, some "json: cannot unmarshal into Go struct field of type string".toList)
  | [] => (old, some "json: cannot unmarshal into Go struct field of type string".toList)

/-- A `*Time` field after the value `raw` was stored in it, and the error of
`UnmarshalJSON`: `null` makes the field nil; for another value a nil field
first gets a new zero `Time`, and `UnmarshalJSON` is called on what the field
points to. -/
def storeTime (raw : GoString) (old : Option Jwt.Time) : Option Jwt.Time × GoError :=
  if raw = "null".toList then (none, none)
  else
    match (old.getD zeroTime).UnmarshalJSON raw with
    | (t, none) => (some t, none)
    | (_, some err) => (some (old.getD zeroTime), some err)

/-- The members of an object stored one after the other into a
`StandardClaims`: the claims afterwards and the error. A type error is kept,
the first one, and returned at the end; an error of `UnmarshalJSON` ends the
decoding. Keys that name no field are skipped. -/
def storeClaims : List (GoString × GoString) → StandardClaims → GoError →
    StandardClaims × GoError
  | [], c, saved => (c, saved)
  | (key, raw) :: rest, c, saved =>
    if key.map foldRune = "JTI".toList then
      storeClaims rest { c with ID := (storeString raw c.ID).1 }
        (if saved = none then (storeString raw c.ID).2 else saved)
    else if key.map foldRune = "ISS".toList then
      storeClaims rest { c with Issuer := (storeString raw c.Issuer).1 }
        (if saved = none then (storeString raw c.Issuer).2 else saved)
    else if key.map foldRune = "SUB".toList then
      storeClaims rest { c with Subject := (storeString raw c.Subject).1 }
        (if saved = none then (storeString raw c.Subject).2 else saved)
    else if key.map foldRune = "AUD".toList then
      storeClaims rest { c with Audience := (storeString raw c.Audience).1 }
        (if saved = none then (storeString raw c.Audience).2 else saved)
    else if key.map foldRune = "IAT".toList then
      match (storeTime raw c.IssuedAt).2 with
      | none => storeClaims rest { c with IssuedAt := (storeTime raw c.IssuedAt).1 } saved
      | some err => ({ c with IssuedAt := (storeTime raw c.IssuedAt).1 }, some err)
    else if key.map foldRune = "EXP".toList then
      match (storeTime raw c.ExpiresAt).2 with
      | none => storeClaims rest { c with ExpiresAt := (storeTime raw c.ExpiresAt).1 } saved
      | some err => ({ c with ExpiresAt := (storeTime raw c.ExpiresAt).1 }, some err)
    else if key.map foldRune = "NBF".toList then
      match (storeTime raw c.NotBefore).2 with
      | none => storeClaims rest { c with NotBefore := (storeTime raw c.NotBefore).1 } saved
      | some err => ({ c with NotBefore := (storeTime raw c.NotBefore).1 }, some err)
    else storeClaims rest c saved

/-- Go `json.NewDecoder(base64.NewDecoder(base64.RawURLEncoding,
strings.NewReader(s))).Decode(&claims)` for a `StandardClaims`. The decoder
reads the bytes that base 64 decodes before its first error, and that error
only counts when these bytes end before the first JSON value does. -/
def DecodeClaims (s : GoString) (claims : StandardClaims) : StandardClaims × GoError :=
  match json.top (utf8.decode (base64.DecodeString s).1) with
  | json.Top.object ms => storeClaims ms claims none
  | json.Top.null => (claims, none)
  | json.Top.other =>
    (claims, some "json: cannot unmarshal into Go value of type jwt.StandardClaims".toList)
  | json.Top.invalid => (claims, some "json: invalid or incomplete value".toList)

/-! ### `json.Marshal` and `(*Decoder).Decode` for `Header` -/

/-- The text that `json.Marshal` writes for a value of a header; `enc` is
`json.Marshal` for the values that are no strings. -/
def valueText {A : Type} (enc : A → GoString × GoError) : Value A → GoString × GoError
  | Value.str s => (json.quote s, none)
  | Value.other a => enc a

/-- Whether the string `a` sorts before the string `b`, or is `b`. -/
def keyLE (a b : GoString) : Bool := decide (a ≤ b)

/-- The keys of a map, each once, in increasing order. -/
def sortedKeys {A : Type} (m : HeaderMap A) : List GoString :=
  ((m.map Prod.fst).dedup).insertionSort (fun a b => keyLE a b = true)

/-- The members of the object that `json.Marshal` writes for the entries of
`m` under the keys `keys`, and the first error of a value. -/
def headerMembers {A : Type} (enc : A → GoString × GoError) (m : HeaderMap A) :
    List GoString → List (GoString × GoString) × GoError
  | [] => ([], none)
  | key :: rest =>
    match m.get key with
    | none => headerMembers enc m rest
    | some v =>
      match valueText enc v with
      | (_, some err) => ([], some err)
      | (text, none) =>
        match headerMembers enc m rest with
        | (_, some err) => ([], some err)
        | (ms, none) => ((key, text) :: ms, none)

/-- Go `json.Marshal(header)` for a non-nil `Header`: an object with the keys
in increasing order. -/
def MarshalHeader {A : Type} (enc : A → GoString × GoError) (m : HeaderMap A) :
    GoString × GoError :=
  match headerMembers enc m (sortedKeys m) with
  | (_, some err) => ([], some err)
  | (ms, none) => (utf8.encode (json.objectText ms), none)

/-- The value that the decoder stores in a map of `interface{}` for the text
`raw` of a JSON value: a string for a string literal; `dec` stands for the
values of the other kinds. -/
def valueOfText {A : Type} (dec : GoString → A) (raw : GoString) : Value A :=
  match raw with
  | c :: rest =>
    if c = '\x22' then
      match json.unquoteBody (rest.length + 1) rest.dropLast with
      | some s => Value.str s
      | none => Value.other (dec raw)
    else Value.other (dec raw)
  | [] => Value.other (dec raw)

/-- The members of an object stored one after the other into a map. -/
def storeHeader {A : Type} (dec : GoString → A) :
    List (GoString × GoString) → HeaderMap A → HeaderMap A
  | [], m => m
  | (key, raw) :: rest, m => storeHeader dec rest (m.set key (valueOfText dec raw))

/-- Go `json.NewDecoder(base64.NewDecoder(base64.RawURLEncoding,
strings.NewReader(s))).Decode(&header)` for a `Header`: an object is stored
into the map, which is made first when `header` is nil. -/
def DecodeHeader {A : Type} (dec : GoString → A) (s : GoString) (header : Header A) :
    Header A × GoError :=
  match json.top (utf8.decode (base64.DecodeString s).1) with
  | json.Top.object ms => (some (storeHeader dec ms (header.getD [])), none)
  | json.Top.null => (header, none)
  | json.Top.other =>
    (header, some "json: cannot unmarshal into Go value of type jwt.Header".toList)
  | json.Top.invalid => (header, some "json: invalid or incomplete value".toList)

/-- The library of Go: `encoding/json` and `encoding/base64` as written out
above, for headers whose values other than strings are of type `A`, with
`enc` and `dec` for what `json.Marshal` writes for such a value and for the
value the decoder makes of a text, and `time.Now()` returning `now`. -/
def goLib {A : Type} (enc : A → GoString × GoError) (dec : GoString → A) (now : time.Time) :
    Lib A StandardClaims where
  marshalHeader := MarshalHeader enc
  marshalClaims := MarshalClaims
  b64Encode := base64.EncodeToString
  b64DecodeString := base64.DecodeString
  decodeHeader := DecodeHeader dec
  decodeClaims := DecodeClaims
  valid := some StandardClaims.Valid
  now := now

end Jwt

namespace Jwt

/-! ### Samples for the round trip of a token -/

/-- Stands for `json.Marshal` of the header values that are no strings: the
values are numbers, written in decimal, and zero stands for a value that
`json.Marshal` rejects, such as a channel. -/
def sampleEnc (n : Nat) : GoString × GoError :=
  if n = 0 then ([], some "json: unsupported type".toList) else (strconv.FormatInt n, none)

/-- Stands for the value that the decoder makes of a JSON value that is no
string. -/
def sampleDec (_ : GoString) : Nat := 1

/-- The library at the instant `sampleInstant`. -/
def sampleLib : Lib Nat StandardClaims := goLib sampleEnc sampleDec sampleInstant

/-- The header `Header{"n": 5}`. -/
def sampleHeader : HeaderMap Nat := [("n".toList, Value.other 5)]

/-- The header `Header{"c": v}` with a value `v` that `json.Marshal`
rejects. -/
def badHeader : HeaderMap Nat := [("c".toList, Value.other 0)]

/-- Claims that expire at `time.Unix(1<<62, 0)`. -/
def farClaims : StandardClaims := { ExpiresAt := some (NewTime farFuture) }

/-- Claims issued at `time.Unix(1700000000, 123456789).UTC()`. -/
def utcClaims : StandardClaims := { IssuedAt := some (NewTime sampleInstantUTC) }

/-- Claims without an `ID`. -/
def anonClaims : StandardClaims := { Subject := "12345".toList }

/-- The token that `CreateToken` returned with a nil error; the empty string
when it did not. -/
def tokenOf (r : Outcome (GoString × GoError)) : GoString :=
  match r with
  | Outcome.returned (token, none) => token
  | _ => []

/-- The token of `demoClaims` under `sampleHeader`, signed by `demoSigner`. -/
def sampleToken : GoString :=
  ("eyJhbGciOiJSRVYiLCJraWQiOiJrMSIsIm4iOjV9." ++
    "eyJqdGkiOiIxMjMiLCJpc3MiOiJub3RlYm9vayIsInN1YiI6IjEyMzQ1IiwiaWF0IjoxNzAwMDAwMDAwMTIzLCJleHAiOjE3MDAwMDM2MDAxMjN9." ++
    "OU5qTXhBRE0yTURNd0FETTNFak9pQUhlbEpDTHpJVE13QURNd0FETXdBek54b2pJMEZXYWl3aUkxUXpNeUVqSTZJaVkxTm5Jc0l5YXY5bVlsUjNidUppT2lNM2NwSkNMaU1qTXhJaU9pa0dkcUp5ZS45VmpPaTRtSXNJU01ySmlPaVFXYXJKQ0xpWVZSU0ppT2ljR2JoSnll").toList

/-- The token `sampleToken` with the last character of its signature part
replaced. -/
def tamperedToken : GoString := sampleToken.dropLast ++ ['A']

/-- Claims that a destination holds before a call of `DecodeToken`. -/
def previousClaims : StandardClaims := { ID := "before".toList }

/-- A signer whose `Sign` returns an error. -/
def failSigner : Signer where
  Alg := "REV".toList
  KeyID := "k1".toList
  Sign := fun _ => ([], some "no key".toList)

/-- A verifier that accepts every signature. -/
def anyVerifier : Verifier where
  Verify := fun _ _ => none

/-- The selector that returns `anyVerifier`. -/
def anySelector : VerifierSelector := fun _ _ => (some anyVerifier, none)

end Jwt

namespace Httpmux

/-! ## Basic facts -/

section Basic

variable {H : Type}

namespace TrieNode

@[simp] theorem Label_mk (l k) (v : GoString → Option (Handler H)) (c) :
    (mk l k v c).Label = l := rfl
@[simp] theorem Kind_mk (l k) (v : GoString → Option (Handler H)) (c) :
    (mk l k v c).Kind = k := rfl
@[simp] theorem Value_mk (l k) (v : GoString → Option (Handler H)) (c) :
    (mk l k v c).Value = v := rfl
@[simp] theorem Children_mk (l k) (v : GoString → Option (Handler H)) (c) :
    (mk l k v c).Children = c := rfl

@[simp] theorem setChild_Label (n : TrieNode H) (k c) : (n.setChild k c).Label = n.Label := rfl
@[simp] theorem setChild_Kind (n : TrieNode H) (k c) : (n.setChild k c).Kind = n.Kind := rfl
@[simp] theorem setChild_Value (n : TrieNode H) (k c) : (n.setChild k c).Value = n.Value := rfl
theorem setChild_Children (n : TrieNode H) (k c j) :
    (n.setChild k c).Children j = if j = k then some c else n.Children j := rfl
@[simp] theorem setChild_Children_self (n : TrieNode H) (k c) :
    (n.setChild k c).Children k = some c := by simp [setChild_Children]
theorem setChild_Children_ne (n : TrieNode H) {k j} (c) (h : j ≠ k) :
    (n.setChild k c).Children j = n.Children j := by simp [setChild_Children, h]

@[simp] theorem setValue_Label (n : TrieNode H) (m h) : (n.setValue m h).Label = n.Label := rfl
@[simp] theorem setValue_Kind (n : TrieNode H) (m h) : (n.setValue m h).Kind = n.Kind := rfl
@[simp] theorem setValue_Children (n : TrieNode H) (m h) :
    (n.setValue m h).Children = n.Children := rfl
theorem setValue_Value (n : TrieNode H) (m h j) :
    (n.setValue m h).Value j = if j = m then some h else n.Value j := rfl

/-- Storing under `k` the node that is already there changes nothing. -/
theorem setChild_same (n : TrieNode H) {k c} (h : n.Children k = some c) :
    n.setChild k c = n := by
  cases n with
  | mk l kd v ch =>
    simp only [setChild, Label_mk, Kind_mk, Value_mk, Children_mk, mk.injEq, true_and]
    funext j
    by_cases hj : j = k
    · subst hj; simpa using h.symm
    · simp [hj]

end TrieNode

@[simp] theorem NewTrieNode_Label (k l : GoString) :
    (NewTrieNode k l : TrieNode H).Label = l := rfl
@[simp] theorem NewTrieNode_Kind (k l : GoString) :
    (NewTrieNode k l : TrieNode H).Kind = k := rfl
@[simp] theorem NewTrieNode_Value (k l m : GoString) :
    (NewTrieNode k l : TrieNode H).Value m = none := rfl
@[simp] theorem NewTrieNode_Children (k l j : GoString) :
    (NewTrieNode k l : TrieNode H).Children j = none := rfl

theorem isEmptyNode_new (k l : GoString) : IsEmptyNode (NewTrieNode k l : TrieNode H) :=
  ⟨fun _ => rfl, fun _ => rfl⟩

/-- Inserting below a node without children and handlers never fails. -/
theorem insertLoop_empty_ok (m : GoString) (h : Handler H) (segs : List GoString) :
    ∀ n : TrieNode H, IsEmptyNode n → (insertLoop m h segs n).2 = none := by
  induction segs with
  | nil =>
    intro n hn
    simp [insertLoop, hn.2 m]
  | cons s rest ih =>
    intro n hn
    simp only [insertLoop, hn.1 s, hn.1 VarsLabel]
    split
    · simp [ih _ (isEmptyNode_new _ _)]
    · simp [ih _ (isEmptyNode_new _ _)]

/-- A failed insertion leaves the node as it was. -/
theorem insertLoop_atomic (m : GoString) (h : Handler H) (segs : List GoString) :
    ∀ n : TrieNode H, (insertLoop m h segs n).2 ≠ none → (insertLoop m h segs n).1 = n := by
  induction segs with
  | nil =>
    intro n
    simp only [insertLoop]
    cases hv : n.Value m <;> simp
  | cons s rest ih =>
    intro n
    simp only [insertLoop]
    cases hs : n.Children s with
    | some c =>
      simp only
      intro he
      rw [ih c he]
      exact TrieNode.setChild_same n hs
    | none =>
      simp only
      by_cases hr : varsNameRegex s = true
      · simp only [hr, if_true]
        cases hv : n.Children VarsLabel with
        | some v =>
          simp only
          split
          · intro _
            exact TrieNode.setChild_same n hv
          · intro he
            rw [ih v he]
            exact TrieNode.setChild_same n hv
        | none =>
          simp only [NewTrieNode_Label, ne_eq, not_true_eq_false, if_false]
          intro he
          exact absurd (insertLoop_empty_ok m h rest _ (isEmptyNode_new _ _)) he
      · simp only [hr]
        intro he
        exact absurd (insertLoop_empty_ok m h rest _ (isEmptyNode_new _ _)) (by simpa using he)

theorem varsNameRegex_VarsLabel : varsNameRegex VarsLabel = false := by decide

theorem varsNameRegex_keyOf (s : GoString) : varsNameRegex (keyOf s) = false := by
  unfold keyOf
  by_cases h : varsNameRegex s = true
  · simp [h, varsNameRegex_VarsLabel]
  · simp [h]

theorem keyOf_of_regex {s : GoString} (h : varsNameRegex s = true) : keyOf s = VarsLabel := by
  simp [keyOf, h]

theorem keyOf_of_not_regex {s : GoString} (h : varsNameRegex s = false) : keyOf s = s := by
  simp [keyOf, h]

theorem freshNode_isEmpty (s : GoString) : IsEmptyNode (freshNode s : TrieNode H) := by
  unfold freshNode
  split <;> exact isEmptyNode_new _ _

theorem freshNode_Label_of_regex {s : GoString} (h : varsNameRegex s = true) :
    (freshNode s : TrieNode H).Label = nameOf s := by
  simp [freshNode, h]

/-- One iteration of the loop of `Trie.Insert` at a node none of whose
children is stored under a key that `varsNameRegex` matches. -/
theorem insertLoop_cons (m : GoString) (h : Handler H) (s : GoString) (rest : List GoString)
    (n : TrieNode H) (hn : ∀ k, varsNameRegex k = true → n.Children k = none) :
    insertLoop m h (s :: rest) n =
      if varsNameRegex s = true ∧
          ((n.Children (keyOf s)).getD (freshNode s)).Label ≠ nameOf s then
        (n, errConflict)
      else
        (n.setChild (keyOf s)
            (insertLoop m h rest ((n.Children (keyOf s)).getD (freshNode s))).1,
          (insertLoop m h rest ((n.Children (keyOf s)).getD (freshNode s))).2) := by
  simp only [insertLoop]
  rw [show TrimPrefix (TrimSuffix s "\x7d".toList) "\x7b".toList = nameOf s from rfl]
  by_cases hr : varsNameRegex s = true
  · rw [hn s hr, keyOf_of_regex hr]
    simp only [hr, if_true, true_and]
    cases hv : n.Children VarsLabel with
    | some v =>
      simp only [Option.getD_some]
      by_cases hl : v.Label = nameOf s
      · simp [hl]
      · simp [hl, TrieNode.setChild_same n hv]
    | none =>
      simp [freshNode, hr]
  · have hr2 : varsNameRegex s = false := by simpa using hr
    rw [keyOf_of_not_regex hr2]
    cases hs : n.Children s with
    | some c => simp [hr2]
    | none => simp [hr2, freshNode]


theorem insertLoop_nil (m : GoString) (h : Handler H) (n : TrieNode H) :
    insertLoop m h [] n =
      match n.Value m with
      | some _ => (n, errConflict)
      | none => (n.setValue m h, none) := rfl

/-! ### Key paths -/

@[simp] theorem descend_nil (n : TrieNode H) : descend [] n = some n := rfl

theorem descend_cons (k : GoString) (ks : List GoString) (n : TrieNode H) :
    descend (k :: ks) n = (n.Children k).bind (descend ks) := by
  simp only [descend]
  cases n.Children k <;> rfl

theorem descend_append (a b : List GoString) :
    ∀ n : TrieNode H, descend (a ++ b) n = (descend a n).bind (descend b) := by
  induction a with
  | nil => intro n; rfl
  | cons k ks ih =>
    intro n
    simp only [List.cons_append, descend_cons]
    cases n.Children k with
    | none => rfl
    | some c => simpa using ih c

@[simp] theorem view_nil (n : TrieNode H) : view n [] = some n.info := rfl

theorem view_cons (k : GoString) (ks : List GoString) (n : TrieNode H) :
    view n (k :: ks) = (n.Children k).bind (fun c => view c ks) := by
  simp only [view, descend_cons]
  cases n.Children k <;> rfl

theorem view_cons_of_child {k : GoString} {n c : TrieNode H} (h : n.Children k = some c)
    (ks : List GoString) : view n (k :: ks) = view c ks := by
  simp [view_cons, h]

theorem view_cons_of_none {k : GoString} {n : TrieNode H} (h : n.Children k = none)
    (ks : List GoString) : view n (k :: ks) = none := by
  simp [view_cons, h]

theorem view_cons_of_empty {n : TrieNode H} (hn : IsEmptyNode n) (k : GoString)
    (ks : List GoString) : view n (k :: ks) = none :=
  view_cons_of_none (hn.1 k) ks

theorem view_of_empty {n : TrieNode H} (hn : IsEmptyNode n) {ks : List GoString}
    (hks : ks ≠ []) : view n ks = none := by
  obtain ⟨j, js, rfl⟩ := List.exists_cons_of_ne_nil hks
  exact view_cons_of_empty hn j js

theorem view_cons_eq_some {k : GoString} {ks : List GoString} {n : TrieNode H}
    {i : NodeInfo H} (h : view n (k :: ks) = some i) :
    ∃ c, n.Children k = some c ∧ view c ks = some i := by
  rw [view_cons] at h
  cases hc : n.Children k with
  | none => simp [hc] at h
  | some c => exact ⟨c, rfl, by simpa [hc] using h⟩

theorem NoRegexKeys.top {n : TrieNode H} (hn : NoRegexKeys n) :
    ∀ k, varsNameRegex k = true → n.Children k = none :=
  hn [] n rfl

theorem NoRegexKeys.of_child {n c : TrieNode H} {k : GoString} (hn : NoRegexKeys n)
    (hc : n.Children k = some c) : NoRegexKeys c := by
  intro ks N hN
  apply hn (k :: ks) N
  simp [descend_cons, hc, hN]

theorem noRegexKeys_of_empty {n : TrieNode H} (hn : IsEmptyNode n) : NoRegexKeys n := by
  intro ks N hN k _
  cases ks with
  | nil =>
    simp only [descend_nil, Option.some.injEq] at hN
    subst hN
    exact hn.1 k
  | cons j js => simp [descend_cons, hn.1 j] at hN

theorem NoRegexKeys.getD {n : TrieNode H} (hn : NoRegexKeys n) (k s : GoString) :
    NoRegexKeys ((n.Children k).getD (freshNode s)) := by
  cases hc : n.Children k with
  | none => simpa using noRegexKeys_of_empty (freshNode_isEmpty s)
  | some c => simpa using hn.of_child hc

/-! ### The effect of a successful insertion -/

theorem insInfo_cons (m : GoString) (h : Handler H) (s k : GoString) (rest ks : List GoString)
    (old : Option (NodeInfo H)) (hold : old = none → ks ≠ []) :
    insInfo m h (s :: rest) (k :: ks) old = insInfo m h rest ks old := by
  cases old with
  | some i => simp [insInfo]
  | none =>
    have hks := hold rfl
    obtain ⟨j, js, rfl⟩ := List.exists_cons_of_ne_nil hks
    simp [insInfo]

theorem insInfo_singleton (m : GoString) (h : Handler H) (s k : GoString)
    (rest : List GoString) :
    insInfo m h (s :: rest) [k] none = insInfo m h rest [] (some (freshNode s).info) := by
  cases rest <;> simp [insInfo]

theorem view_insertLoop (m : GoString) (h : Handler H) (segs : List GoString) :
    ∀ n : TrieNode H, NoRegexKeys n → (insertLoop m h segs n).2 = none →
      ∀ ks, view (insertLoop m h segs n).1 ks =
        if ks <+: segs.map keyOf then some (insInfo m h segs ks (view n ks))
        else view n ks := by
  induction segs with
  | nil =>
    intro n _ hok ks
    rw [insertLoop_nil] at hok ⊢
    cases hv : n.Value m with
    | some x => simp [hv, errConflict] at hok
    | none =>
      simp only [hv]
      cases ks with
      | nil => simp [insInfo, TrieNode.info, NodeInfo.setValue, TrieNode.setValue]
      | cons k ks => simp [view_cons]
  | cons s rest ih =>
    intro n hn hok ks
    rw [insertLoop_cons m h s rest n hn.top] at hok ⊢
    split at hok
    · simp [errConflict] at hok
    · rename_i hcond
      simp only [hcond, if_false] at hok ⊢
      have ih2 := ih _ (hn.getD (keyOf s) s) hok
      cases ks with
      | nil => simp [insInfo, TrieNode.info]
      | cons k ks =>
        by_cases hk : k = keyOf s
        · subst hk
          rw [view_cons_of_child (TrieNode.setChild_Children_self _ _ _), ih2 ks]
          simp only [List.map_cons, List.cons_prefix_cons, true_and]
          cases hc : n.Children (keyOf s) with
          | some c =>
            simp only [Option.getD_some, view_cons_of_child hc]
            split
            · rw [insInfo_cons]
              intro hnone
              intro hks
              subst hks
              simp at hnone
            · rfl
          | none =>
            simp only [Option.getD_none, view_cons_of_none hc]
            cases ks with
            | nil => simp [insInfo_singleton]
            | cons j js =>
              rw [view_cons_of_empty (freshNode_isEmpty s)]
              split
              · rw [insInfo_cons]
                intro _
                simp
              · rfl
        · have h1 : view (n.setChild (keyOf s)
              (insertLoop m h rest ((n.Children (keyOf s)).getD (freshNode s))).1) (k :: ks)
              = view n (k :: ks) := by
            simp [view_cons, TrieNode.setChild_Children_ne _ _ hk]
          rw [h1]
          simp [List.cons_prefix_cons, hk]

/-! ### When an insertion fails -/

theorem insertLoop_error_iff (m : GoString) (h : Handler H) (segs : List GoString) :
    ∀ n : TrieNode H, NoRegexKeys n →
      ((insertLoop m h segs n).2 ≠ none ↔ InsertConflict n m segs) := by
  induction segs with
  | nil =>
    intro n _
    rw [insertLoop_nil]
    constructor
    · intro he
      cases hv : n.Value m with
      | none => simp [hv] at he
      | some x => exact Or.inr ⟨n.info, x, rfl, hv⟩
    · rintro (⟨pre, s, post, i, hsplit, -⟩ | ⟨i, x, hi, hx⟩)
      · simp at hsplit
      · simp only [List.map_nil, view_nil, Option.some.injEq] at hi
        subst hi
        have : n.Value m = some x := hx
        simp [this, errConflict]
  | cons s rest ih =>
    intro n hn
    rw [insertLoop_cons m h s rest n hn.top]
    have ih2 := ih _ (hn.getD (keyOf s) s)
    by_cases hcond : varsNameRegex s = true ∧
        ((n.Children (keyOf s)).getD (freshNode s)).Label ≠ nameOf s
    · simp only [hcond, and_self, if_true, ne_eq]
      refine ⟨fun _ => ?_, fun _ => by simp [errConflict]⟩
      cases hc : n.Children (keyOf s) with
      | none =>
        exfalso
        apply hcond.2
        simp [hc, freshNode_Label_of_regex hcond.1]
      | some c =>
        refine Or.inl ⟨[], s, rest, c.info, rfl, hcond.1, ?_, ?_⟩
        · simp [view_cons_of_child hc]
        · have := hcond.2
          simpa [hc] using this
    · simp only [hcond, if_false]
      rw [ih2]
      cases hc : n.Children (keyOf s) with
      | none =>
        have hempty : IsEmptyNode (freshNode s : TrieNode H) := freshNode_isEmpty s
        simp only [Option.getD_none]
        constructor
        · rintro (⟨pre, s', post, i, -, -, hv, -⟩ | ⟨i, x, hv, hx⟩)
          · rw [view_of_empty hempty (by simp)] at hv
            simp at hv
          · cases rest with
            | nil =>
              simp only [List.map_nil, view_nil, Option.some.injEq] at hv
              subst hv
              have := hempty.2 m
              simp [TrieNode.info, this] at hx
            | cons r rs => simp [view_cons_of_empty hempty] at hv
        · rintro (⟨pre, s', post, i, hsplit, -, hv, -⟩ | ⟨i, x, hv, -⟩)
          · cases pre with
            | nil =>
              simp only [List.nil_append, List.cons.injEq] at hsplit
              obtain ⟨rfl, -⟩ := hsplit
              simp [view_cons_of_none hc] at hv
            | cons p ps =>
              simp only [List.cons_append, List.cons.injEq] at hsplit
              obtain ⟨rfl, -⟩ := hsplit
              simp [view_cons_of_none hc] at hv
          · simp [view_cons_of_none hc] at hv
      | some c =>
        simp only [Option.getD_some]
        constructor
        · rintro (⟨pre, s', post, i, hsplit, hr, hv, hl⟩ | ⟨i, x, hv, hx⟩)
          · refine Or.inl ⟨s :: pre, s', post, i, by simp [hsplit], hr, ?_, hl⟩
            simpa [view_cons_of_child hc] using hv
          · refine Or.inr ⟨i, x, ?_, hx⟩
            simpa [view_cons_of_child hc] using hv
        · rintro (⟨pre, s', post, i, hsplit, hr, hv, hl⟩ | ⟨i, x, hv, hx⟩)
          · cases pre with
            | nil =>
              simp only [List.nil_append, List.cons.injEq] at hsplit
              obtain ⟨rfl, -⟩ := hsplit
              exfalso
              apply hcond
              refine ⟨hr, ?_⟩
              simp only [List.nil_append, List.map_cons, List.map_nil,
                view_cons_of_child hc, view_nil, Option.some.injEq] at hv
              subst hv
              simpa [hc] using hl
            | cons p ps =>
              simp only [List.cons_append, List.cons.injEq] at hsplit
              obtain ⟨rfl, hrest⟩ := hsplit
              refine Or.inl ⟨ps, s', post, i, hrest, hr, ?_, hl⟩
              simpa [view_cons_of_child hc] using hv
          · refine Or.inr ⟨i, x, ?_, hx⟩
            simpa [view_cons_of_child hc] using hv

theorem view_append_singleton (ks : List GoString) (k : GoString) (n : TrieNode H) :
    view n (ks ++ [k]) = (descend ks n).bind (fun N => (N.Children k).map TrieNode.info) := by
  simp only [view, descend_append]
  cases descend ks n with
  | none => rfl
  | some N =>
    simp only [Option.bind_some, descend_cons]
    cases N.Children k <;> simp

theorem noRegexKeys_iff_view (n : TrieNode H) :
    NoRegexKeys n ↔ ∀ ks k, varsNameRegex k = true → view n (ks ++ [k]) = none := by
  constructor
  · intro hn ks k hk
    rw [view_append_singleton]
    cases hd : descend ks n with
    | none => rfl
    | some N => simp [hn ks N hd k hk]
  · intro hv ks N hN k hk
    have := hv ks k hk
    rw [view_append_singleton, hN] at this
    simpa using this

theorem insertLoop_noRegexKeys (m : GoString) (h : Handler H) (segs : List GoString)
    (n : TrieNode H) (hn : NoRegexKeys n) : NoRegexKeys (insertLoop m h segs n).1 := by
  by_cases hok : (insertLoop m h segs n).2 = none
  · rw [noRegexKeys_iff_view]
    intro ks k hk
    rw [view_insertLoop m h segs n hn hok]
    have hnot : ¬ (ks ++ [k]) <+: segs.map keyOf := by
      intro hp
      have hmem : k ∈ segs.map keyOf := hp.subset (by simp)
      obtain ⟨s, -, rfl⟩ := List.mem_map.1 hmem
      rw [varsNameRegex_keyOf] at hk
      exact Bool.false_ne_true hk
    rw [if_neg hnot]
    exact (noRegexKeys_iff_view n).1 hn ks k hk
  · rw [insertLoop_atomic m h segs n hok]
    exact hn

theorem noRegexKeys_NewTrie : NoRegexKeys (NewTrie : Trie H).root :=
  noRegexKeys_of_empty ⟨fun _ => rfl, fun _ => rfl⟩

theorem Reachable.noRegexKeys {t : Trie H} (ht : Reachable t) : NoRegexKeys t.root := by
  induction ht with
  | new => exact noRegexKeys_NewTrie
  | insert t p m h _ ih => exact insertLoop_noRegexKeys m h (segmentsOf p) t.root ih

theorem runInserts_reachable (routes : List (Route H)) :
    ∀ t : Trie H, Reachable t → Reachable (runInserts t routes) := by
  induction routes with
  | nil => intro t ht; exact ht
  | cons r rest ih => intro t ht; exact ih _ (Reachable.insert t r.1 r.2.1 r.2.2 ht)

/-- A successful insertion registers the handler at the end of the key path of
its segments. -/
theorem insertLoop_registers (m : GoString) (h : Handler H) (segs : List GoString)
    (n : TrieNode H) (hn : NoRegexKeys n) (hok : (insertLoop m h segs n).2 = none) :
    ∃ i, view (insertLoop m h segs n).1 (segs.map keyOf) = some i ∧ i.Value m = some h := by
  refine ⟨insInfo m h segs (segs.map keyOf) (view n (segs.map keyOf)), ?_, ?_⟩
  · rw [view_insertLoop m h segs n hn hok, if_pos (List.prefix_refl _)]
  · simp [insInfo, NodeInfo.setValue]

/-- An insertion, failed or not, keeps every node, its label, its kind and the
handlers registered at it. -/
theorem insertLoop_mono (m : GoString) (h : Handler H) (segs : List GoString)
    (n : TrieNode H) (hn : NoRegexKeys n) {ks : List GoString} {i : NodeInfo H}
    (hi : view n ks = some i) :
    ∃ i', view (insertLoop m h segs n).1 ks = some i' ∧ i'.Label = i.Label ∧
      i'.Kind = i.Kind ∧ ∀ m' x, i.Value m' = some x → i'.Value m' = some x := by
  by_cases hok : (insertLoop m h segs n).2 = none
  · rw [view_insertLoop m h segs n hn hok, hi]
    by_cases hp : ks <+: segs.map keyOf
    · rw [if_pos hp]
      refine ⟨_, rfl, ?_⟩
      by_cases hlen : ks.length = segs.length
      · have hks : ks = segs.map keyOf :=
          hp.eq_of_length (by simpa using hlen)
        subst hks
        have hfree : i.Value m = none := by
          cases hv : i.Value m with
          | none => rfl
          | some x =>
            exact absurd hok ((insertLoop_error_iff m h segs n hn).2 (Or.inr ⟨i, x, hi, hv⟩))
        simp only [insInfo, List.length_map, if_true, Option.getD_some, NodeInfo.setValue,
          true_and]
        intro m' x hx
        by_cases hm : m' = m
        · subst hm; rw [hfree] at hx; cases hx
        · simp [hm, hx]
      · simp [insInfo, hlen]
    · rw [if_neg hp]
      exact ⟨i, rfl, rfl, rfl, fun _ _ hx => hx⟩
  · rw [insertLoop_atomic m h segs n hok]
    exact ⟨i, hi, rfl, rfl, fun _ _ hx => hx⟩

theorem runInserts_mono (routes : List (Route H)) :
    ∀ t : Trie H, Reachable t → ∀ {ks : List GoString} {i : NodeInfo H},
      view t.root ks = some i →
      ∃ i', view (runInserts t routes).root ks = some i' ∧ i'.Label = i.Label ∧
        i'.Kind = i.Kind ∧ ∀ m' x, i.Value m' = some x → i'.Value m' = some x := by
  induction routes with
  | nil => intro t _ ks i hi; exact ⟨i, hi, rfl, rfl, fun _ _ hx => hx⟩
  | cons r rest ih =>
    intro t ht ks i hi
    obtain ⟨i1, h1, hl1, hk1, hv1⟩ :=
      insertLoop_mono r.2.1 r.2.2 (segmentsOf r.1) t.root ht.noRegexKeys hi
    obtain ⟨i2, h2, hl2, hk2, hv2⟩ := ih _ (Reachable.insert t r.1 r.2.1 r.2.2 ht) h1
    exact ⟨i2, h2, hl2.trans hl1, hk2.trans hk1, fun m' x hx => hv2 m' x (hv1 m' x hx)⟩

/-! ### `Trie.Get` along the key path of an inserted template -/

theorem getLoop_keyOf (segs : List GoString) :
    ∀ (n : TrieNode H) (vars : Vars) (i : NodeInfo H), NoRegexKeys n →
      view n (segs.map keyOf) = some i →
      ∃ N vars', getLoop segs n vars = (some N, vars') ∧ N.info = i ∧
        ((∀ s ∈ segs, varsNameRegex s = false) → vars' = vars) := by
  induction segs with
  | nil =>
    intro n vars i _ hi
    simp only [List.map_nil, view_nil, Option.some.injEq] at hi
    exact ⟨n, vars, rfl, hi, fun _ => rfl⟩
  | cons s rest ih =>
    intro n vars i hn hi
    obtain ⟨c, hc, hci⟩ := view_cons_eq_some hi
    by_cases hr : varsNameRegex s = true
    · rw [keyOf_of_regex hr] at hc
      obtain ⟨N, vars', hg, hN, -⟩ := ih c (vars ++ [{ Name := c.Label, Value := s }]) i
        (hn.of_child hc) hci
      refine ⟨N, vars', ?_, hN, ?_⟩
      · simp only [getLoop, hn.top s hr, hc]
        exact hg
      · intro hall
        have := hall s (by simp)
        rw [hr] at this
        cases this
    · have hr2 : varsNameRegex s = false := by simpa using hr
      rw [keyOf_of_not_regex hr2] at hc
      obtain ⟨N, vars', hg, hN, hv⟩ := ih c vars i (hn.of_child hc) hci
      refine ⟨N, vars', ?_, hN, ?_⟩
      · simp only [getLoop, hc]
        exact hg
      · intro hall
        exact hv (fun s' hs' => hall s' (by simp [hs']))

theorem map_keyOf_of_literal {segs : List GoString}
    (h : ∀ s ∈ segs, varsNameRegex s = false) : segs.map keyOf = segs := by
  induction segs with
  | nil => rfl
  | cons s rest ih =>
    simp only [List.map_cons, List.cons.injEq]
    exact ⟨keyOf_of_not_regex (h s (by simp)), ih (fun s' hs' => h s' (by simp [hs']))⟩

theorem Trie.Get_of_view {t : Trie H} (ht : Reachable t) {path method : GoString}
    {i : NodeInfo H} {x : Handler H}
    (hi : view t.root ((segmentsOf path).map keyOf) = some i) (hx : i.Value method = some x) :
    (t.Get path method).1 = x ∧ (t.Get path method).2.2 = none ∧
      ((∀ s ∈ segmentsOf path, varsNameRegex s = false) → (t.Get path method).2.1 = []) := by
  obtain ⟨N, vars', hg, hN, hv⟩ := getLoop_keyOf (segmentsOf path) t.root [] i ht.noRegexKeys hi
  have hval : N.Value method = some x := by
    rw [← hN] at hx
    exact hx
  simp only [Trie.Get, hg, hval]
  exact ⟨trivial, trivial, hv⟩

theorem round_trip_aux (routes : List (Route H)) :
    ∀ t : Trie H, Reachable t → allSucceed t routes = true →
      ∀ r ∈ routes, ∃ i, view (runInserts t routes).root ((segmentsOf r.1).map keyOf) = some i ∧
        i.Value r.2.1 = some r.2.2 := by
  induction routes with
  | nil => intro t _ _ r hr; cases hr
  | cons r0 rest ih =>
    intro t ht hall r hr
    simp only [allSucceed, Bool.and_eq_true, Option.isNone_iff_eq_none] at hall
    have ht1 : Reachable (t.Insert r0.1 r0.2.1 r0.2.2).1 := Reachable.insert t _ _ _ ht
    rcases List.mem_cons.1 hr with rfl | hmem
    · obtain ⟨i, hi, hx⟩ :=
        insertLoop_registers r.2.1 r.2.2 (segmentsOf r.1) t.root ht.noRegexKeys hall.1
      obtain ⟨i', hi', -, -, hv⟩ := runInserts_mono rest _ ht1 hi
      exact ⟨i', hi', hv _ _ hx⟩
    · exact ih _ ht1 hall.2 r hmem

/-! ### Path normalisation -/

theorem Split_ne_nil (s : GoString) (sep : Char) : Split s sep ≠ [] := by
  induction s with
  | nil => simp [Split]
  | cons c cs ih =>
    simp only [Split]
    split
    · simp
    · split <;> simp

theorem Split_of_not_mem {s : GoString} {sep : Char} (h : sep ∉ s) : Split s sep = [s] := by
  induction s with
  | nil => rfl
  | cons c cs ih =>
    have hc : c ≠ sep := fun e => h (by simp [e])
    have hcs : sep ∉ cs := fun e => h (by simp [e])
    simp [Split, hc, ih hcs]

theorem Split_append_sep (a b : GoString) (sep : Char) :
    Split (a ++ sep :: b) sep = Split a sep ++ Split b sep := by
  induction a with
  | nil => simp [Split]
  | cons c cs ih =>
    by_cases hc : c = sep
    · simp [Split, hc, ih]
    · simp only [List.cons_append, Split, hc, if_false]
      change (match Split (cs ++ sep :: b) sep with
        | [] => [[c]]
        | seg :: segs => (c :: seg) :: segs) = _
      rw [ih]
      cases hs : Split cs sep with
      | nil => exact absurd hs (Split_ne_nil cs sep)
      | cons seg segs => simp

theorem TrimPrefix_cons (c : Char) (s : GoString) :
    TrimPrefix (c :: s) "/".toList = if c = '/' then s else c :: s := by
  by_cases hc : c = '/'
  · subst hc
    simp [TrimPrefix, List.isPrefixOf]
  · have : ('/' == c) = false := by simp [Ne.symm hc]
    simp [TrimPrefix, List.isPrefixOf, hc, this]

theorem TrimSuffix_append_singleton (s : GoString) (c : Char) :
    TrimSuffix (s ++ [c]) "/".toList = if c = '/' then s else s ++ [c] := by
  by_cases hc : c = '/'
  · subst hc
    simp [TrimSuffix, List.isSuffixOf]
  · have : ('/' == c) = false := by simp [Ne.symm hc]
    simp [TrimSuffix, List.isSuffixOf, List.isPrefixOf, hc, this]

theorem TrimSuffix_of_getLast {s : GoString} (h : s.getLast? ≠ some '/') :
    TrimSuffix s "/".toList = s := by
  rcases List.eq_nil_or_concat s with rfl | ⟨l, c, rfl⟩
  · simp [TrimSuffix, List.isSuffixOf, List.isPrefixOf]
  · rw [List.concat_eq_append] at h ⊢
    rw [TrimSuffix_append_singleton]
    have hc : c ≠ '/' := by
      intro e
      apply h
      simp [e]
    simp [hc]


theorem TrimPrefix_append {P : GoString} (hP : P ≠ []) (T : GoString) :
    TrimPrefix (P ++ T) "/".toList = TrimPrefix P "/".toList ++ T := by
  obtain ⟨c, cs, rfl⟩ := List.exists_cons_of_ne_nil hP
  rw [List.cons_append, TrimPrefix_cons, TrimPrefix_cons]
  split <;> rfl

theorem TrimSuffix_append (a : GoString) {b : GoString} (hb : b ≠ []) :
    TrimSuffix (a ++ b) "/".toList = a ++ TrimSuffix b "/".toList := by
  rcases List.eq_nil_or_concat b with rfl | ⟨l, c, rfl⟩
  · exact absurd rfl hb
  · rw [List.concat_eq_append, ← List.append_assoc, TrimSuffix_append_singleton,
      TrimSuffix_append_singleton]
    split <;> simp

theorem TrimSuffix_of_not_mem {s : GoString} (h : '/' ∉ s) : TrimSuffix s "/".toList = s := by
  apply TrimSuffix_of_getLast
  intro e
  exact h (List.mem_of_mem_getLast? e)

/-- Normalisation of `P ++ "/" ++ T`: the segments of the prefix, then those
of `T`, for a `T` that does not end in a slash. -/
theorem segmentsOf_prefix_append (P : GoString) {T : GoString} (hT : T ≠ [])
    (hlast : T.getLast? ≠ some '/') :
    segmentsOf (P ++ '/' :: T) = prefixSegments P ++ Split T '/' := by
  unfold segmentsOf prefixSegments
  by_cases hP : P = []
  · subst hP
    simp only [List.nil_append, TrimPrefix_cons, if_true]
    rw [TrimSuffix_of_getLast hlast]
  · simp only [hP, if_false]
    rw [TrimPrefix_append hP, TrimSuffix_append _ (by simp),
      show TrimSuffix ('/' :: T) "/".toList = '/' :: T from by
        rw [← List.singleton_append, TrimSuffix_append _ hT, TrimSuffix_of_getLast hlast],
      Split_append_sep]

theorem segmentsOf_prefix_segment (P : GoString) {X : GoString} (hX : X ≠ [])
    (hslash : '/' ∉ X) : segmentsOf (P ++ '/' :: X) = prefixSegments P ++ [X] := by
  rw [segmentsOf_prefix_append P hX (fun e => hslash (List.mem_of_mem_getLast? e)),
    Split_of_not_mem hslash]

/-! ### Walking `Trie.Get` by hand -/

theorem getLoop_append_of_descend (pre : List GoString) :
    ∀ (n N : TrieNode H) (rest : List GoString) (vars : Vars), descend pre n = some N →
      getLoop (pre ++ rest) n vars = getLoop rest N vars := by
  induction pre with
  | nil =>
    intro n N rest vars h
    simp only [descend_nil, Option.some.injEq] at h
    subst h
    rfl
  | cons k ks ih =>
    intro n N rest vars h
    rw [descend_cons] at h
    cases hc : n.Children k with
    | none => simp [hc] at h
    | some c =>
      simp only [hc, Option.bind_some] at h
      simp only [List.cons_append, getLoop, hc]
      exact ih c N rest vars h

theorem descend_of_view {n : TrieNode H} {ks : List GoString} {i : NodeInfo H}
    (h : view n ks = some i) : ∃ N, descend ks n = some N ∧ N.info = i := by
  unfold view at h
  cases hd : descend ks n with
  | none => simp [hd] at h
  | some N => exact ⟨N, rfl, by simpa [hd] using h⟩

theorem children_of_descend {n N : TrieNode H} {ks : List GoString}
    (h : descend ks n = some N) (k : GoString) :
    (N.Children k).map TrieNode.info = view n (ks ++ [k]) := by
  rw [view_append_singleton, h]
  rfl

theorem isEmptyNode_NewTrie : IsEmptyNode (NewTrie : Trie H).root :=
  ⟨fun _ => rfl, fun _ => rfl⟩

theorem view_NewTrie {ks : List GoString} (h : ks ≠ []) :
    view (NewTrie : Trie H).root ks = none :=
  view_of_empty isEmptyNode_NewTrie h

theorem Insert_NewTrie_ok (path method : GoString) (handler : Handler H) :
    (NewTrie.Insert path method handler).2 = none :=
  insertLoop_empty_ok method handler (segmentsOf path) _ isEmptyNode_NewTrie



theorem varsNameRegex_iff (s : GoString) :
    varsNameRegex s = true ↔
      ∃ body, body ≠ [] ∧ (∀ c ∈ body, varsNameClass c = true) ∧ s = placeholder body := by
  unfold placeholder
  constructor
  · intro h
    simp only [varsNameRegex, Bool.and_eq_true, beq_iff_eq, decide_eq_true_eq,
      List.all_eq_true] at h
    obtain ⟨⟨⟨hhead, hlast⟩, hlen⟩, hall⟩ := h
    cases s with
    | nil => simp at hhead
    | cons c s1 =>
      simp only [List.head?_cons, Option.some.injEq] at hhead
      subst hhead
      rcases List.eq_nil_or_concat s1 with rfl | ⟨body, d, rfl⟩
      · simp at hlen
      · rw [List.concat_eq_append] at hlast hlen hall ⊢
        have hd : d = '\x7d' := by
          have : ('\x7b' :: (body ++ [d])).getLast? = some d := by
            rw [← List.cons_append, List.getLast?_append]
            simp
          rw [this] at hlast
          exact Option.some.inj hlast
        subst hd
        refine ⟨body, ?_, ?_, rfl⟩
        · intro hb
          subst hb
          simp at hlen
        · intro c hc
          apply hall
          simp [List.dropLast_concat, hc]
  · rintro ⟨body, hb, hall, rfl⟩
    simp only [varsNameRegex, Bool.and_eq_true, beq_iff_eq, decide_eq_true_eq,
      List.all_eq_true]
    refine ⟨⟨⟨rfl, ?_⟩, ?_⟩, ?_⟩
    · rw [← List.cons_append, List.getLast?_append]
      simp
    · obtain ⟨b, bs, rfl⟩ := List.exists_cons_of_ne_nil hb
      simp
    · intro c hc
      apply hall
      simpa [List.dropLast_concat] using hc

theorem varsNameClass_ne_slash {c : Char} (h : varsNameClass c = true) : c ≠ '/' := by
  rintro rfl
  exact absurd h (by decide)

theorem not_mem_slash_of_regex {s : GoString} (h : varsNameRegex s = true) : '/' ∉ s := by
  obtain ⟨body, -, hall, rfl⟩ := (varsNameRegex_iff s).1 h
  intro hmem
  simp only [placeholder, List.mem_cons, List.mem_append, List.mem_singleton] at hmem
  rcases hmem with h1 | h2 | h3
  · exact absurd h1 (by decide)
  · exact varsNameClass_ne_slash (hall _ h2) rfl
  · rcases h3 with h3 | h3
    · exact absurd h3 (by decide)
    · cases h3

theorem ne_nil_of_regex {s : GoString} (h : varsNameRegex s = true) : s ≠ [] := by
  obtain ⟨body, -, -, rfl⟩ := (varsNameRegex_iff s).1 h
  simp [placeholder]

theorem view_Insert_NewTrie (path method : GoString) (handler : Handler H)
    (ks : List GoString) :
    view (NewTrie.Insert path method handler).1.root ks =
      if ks <+: (segmentsOf path).map keyOf then
        some (insInfo method handler (segmentsOf path) ks (view (NewTrie : Trie H).root ks))
      else view (NewTrie : Trie H).root ks :=
  view_insertLoop method handler (segmentsOf path) _ noRegexKeys_NewTrie
    (Insert_NewTrie_ok path method handler) ks

theorem nameOf_placeholder (n : GoString) : nameOf (placeholder n) = n := by
  unfold nameOf TrimSuffix TrimPrefix placeholder
  have h1 : List.isSuffixOf "\x7d".toList ('\x7b' :: (n ++ ['\x7d'])) = true := by
    rw [List.isSuffixOf_iff_suffix]
    exact ⟨'\x7b' :: n, by simp⟩
  rw [if_pos h1]
  simp [List.isPrefixOf]

theorem prefix_map_concat {ks : List GoString} {k : GoString} {segs : List GoString}
    (hp : (ks ++ [k]) <+: segs.map keyOf) :
    segs.getD ks.length [] ∈ segs ∧ k = keyOf (segs.getD ks.length []) := by
  obtain ⟨t, ht⟩ := hp
  have h1 : (segs.map keyOf)[ks.length]? = some k := by
    rw [← ht, List.append_assoc, List.getElem?_append_right (le_refl _)]
    simp
  rw [List.getElem?_map] at h1
  cases hs : segs[ks.length]? with
  | none => simp [hs] at h1
  | some s =>
    simp only [hs, Option.map_some', Option.some.injEq] at h1
    have hd : segs.getD ks.length [] = s := by
      simp [List.getD_eq_getElem?_getD, hs]
    rw [hd]
    exact ⟨List.getElem?_mem hs, h1.symm⟩

theorem insInfo_Kind (m : GoString) (h : Handler H) (segs ks : List GoString)
    (old : Option (NodeInfo H)) :
    (insInfo m h segs ks old).Kind
      = (old.getD (freshNode (segs.getD (ks.length - 1) [])).info).Kind := by
  unfold insInfo
  split <;> rfl

theorem insInfo_Label (m : GoString) (h : Handler H) (segs ks : List GoString)
    (old : Option (NodeInfo H)) :
    (insInfo m h segs ks old).Label
      = (old.getD (freshNode (segs.getD (ks.length - 1) [])).info).Label := by
  unfold insInfo
  split <;> rfl

theorem freshNode_Kind (s : GoString) :
    (freshNode s : TrieNode H).Kind = if varsNameRegex s = true then VarsNode else PathNode := by
  unfold freshNode
  split <;> rfl

theorem freshNode_kind_iff {s : GoString} (hs : s ≠ VarsLabel) :
    (freshNode s : TrieNode H).Kind = VarsNode ↔ keyOf s = VarsLabel := by
  rw [freshNode_Kind]
  by_cases hr : varsNameRegex s = true
  · simp [hr, keyOf_of_regex hr]
  · have hr2 : varsNameRegex s = false := by simpa using hr
    rw [keyOf_of_not_regex hr2]
    simp only [hr, if_false]
    constructor
    · intro h; exact absurd h (by decide)
    · intro h; exact absurd h hs

theorem insertLoop_kindInv (m : GoString) (h : Handler H) (segs : List GoString)
    (n : TrieNode H) (hn : NoRegexKeys n) (hk : KindInv n) (hres : VarsLabel ∉ segs) :
    KindInv (insertLoop m h segs n).1 := by
  by_cases hok : (insertLoop m h segs n).2 = none
  · intro ks k i hv
    rw [view_insertLoop m h segs n hn hok] at hv
    split at hv
    · rename_i hp
      simp only [Option.some.injEq] at hv
      subst hv
      rw [insInfo_Kind]
      cases hold : view n (ks ++ [k]) with
      | some i0 => simpa using hk ks k i0 hold
      | none =>
        obtain ⟨hmem, hkey⟩ := prefix_map_concat hp
        have hne : segs.getD ks.length [] ≠ VarsLabel := fun e => hres (e ▸ hmem)
        simp only [Option.getD_none, List.length_append, List.length_singleton,
          Nat.add_sub_cancel]
        rw [hkey]
        exact freshNode_kind_iff hne
    · exact hk ks k i hv
  · rw [insertLoop_atomic m h segs n hok]
    exact hk

theorem kindInv_NewTrie : KindInv (NewTrie : Trie H).root := by
  intro ks k i hv
  rw [view_NewTrie (by simp)] at hv
  cases hv

theorem runInserts_kindInv (routes : List (Route H)) :
    ∀ t : Trie H, Reachable t → KindInv t.root →
      (∀ r ∈ routes, VarsLabel ∉ segmentsOf r.1) → KindInv (runInserts t routes).root := by
  induction routes with
  | nil => intro t _ hk _; exact hk
  | cons r rest ih =>
    intro t ht hk hres
    apply ih _ (Reachable.insert t r.1 r.2.1 r.2.2 ht)
    · exact insertLoop_kindInv _ _ _ _ ht.noRegexKeys hk (hres r (by simp))
    · intro r' hr'
      exact hres r' (by simp [hr'])

theorem KindInv.at_child {n c : TrieNode H} {k : GoString} (hk : KindInv n)
    (hc : n.Children k = some c) : KindInv c := by
  intro ks k' i hv
  apply hk (k :: ks) k' i
  rw [List.cons_append, view_cons_of_child hc]
  exact hv

theorem KindInv.kind_of_child {n c : TrieNode H} {k : GoString} (hk : KindInv n)
    (hc : n.Children k = some c) : c.Kind = VarsNode ↔ k = VarsLabel := by
  apply hk [] k c.info
  simp [view_cons_of_child hc]

theorem getLoop_vars_eq_trace (segs : List GoString) :
    ∀ (n : TrieNode H) (vars : Vars), KindInv n → VarsLabel ∉ segs →
      (getLoop segs n vars).2 = vars ++
        ((getTrace segs n).filter (fun e => e.1.Kind == VarsNode)).map
          (fun e => { Name := e.1.Label, Value := e.2 }) := by
  induction segs with
  | nil => intro n vars _ _; simp [getLoop, getTrace]
  | cons s rest ih =>
    intro n vars hk hres
    have hs : s ≠ VarsLabel := fun e => hres (by simp [e])
    have hrest : VarsLabel ∉ rest := fun e => hres (by simp [e])
    simp only [getLoop, getTrace]
    cases hc : n.Children s with
    | some c =>
      have hkind : ¬ c.Kind = VarsNode := fun e => hs ((hk.kind_of_child hc).1 e)
      simp only [List.filter_cons, beq_iff_eq, hkind, if_false]
      exact ih c vars (hk.at_child hc) hrest
    | none =>
      cases hv : n.Children VarsLabel with
      | none => simp
      | some v =>
        have hkind : v.Kind = VarsNode := (hk.kind_of_child hv).2 rfl
        simp only [List.filter_cons, beq_iff_eq, hkind, if_true, List.map_cons]
        rw [ih v _ (hk.at_child hv) hrest]
        simp

theorem Trie.Get_vars (t : Trie H) (path method : GoString) :
    (t.Get path method).2.1 = (getLoop (segmentsOf path) t.root []).2 := by
  unfold Trie.Get
  split
  · rename_i h; rw [h]
  · rename_i N vars h
    rw [h]
    cases N.Value method <;> rfl

/-- After a successful insertion the node of every placeholder segment is
labelled with the name of that placeholder. -/
theorem insertLoop_label (m : GoString) (h : Handler H) (n : TrieNode H) (hn : NoRegexKeys n)
    {pre post : List GoString} {s : GoString}
    (hok : (insertLoop m h (pre ++ s :: post) n).2 = none) (hs : varsNameRegex s = true) :
    ∃ i, view (insertLoop m h (pre ++ s :: post) n).1 ((pre ++ [s]).map keyOf) = some i ∧
      i.Label = nameOf s := by
  have hp : (pre ++ [s]).map keyOf <+: (pre ++ s :: post).map keyOf := by
    refine ⟨post.map keyOf, ?_⟩
    simp
  refine ⟨_, by rw [view_insertLoop m h _ n hn hok, if_pos hp], ?_⟩
  rw [insInfo_Label]
  cases hold : view n ((pre ++ [s]).map keyOf) with
  | some i0 =>
    simp only [Option.getD_some]
    by_contra hne
    exact absurd hok
      ((insertLoop_error_iff m h _ n hn).2 (Or.inl ⟨pre, s, post, i0, rfl, hs, hold, hne⟩))
  | none =>
    have hget2 : (pre ++ s :: post).getD pre.length [] = s := by
      rw [List.getD_eq_getElem?_getD, List.getElem?_append_right (le_refl _)]
      simp
    simp only [Option.getD_none, List.length_map, List.length_append, List.length_singleton,
      Nat.add_sub_cancel, hget2]
    exact freshNode_Label_of_regex hs

theorem Trie.Insert_atomic (t : Trie H) (path method : GoString) (handler : Handler H)
    (herr : (t.Insert path method handler).2 ≠ none) : (t.Insert path method handler).1 = t := by
  have := insertLoop_atomic method handler (segmentsOf path) t.root herr
  cases t with
  | mk root =>
    simp only [Trie.Insert] at this ⊢
    rw [this]

theorem segmentsOf_prefix_general (P : GoString) {T : GoString} (hT : T ≠ []) :
    segmentsOf (P ++ '/' :: T) = prefixSegments P ++ Split (TrimSuffix T "/".toList) '/' := by
  unfold segmentsOf prefixSegments
  by_cases hP : P = []
  · subst hP
    simp only [List.nil_append, TrimPrefix_cons, if_true]
  · simp only [hP, if_false]
    rw [TrimPrefix_append hP, TrimSuffix_append _ (by simp),
      show TrimSuffix ('/' :: T) "/".toList = '/' :: TrimSuffix T "/".toList from by
        rw [← List.singleton_append, TrimSuffix_append _ hT]
        rfl,
      Split_append_sep]

theorem Split_trim_segment_suffix {X s : GoString} (hslash : '/' ∉ X)
    (hs : s = [] ∨ s.head? = some '/') :
    Split (TrimSuffix (X ++ s) "/".toList) '/' = X :: suffixSegments s := by
  unfold suffixSegments
  rcases hs with rfl | hs
  · rw [List.append_nil, TrimSuffix_of_not_mem hslash, Split_of_not_mem hslash]
    rfl
  · cases s with
    | nil => simp at hs
    | cons c s0 =>
      simp only [List.head?_cons, Option.some.injEq] at hs
      subst hs
      rw [TrimSuffix_append _ (by simp)]
      by_cases h0 : s0 = []
      · subst h0
        have : TrimSuffix ['/'] "/".toList = [] := by decide
        rw [this, List.append_nil, Split_of_not_mem hslash]
        rfl
      · have : TrimSuffix ('/' :: s0) "/".toList = '/' :: TrimSuffix s0 "/".toList := by
          rw [← List.singleton_append, TrimSuffix_append _ h0]
          rfl
        rw [this, Split_append_sep, Split_of_not_mem hslash]
        simp [Split]

/-- Normalisation of `P ++ "/" ++ X ++ s` for a segment `X` and a suffix `s`,
empty or starting with a slash. -/
theorem segmentsOf_prefix_segment_suffix (P : GoString) {X s : GoString} (hX : X ≠ [])
    (hslash : '/' ∉ X) (hs : s = [] ∨ s.head? = some '/') :
    segmentsOf (P ++ '/' :: (X ++ s)) = prefixSegments P ++ X :: suffixSegments s := by
  rw [segmentsOf_prefix_general P (by simp [hX]), Split_trim_segment_suffix hslash hs]

theorem freshNode_Value (s m : GoString) : (freshNode s : TrieNode H).Value m = none :=
  (freshNode_isEmpty s).2 m

theorem unique_regex_split {a b pre post : List GoString} {X s : GoString}
    (ha : ∀ c ∈ a, varsNameRegex c = false) (hb : ∀ c ∈ b, varsNameRegex c = false)
    (hs : varsNameRegex s = true) (h : a ++ X :: b = pre ++ s :: post) :
    pre = a ∧ s = X ∧ post = b := by
  induction a generalizing pre with
  | nil =>
    cases pre with
    | nil =>
      simp only [List.nil_append, List.cons.injEq] at h
      exact ⟨rfl, h.1.symm, h.2.symm⟩
    | cons c pre' =>
      simp only [List.nil_append, List.cons_append, List.cons.injEq] at h
      have := hb s (by rw [h.2]; simp)
      rw [hs] at this
      cases this
  | cons c a' ih =>
    cases pre with
    | nil =>
      simp only [List.nil_append, List.cons_append, List.cons.injEq] at h
      have := ha c (by simp)
      rw [h.1, hs] at this
      cases this
    | cons d pre' =>
      simp only [List.cons_append, List.cons.injEq] at h
      obtain ⟨h1, h2, h3⟩ := ih (fun c' hc' => ha c' (by simp [hc'])) h.2
      exact ⟨by rw [h.1, h1], h2, h3⟩

theorem rep_NewTrie : Rep (NewTrie : Trie H) [] where
  onRoute := by
    intro ks i hks hv
    rw [view_NewTrie hks] at hv
    cases hv
  handlers := by
    intro ks i m x hv hx
    cases ks with
    | nil =>
      simp only [view_nil, Option.some.injEq] at hv
      subst hv
      cases hx
    | cons k ks =>
      rw [view_NewTrie (by simp)] at hv
      cases hv
  labels := by
    intro r hr
    cases hr
  stored := by
    intro r hr
    cases hr

theorem insInfo_Value_some {m : GoString} {h : Handler H} {segs ks : List GoString}
    {old : Option (NodeInfo H)} {m' : GoString} {x : Handler H}
    (hx : (insInfo m h segs ks old).Value m' = some x) :
    (ks.length = segs.length ∧ m' = m ∧ x = h) ∨ ∃ i, old = some i ∧ i.Value m' = some x := by
  unfold insInfo at hx
  have hbase : ∀ x', (old.getD (freshNode (segs.getD (ks.length - 1) [])).info).Value m'
      = some x' → ∃ i, old = some i ∧ i.Value m' = some x' := by
    intro x' hx'
    cases old with
    | none => simp [TrieNode.info, freshNode_Value] at hx'
    | some i => exact ⟨i, rfl, by simpa using hx'⟩
  split at hx
  · rename_i hlen
    simp only [NodeInfo.setValue] at hx
    by_cases hm : m' = m
    · simp only [hm, if_true, Option.some.injEq] at hx
      exact Or.inl ⟨hlen, hm, hx.symm⟩
    · simp only [hm, if_false] at hx
      exact Or.inr (hbase x hx)
  · exact Or.inr (hbase x hx)

theorem Rep.insert_ok {t : Trie H} {R : List (Route H)} (hrep : Rep t R) (ht : Reachable t)
    (r : Route H) (hok : (t.Insert r.1 r.2.1 r.2.2).2 = none) :
    Rep (t.Insert r.1 r.2.1 r.2.2).1 (R ++ [r]) where
  onRoute := by
    intro ks i hks hv
    have hv' : view (insertLoop r.2.1 r.2.2 (segmentsOf r.1) t.root).1 ks = some i := hv
    rw [view_insertLoop _ _ _ _ ht.noRegexKeys hok] at hv'
    split at hv'
    · rename_i hp
      exact ⟨r, by simp, hp⟩
    · obtain ⟨r', hr', hp'⟩ := hrep.onRoute ks i hks hv'
      exact ⟨r', by simp [hr'], hp'⟩
  handlers := by
    intro ks i m x hv hx
    have hv' : view (insertLoop r.2.1 r.2.2 (segmentsOf r.1) t.root).1 ks = some i := hv
    rw [view_insertLoop _ _ _ _ ht.noRegexKeys hok] at hv'
    split at hv'
    · rename_i hp
      simp only [Option.some.injEq] at hv'
      subst hv'
      rcases insInfo_Value_some hx with ⟨hlen, hm, hxh⟩ | ⟨i0, hold, hx0⟩
      · refine ⟨r, by simp, ?_, hm.symm, hxh.symm⟩
        exact (hp.eq_of_length (by simpa using hlen)).symm
      · obtain ⟨r', hr', h1, h2, h3⟩ := hrep.handlers ks i0 m x hold hx0
        exact ⟨r', by simp [hr'], h1, h2, h3⟩
    · obtain ⟨r', hr', h1, h2, h3⟩ := hrep.handlers ks i m x hv' hx
      exact ⟨r', by simp [hr'], h1, h2, h3⟩
  labels := by
    intro r' hr' pre s post hsplit hs
    rcases List.mem_append.1 hr' with hr' | hr'
    · obtain ⟨i, hi, hl⟩ := hrep.labels r' hr' pre s post hsplit hs
      obtain ⟨i', hi', hl', -, -⟩ :=
        insertLoop_mono r.2.1 r.2.2 (segmentsOf r.1) t.root ht.noRegexKeys hi
      exact ⟨i', hi', hl'.trans hl⟩
    · simp only [List.mem_singleton] at hr'
      subst hr'
      have hok' : (insertLoop r'.2.1 r'.2.2 (pre ++ s :: post) t.root).2 = none := by
        rw [← hsplit]; exact hok
      obtain ⟨i, hi, hl⟩ := insertLoop_label _ _ t.root ht.noRegexKeys hok' hs
      rw [← hsplit] at hi
      exact ⟨i, hi, hl⟩
  stored := by
    intro r' hr'
    rcases List.mem_append.1 hr' with hr' | hr'
    · obtain ⟨i, hi, hx⟩ := hrep.stored r' hr'
      obtain ⟨i', hi', -, -, hv'⟩ :=
        insertLoop_mono r.2.1 r.2.2 (segmentsOf r.1) t.root ht.noRegexKeys hi
      exact ⟨i', hi', hv' _ _ hx⟩
    · simp only [List.mem_singleton] at hr'
      subst hr'
      exact insertLoop_registers _ _ _ t.root ht.noRegexKeys hok

theorem rep_runInserts (routes : List (Route H)) :
    ∀ (t : Trie H) (R : List (Route H)), Reachable t → Rep t R →
      Rep (runInserts t routes) (R ++ registered t routes) := by
  induction routes with
  | nil => intro t R _ hrep; simpa [runInserts, registered] using hrep
  | cons r rest ih =>
    intro t R ht hrep
    have ht1 : Reachable (t.Insert r.1 r.2.1 r.2.2).1 := Reachable.insert t _ _ _ ht
    simp only [runInserts, registered]
    by_cases hok : (t.Insert r.1 r.2.1 r.2.2).2 = none
    · simp only [hok, if_true]
      have := ih _ _ ht1 (hrep.insert_ok ht r hok)
      simpa using this
    · simp only [hok, if_false]
      have h1 := Trie.Insert_atomic t _ _ _ hok
      have := ih (t.Insert r.1 r.2.1 r.2.2).1 R ht1 (by rw [h1]; exact hrep)
      exact this

theorem rep_runInserts_NewTrie (routes : List (Route H)) :
    Rep (runInserts (NewTrie : Trie H) routes) (registered NewTrie routes) := by
  simpa using rep_runInserts routes NewTrie [] Reachable.new rep_NewTrie

theorem registered_subset (routes : List (Route H)) :
    ∀ (t : Trie H) (r : Route H), r ∈ registered t routes → r ∈ routes := by
  induction routes with
  | nil => intro t r hr; cases hr
  | cons r0 rest ih =>
    intro t r hr
    simp only [registered] at hr
    split at hr
    · rcases List.mem_cons.1 hr with rfl | hr
      · simp
      · exact List.mem_cons_of_mem _ (ih _ r hr)
    · exact List.mem_cons_of_mem _ (ih _ r hr)

theorem regex_eq_placeholder {s : GoString} (h : varsNameRegex s = true) :
    s = placeholder (nameOf s) := by
  obtain ⟨body, -, -, rfl⟩ := (varsNameRegex_iff s).1 h
  rw [nameOf_placeholder]

theorem eq_of_nameOf_eq {s s' : GoString} (h : varsNameRegex s = true)
    (h' : varsNameRegex s' = true) (hn : nameOf s = nameOf s') : s = s' := by
  rw [regex_eq_placeholder h, regex_eq_placeholder h', hn]

theorem LabelsAgree.head {n c : TrieNode H} {s : GoString} {l : List GoString}
    (ha : LabelsAgree n (s :: l)) (hc : n.Children (keyOf s) = some c)
    (hs : varsNameRegex s = true) : c.Label = nameOf s :=
  ha [] s l c.info rfl hs (by simp [view_cons_of_child hc])

theorem LabelsAgree.tail {n c : TrieNode H} {s : GoString} {l : List GoString}
    (ha : LabelsAgree n (s :: l)) (hc : n.Children (keyOf s) = some c) : LabelsAgree c l := by
  intro pre s1 post i hsplit hs1 hv
  apply ha (s :: pre) s1 post i (by simp [hsplit]) hs1
  simpa [view_cons_of_child hc] using hv

theorem LabelsAgree.of_append {n : TrieNode H} {a b : List GoString}
    (h : LabelsAgree n (a ++ b)) : LabelsAgree n a := by
  intro pre s post i hsplit hs hv
  exact h pre s (post ++ b) i (by simp [hsplit]) hs hv

theorem view_prefix_some {n : TrieNode H} {a b : List GoString} {i : NodeInfo H}
    (h : view n (a ++ b) = some i) : ∃ i', view n a = some i' := by
  unfold view at h ⊢
  rw [descend_append] at h
  cases hd : descend a n with
  | none => simp [hd] at h
  | some N => exact ⟨N.info, rfl⟩

/-- Two segment lists without the reserved key that lead to the same node, and
whose placeholders both name the labels on the way, are equal. -/
theorem keys_inj (a : List GoString) :
    ∀ (n : TrieNode H) (b : List GoString), a.map keyOf = b.map keyOf →
      VarsLabel ∉ a → VarsLabel ∉ b → (∃ i, view n (a.map keyOf) = some i) →
      LabelsAgree n a → LabelsAgree n b → a = b := by
  induction a with
  | nil =>
    intro n b hmap _ _ _ _ _
    cases b with
    | nil => rfl
    | cons s' b' => simp at hmap
  | cons s a' ih =>
    intro n b hmap ha hb hex hla hlb
    cases b with
    | nil => simp at hmap
    | cons s' b' =>
      simp only [List.map_cons, List.cons.injEq] at hmap
      obtain ⟨hk, hmap'⟩ := hmap
      obtain ⟨i, hi⟩ := hex
      obtain ⟨c, hc, hci⟩ := view_cons_eq_some hi
      have hc' : n.Children (keyOf s') = some c := by rw [← hk]; exact hc
      have hs_ne : s ≠ VarsLabel := fun e => ha (by simp [e])
      have hs'_ne : s' ≠ VarsLabel := fun e => hb (by simp [e])
      have hss : s = s' := by
        by_cases hr : varsNameRegex s = true
        · have hr' : varsNameRegex s' = true := by
            by_contra hcon
            have hcon2 : varsNameRegex s' = false := by simpa using hcon
            rw [keyOf_of_regex hr, keyOf_of_not_regex hcon2] at hk
            exact hs'_ne hk.symm
          apply eq_of_nameOf_eq hr hr'
          rw [← hla.head hc hr, ← hlb.head hc' hr']
        · have hr2 : varsNameRegex s = false := by simpa using hr
          rw [keyOf_of_not_regex hr2] at hk
          by_cases hr' : varsNameRegex s' = true
          · rw [keyOf_of_regex hr'] at hk
            exact absurd hk hs_ne
          · have hr2' : varsNameRegex s' = false := by simpa using hr'
            rw [keyOf_of_not_regex hr2'] at hk
            exact hk
      subst hss
      have := ih c b' hmap' (fun e => ha (by simp [e])) (fun e => hb (by simp [e]))
        ⟨i, hci⟩ (hla.tail hc) (hlb.tail hc)
      rw [this]

theorem prefix_map_decomp {ks : List GoString} {k : GoString} {l : List GoString}
    (hp : (ks ++ [k]) <+: l.map keyOf) :
    ∃ pre s post, l = pre ++ s :: post ∧ pre.map keyOf = ks ∧ keyOf s = k := by
  obtain ⟨t, ht⟩ := hp
  rw [List.append_assoc] at ht
  obtain ⟨l1, l2, rfl, h1, h2⟩ := List.map_eq_append_iff.1 ht.symm
  cases l2 with
  | nil => simp at h2
  | cons s post =>
    simp only [List.singleton_append, List.map_cons, List.cons.injEq] at h2
    exact ⟨l1, s, post, rfl, h1, h2.1⟩

/-- Among the placeholder segments of `segs` whose node has another label there
is a first one. -/
theorem exists_first_mismatch (n : TrieNode H) (segs : List GoString) :
    ∀ (k : Nat) (pre : List GoString) (s : GoString) (post : List GoString)
      (i : NodeInfo H), pre.length = k → segs = pre ++ s :: post →
      varsNameRegex s = true → view n ((pre ++ [s]).map keyOf) = some i →
      i.Label ≠ nameOf s →
      ∃ pre s post i, segs = pre ++ s :: post ∧ varsNameRegex s = true ∧
        view n ((pre ++ [s]).map keyOf) = some i ∧ i.Label ≠ nameOf s ∧
        LabelsAgree n pre := by
  intro k
  induction k using Nat.strong_induction_on with
  | _ k ih =>
    intro pre s post i hlen hsplit hs hv hl
    by_cases hagree : LabelsAgree n pre
    · exact ⟨pre, s, post, i, hsplit, hs, hv, hl, hagree⟩
    · unfold LabelsAgree at hagree
      push_neg at hagree
      obtain ⟨p1, s1, q1, i1, hsplit1, hs1, hv1, hl1⟩ := hagree
      apply ih p1.length (by rw [← hlen, hsplit1]; simp) p1 s1 (q1 ++ s :: post) i1 rfl
        (by rw [hsplit, hsplit1]; simp) hs1 hv1 hl1

theorem NameClashWith.exists_placeholder {R : List (Route H)} {path : GoString}
    (h : NameClashWith R path) :
    ∃ r ∈ R, ∃ s' ∈ segmentsOf r.1, varsNameRegex s' = true := by
  obtain ⟨r, hr, pre, s, post, s', post', -, hsplit', -, hs', -⟩ := h
  exact ⟨r, hr, s', by rw [hsplit']; simp, hs'⟩

theorem NoVarsChild.below_child {n c : TrieNode H} {k : GoString} (hn : NoVarsChild n)
    (hc : n.Children k = some c) : NoVarsChild c := by
  intro ks N hN
  apply hn (k :: ks) N
  simp [descend_cons, hc, hN]

/-- Without children under the reserved key the loop of `Trie.Get` follows the
request segments as keys and collects no variable. -/
theorem getLoop_exact (segs : List GoString) :
    ∀ (n : TrieNode H) (vars : Vars), NoVarsChild n →
      getLoop segs n vars = (descend segs n, vars) ∨
        (descend segs n = none ∧ (getLoop segs n vars).1 = none) := by
  induction segs with
  | nil => intro n vars _; exact Or.inl rfl
  | cons s rest ih =>
    intro n vars hn
    simp only [getLoop, descend_cons]
    cases hc : n.Children s with
    | none =>
      have := hn [] n rfl
      simp [this]
    | some c =>
      simpa using ih c vars (hn.below_child hc)

theorem Rep.noVarsChild {t : Trie H} {R : List (Route H)} (hrep : Rep t R)
    (hlit : ∀ r ∈ R, ∀ s ∈ segmentsOf r.1, varsNameRegex s = false ∧ s ≠ VarsLabel) :
    NoVarsChild t.root := by
  intro ks N hN
  cases hc : N.Children VarsLabel with
  | none => rfl
  | some c =>
    exfalso
    have hv : view t.root (ks ++ [VarsLabel]) = some c.info := by
      rw [← children_of_descend hN VarsLabel, hc]
      rfl
    obtain ⟨r, hr, hp⟩ := hrep.onRoute _ _ (by simp) hv
    rw [map_keyOf_of_literal (fun s hs => (hlit r hr s hs).1)] at hp
    have hmem : VarsLabel ∈ segmentsOf r.1 := hp.subset (by simp)
    exact (hlit r hr _ hmem).2 rfl

theorem Trie.Get_error_handler (t : Trie H) (path method : GoString)
    (h : (t.Get path method).2.2 ≠ none) : (t.Get path method).1 = none := by
  unfold Trie.Get at h ⊢
  split
  · rfl
  · rename_i N vars hg
    rw [hg] at h
    cases hv : N.Value method with
    | none => rfl
    | some x => simp [hv] at h

/-- The walk of `Trie.Get` over a literal segment, a segment bound by a
placeholder and a literal segment. -/
theorem getLoop_literal_placeholder_literal (n : TrieNode H) (a y d : GoString)
    (i i' : NodeInfo H) (hy : view n [a, y] = none) (hv : view n [a, VarsLabel] = some i)
    (hd : view n [a, VarsLabel, d] = some i') :
    ∃ N, getLoop [a, y, d] n [] = (some N, [{ Name := i.Label, Value := y }]) ∧
      N.info = i' := by
  obtain ⟨nA, hA, hv1⟩ := view_cons_eq_some hv
  obtain ⟨nV, hV, hv2⟩ := view_cons_eq_some hv1
  rw [view_cons_of_child hA] at hy hd
  rw [view_cons_of_child hV] at hd
  obtain ⟨nD, hD, hd2⟩ := view_cons_eq_some hd
  have hY : nA.Children y = none := by
    cases hc : nA.Children y with
    | none => rfl
    | some c => simp [view_cons_of_child hc] at hy
  simp only [view_nil, Option.some.injEq] at hv2 hd2
  refine ⟨nD, ?_, hd2⟩
  simp only [getLoop, hA, hY, hV, hD, List.nil_append]
  rw [← hv2]
  rfl

theorem insInfo_Value_self (m : GoString) (h : Handler H) (segs ks : List GoString)
    (old : Option (NodeInfo H)) (hlen : ks.length = segs.length) :
    (insInfo m h segs ks old).Value m = some h := by
  simp [insInfo, hlen, NodeInfo.setValue]

theorem two_routes_view (p1 p2 m1 m2 : GoString) (h1 h2 : Handler H)
    (hok : (((NewTrie : Trie H).Insert p1 m1 h1).1.Insert p2 m2 h2).2 = none)
    (ks : List GoString) :
    view (((NewTrie : Trie H).Insert p1 m1 h1).1.Insert p2 m2 h2).1.root ks =
      if ks <+: (segmentsOf p2).map keyOf then
        some (insInfo m2 h2 (segmentsOf p2) ks
          (if ks <+: (segmentsOf p1).map keyOf then
            some (insInfo m1 h1 (segmentsOf p1) ks (view (NewTrie : Trie H).root ks))
          else view (NewTrie : Trie H).root ks))
      else if ks <+: (segmentsOf p1).map keyOf then
        some (insInfo m1 h1 (segmentsOf p1) ks (view (NewTrie : Trie H).root ks))
      else view (NewTrie : Trie H).root ks := by
  have h := view_insertLoop m2 h2 (segmentsOf p2) _
    (Reachable.insert _ p1 m1 h1 Reachable.new).noRegexKeys hok ks
  rw [view_Insert_NewTrie] at h
  exact h

theorem precedence_get_aux (t : Trie H) (m : GoString) (h2 : Handler H) (y : GoString)
    (hslash : '/' ∉ y) (hne : y ≠ [])
    (hy : view t.root ["a".toList, y] = none)
    (hv : ∃ i, view t.root ["a".toList, VarsLabel] = some i ∧ i.Label = "id".toList)
    (hd : ∃ i, view t.root ["a".toList, VarsLabel, "d".toList] = some i ∧
      i.Value m = some h2) :
    t.Get ("/a".toList ++ '/' :: (y ++ "/d".toList)) m
      = (h2, [{ Name := "id".toList, Value := y }], none) := by
  have hseg := segmentsOf_prefix_segment_suffix "/a".toList (X := y) (s := "/d".toList) hne
    hslash (by decide)
  have e1 : prefixSegments "/a".toList ++ y :: suffixSegments "/d".toList
      = ["a".toList, y, "d".toList] := by
    rw [show prefixSegments "/a".toList = ["a".toList] from by decide,
      show suffixSegments "/d".toList = ["d".toList] from by decide]
    rfl
  rw [e1] at hseg
  obtain ⟨i, hi, hl⟩ := hv
  obtain ⟨i', hi', hx⟩ := hd
  obtain ⟨N, hg, hN⟩ := getLoop_literal_placeholder_literal t.root _ y _ i i' hy hi hi'
  have hval : N.Value m = some h2 := by
    rw [← hN] at hx
    exact hx
  simp only [Trie.Get, hseg, hg, hval, hl]

theorem precedence_get (m : GoString) (h1 h2 : Handler H) (y : GoString)
    (hne : y ≠ []) (hslash : '/' ∉ y) (hx : y ≠ "x".toList) (hres : y ≠ VarsLabel) :
    (precedenceTrie m h1 h2).Get ("/a".toList ++ '/' :: (y ++ "/d".toList)) m
      = (h2, [{ Name := "id".toList, Value := y }], none) := by
  have kp1 : (segmentsOf "/a/x/c".toList).map keyOf
      = ["a".toList, "x".toList, "c".toList] := by decide
  have kp2 : (segmentsOf "/a/{id}/d".toList).map keyOf
      = ["a".toList, VarsLabel, "d".toList] := by decide
  have hview : ∀ ks, view (precedenceTrie m h1 h2).root ks = _ :=
    two_routes_view "/a/x/c".toList "/a/{id}/d".toList m m h1 h2 rfl
  rw [kp1, kp2] at hview
  have hY := hview ["a".toList, y]
  rw [if_neg, if_neg, view_NewTrie (by simp)] at hY
  rotate_left
  · simp only [List.cons_prefix_cons, true_and, not_and]
    intro e; exact absurd e hx
  · simp only [List.cons_prefix_cons, true_and, not_and]
    intro e; exact absurd e hres
  have hV := hview ["a".toList, VarsLabel]
  rw [if_pos ⟨["d".toList], rfl⟩, if_neg (by decide), view_NewTrie (by simp)] at hV
  have hD := hview ["a".toList, VarsLabel, "d".toList]
  rw [if_pos (List.prefix_refl _)] at hD
  apply precedence_get_aux _ m h2 y hslash hne hY ⟨_, hV, ?_⟩ ⟨_, hD, ?_⟩
  · rfl
  · exact insInfo_Value_self m h2 _ _ _ (by decide)

theorem precedence_get_rev (m : GoString) (h1 h2 : Handler H) (y : GoString)
    (hne : y ≠ []) (hslash : '/' ∉ y) (hx : y ≠ "x".toList) (hres : y ≠ VarsLabel) :
    (precedenceTrieRev m h1 h2).Get ("/a".toList ++ '/' :: (y ++ "/d".toList)) m
      = (h2, [{ Name := "id".toList, Value := y }], none) := by
  have kp1 : (segmentsOf "/a/x/c".toList).map keyOf
      = ["a".toList, "x".toList, "c".toList] := by decide
  have kp2 : (segmentsOf "/a/{id}/d".toList).map keyOf
      = ["a".toList, VarsLabel, "d".toList] := by decide
  have hview : ∀ ks, view (precedenceTrieRev m h1 h2).root ks = _ :=
    two_routes_view "/a/{id}/d".toList "/a/x/c".toList m m h2 h1 rfl
  rw [kp1, kp2] at hview
  have hY := hview ["a".toList, y]
  rw [if_neg, if_neg, view_NewTrie (by simp)] at hY
  rotate_left
  · simp only [List.cons_prefix_cons, true_and, not_and]
    intro e; exact absurd e hres
  · simp only [List.cons_prefix_cons, true_and, not_and]
    intro e; exact absurd e hx
  have hV := hview ["a".toList, VarsLabel]
  rw [if_neg (by decide), if_pos ⟨["d".toList], rfl⟩, view_NewTrie (by simp)] at hV
  have hD := hview ["a".toList, VarsLabel, "d".toList]
  rw [if_neg (by decide), if_pos (List.prefix_refl _)] at hD
  apply precedence_get_aux _ m h2 y hslash hne hY ⟨_, hV, ?_⟩ ⟨_, hD, ?_⟩
  · rfl
  · exact insInfo_Value_self m h2 _ _ _ (by decide)

/-- The node at which the loop of `Trie.Get` ends lies below the node at
which it starts. -/
theorem getLoop_descend (segs : List GoString) :
    ∀ (n N : TrieNode H) (vars vars' : Vars), getLoop segs n vars = (some N, vars') →
      ∃ ks, descend ks n = some N := by
  induction segs with
  | nil =>
    intro n N vars vars' h
    simp only [getLoop, Prod.mk.injEq, Option.some.injEq] at h
    exact ⟨[], by rw [← h.1]; rfl⟩
  | cons s rest ih =>
    intro n N vars vars' h
    simp only [getLoop] at h
    cases hc : n.Children s with
    | some c =>
      simp only [hc] at h
      obtain ⟨ks, hks⟩ := ih c N _ _ h
      exact ⟨s :: ks, by simp [descend_cons, hc, hks]⟩
    | none =>
      simp only [hc] at h
      cases hv : n.Children VarsLabel with
      | none => simp [hv] at h
      | some v =>
        simp only [hv] at h
        obtain ⟨ks, hks⟩ := ih v N _ _ h
        exact ⟨VarsLabel :: ks, by simp [descend_cons, hv, hks]⟩

theorem varsNameClass_of_asciiLetter {c : Char} (h : asciiLetter c = true) :
    varsNameClass c = true := by
  simp only [asciiLetter, varsNameClass, Bool.or_eq_true, Bool.and_eq_true,
    decide_eq_true_eq] at h ⊢
  rcases h with h | ⟨h1, h2⟩
  · exact Or.inl h
  · refine Or.inr ⟨h1, ?_⟩
    exact Char.le_trans h2 (by decide)

/-- Every segment that the specification calls a placeholder is matched by
`varsNameRegex`. -/
theorem varsNameRegex_of_specPlaceholder {s : GoString} (h : specPlaceholder s = true) :
    varsNameRegex s = true := by
  simp only [specPlaceholder, varsNameRegex, Bool.and_eq_true, List.all_eq_true] at h ⊢
  exact ⟨h.1, fun c hc => varsNameClass_of_asciiLetter (h.2 c hc)⟩

theorem freshNode_literal {s : GoString} (hs : keyOf s ≠ VarsLabel) :
    (freshNode s : TrieNode H).Kind = PathNode ∧ (freshNode s : TrieNode H).Label = keyOf s := by
  by_cases hr : varsNameRegex s = true
  · exact absurd (keyOf_of_regex hr) hs
  · have hr2 : varsNameRegex s = false := by simpa using hr
    rw [keyOf_of_not_regex hr2]
    simp [freshNode, hr2]

theorem insertLoop_literalInv (m : GoString) (h : Handler H) (segs : List GoString)
    (n : TrieNode H) (hn : NoRegexKeys n) (hl : LiteralInv n) :
    LiteralInv (insertLoop m h segs n).1 := by
  by_cases hok : (insertLoop m h segs n).2 = none
  · intro ks k i hv hk
    rw [view_insertLoop m h segs n hn hok] at hv
    split at hv
    · rename_i hp
      simp only [Option.some.injEq] at hv
      subst hv
      rw [insInfo_Kind, insInfo_Label]
      cases hold : view n (ks ++ [k]) with
      | some i0 => simpa using hl ks k i0 hold hk
      | none =>
        obtain ⟨-, hkey⟩ := prefix_map_concat hp
        simp only [Option.getD_none, List.length_append, List.length_singleton,
          Nat.add_sub_cancel]
        rw [hkey] at hk ⊢
        exact freshNode_literal hk
    · exact hl ks k i hv hk
  · rw [insertLoop_atomic m h segs n hok]
    exact hl

theorem Reachable.literalInv {t : Trie H} (ht : Reachable t) : LiteralInv t.root := by
  induction ht with
  | new =>
    intro ks k i hv
    rw [view_NewTrie (by simp)] at hv
    cases hv
  | insert t p m h ht ih => exact insertLoop_literalInv m h (segmentsOf p) t.root ht.noRegexKeys ih

theorem segmentsOf_ne_nil (path : GoString) : segmentsOf path ≠ [] :=
  Split_ne_nil _ _

/-- An insertion of at least one segment leaves label, kind and handlers of
the node it starts at as they are. -/
theorem insertLoop_info (m : GoString) (h : Handler H) {segs : List GoString}
    (hsegs : segs ≠ []) (n : TrieNode H) (hn : NoRegexKeys n) :
    (insertLoop m h segs n).1.info = n.info := by
  by_cases hok : (insertLoop m h segs n).2 = none
  · have := view_insertLoop m h segs n hn hok []
    rw [if_pos (List.nil_prefix), view_nil, view_nil] at this
    have hlen : ¬ 0 = segs.length := by
      intro e
      exact hsegs (List.length_eq_zero.1 e.symm)
    simpa [insInfo, hlen] using this
  · rw [insertLoop_atomic m h segs n hok]

theorem Reachable.root_Value {t : Trie H} (ht : Reachable t) (k : GoString) :
    t.root.Value k = none := by
  induction ht with
  | new => rfl
  | insert t p m h ht ih =>
    have := insertLoop_info m h (segmentsOf_ne_nil p) t.root ht.noRegexKeys
    have h2 : (insertLoop m h (segmentsOf p) t.root).1.Value = t.root.Value :=
      congrArg NodeInfo.Value this
    show (insertLoop m h (segmentsOf p) t.root).1.Value k = none
    rw [h2]
    exact ih

theorem ByName_of_not_mem (vs : Vars) (n : GoString) (h : ∀ e ∈ vs, e.Name ≠ n) :
    vs.ByName n = [] := by
  induction vs with
  | nil => rfl
  | cons e rest ih =>
    simp only [Vars.ByName, h e (by simp), if_false]
    exact ih (fun e' he' => h e' (by simp [he']))

theorem ByName_of_first (vs : Vars) (n : GoString) :
    ∀ (i : Nat) (e : Var), vs[i]? = some e → e.Name = n →
      (∀ (j : Nat) (e' : Var), j < i → vs[j]? = some e' → e'.Name ≠ n) →
      vs.ByName n = e.Value := by
  induction vs with
  | nil => intro i e h; simp at h
  | cons e0 rest ih =>
    intro i e hi hn hfirst
    cases i with
    | zero =>
      simp only [List.getElem?_cons_zero, Option.some.injEq] at hi
      subst hi
      simp [Vars.ByName, hn]
    | succ i =>
      have h0 : e0.Name ≠ n := hfirst 0 e0 (Nat.succ_pos i) (by simp)
      simp only [Vars.ByName, h0, if_false]
      apply ih i e (by simpa using hi) hn
      intro j e' hj hje
      exact hfirst (j + 1) e' (Nat.succ_lt_succ hj) (by simpa using hje)

theorem TrimPrefix_of_head {p : GoString} (h : p.head? ≠ some '/') :
    TrimPrefix p "/".toList = p := by
  cases p with
  | nil => rfl
  | cons c cs =>
    rw [TrimPrefix_cons]
    have : c ≠ '/' := fun e => h (by simp [e])
    simp [this]

theorem Trie.Insert_congr (t : Trie H) {p q : GoString} (h : segmentsOf p = segmentsOf q)
    (m : GoString) (x : Handler H) : t.Insert p m x = t.Insert q m x := by
  unfold Trie.Insert
  rw [h]

theorem Trie.Get_congr (t : Trie H) {p q : GoString} (h : segmentsOf p = segmentsOf q)
    (m : GoString) : t.Get p m = t.Get q m := by
  unfold Trie.Get
  rw [h]

theorem segmentsOf_of_trimmed {p : GoString} (hhead : p.head? ≠ some '/')
    (hlast : p.getLast? ≠ some '/') : segmentsOf p = Split p '/' := by
  unfold segmentsOf
  rw [TrimPrefix_of_head hhead, TrimSuffix_of_getLast hlast]

theorem segmentsOf_slash_left {p : GoString} (hhead : p.head? ≠ some '/') :
    segmentsOf ('/' :: p) = segmentsOf p := by
  unfold segmentsOf
  rw [TrimPrefix_cons, if_pos rfl, TrimPrefix_of_head hhead]

theorem segmentsOf_slash_right {p : GoString} (hhead : p.head? ≠ some '/')
    (hlast : p.getLast? ≠ some '/') : segmentsOf (p ++ ['/']) = segmentsOf p := by
  rw [segmentsOf_of_trimmed hhead hlast]
  unfold segmentsOf
  cases p with
  | nil => decide
  | cons c cs =>
    have hc : c ≠ '/' := fun e => hhead (by simp [e])
    rw [List.cons_append, TrimPrefix_cons, if_neg hc, ← List.cons_append,
      TrimSuffix_append_singleton, if_pos rfl]

theorem segmentsOf_slash_both {p : GoString} (hhead : p.head? ≠ some '/')
    (hlast : p.getLast? ≠ some '/') : segmentsOf ('/' :: (p ++ ['/'])) = segmentsOf p := by
  rw [segmentsOf_of_trimmed hhead hlast]
  unfold segmentsOf
  rw [TrimPrefix_cons, if_pos rfl, TrimSuffix_append_singleton, if_pos rfl]

theorem segmentsOf_two_slashes {p : GoString} (hne : p ≠ [])
    (hlast : p.getLast? ≠ some '/') : segmentsOf ('/' :: '/' :: p) = [] :: Split p '/' := by
  unfold segmentsOf
  rw [TrimPrefix_cons, if_pos rfl]
  have : TrimSuffix ('/' :: p) "/".toList = '/' :: p := by
    rw [← List.singleton_append, TrimSuffix_append _ hne, TrimSuffix_of_getLast hlast]
  rw [this]
  simp [Split]

theorem Router.ServeHTTP_ok (r : Router H) (req : Request) (h : H) (vars : Vars)
    (hg : r.trie.Get req.Path req.Method = (some h, vars, none)) :
    r.ServeHTTP req =
      ([Call.ServeHTTP h (req.WithContext (contextWithVars req.ctx vars))], none) := by
  unfold Router.ServeHTTP
  rw [hg]

theorem Router.ServeHTTP_nil (r : Router H) (req : Request) (vars : Vars)
    (hg : r.trie.Get req.Path req.Method = (none, vars, none)) :
    r.ServeHTTP req = ([], errNilDereference) := by
  unfold Router.ServeHTTP
  rw [hg]

theorem Router.ServeHTTP_error (r : Router H) (req : Request)
    (h : (r.trie.Get req.Path req.Method).2.2 ≠ none) :
    r.ServeHTTP req = ([Call.NotFound req], none) := by
  unfold Router.ServeHTTP
  rcases hg : r.trie.Get req.Path req.Method with ⟨x, vs, e⟩
  rw [hg] at h
  cases e with
  | none => exact absurd rfl h
  | some err => rfl

/-- A handler is called exactly when `Get` returns a nil error and a handler
that is not nil. -/
theorem Router.ServeHTTP_calls_iff (r : Router H) (req : Request) :
    (∃ h q, Call.ServeHTTP h q ∈ (r.ServeHTTP req).1) ↔
      ((r.trie.Get req.Path req.Method).2.2 = none ∧
        (r.trie.Get req.Path req.Method).1 ≠ none) := by
  rcases hg : r.trie.Get req.Path req.Method with ⟨x, vs, e⟩
  cases e with
  | some err =>
    have he : (r.trie.Get req.Path req.Method).2.2 ≠ none := by rw [hg]; simp
    rw [r.ServeHTTP_error req he]
    simp
  | none =>
    cases x with
    | none =>
      rw [r.ServeHTTP_nil req vs hg]
      simp
    | some h =>
      rw [r.ServeHTTP_ok req h vs hg]
      simp

theorem runHandles_trie (routes : List (Route H)) :
    ∀ r : Router H, (runHandles r routes).trie = runInserts r.trie routes := by
  induction routes with
  | nil => intro r; rfl
  | cons rt rest ih =>
    intro r
    simp only [runHandles, runInserts]
    rw [ih]
    congr 1
    unfold Router.Handle
    cases h : (r.trie.Insert rt.1 rt.2.1 rt.2.2).2 <;> simp [h]

theorem GetVars_contextWithVars (ctx : Context) (vs : Vars) :
    GetVars (contextWithVars ctx vs) = vs := by
  simp [GetVars, contextWithVars, Context.WithValue, Context.Value]

theorem Trie.Get_after_Insert (t : Trie H) (ht : Reachable t) (path method : GoString)
    (handler : Handler H) (hok : (t.Insert path method handler).2 = none)
    (hlit : ∀ s ∈ segmentsOf path, varsNameRegex s = false) :
    (t.Insert path method handler).1.Get path method = (handler, [], none) := by
  obtain ⟨i, hi, hx⟩ :=
    insertLoop_registers method handler (segmentsOf path) t.root ht.noRegexKeys hok
  obtain ⟨h1, h2, h3⟩ :=
    Trie.Get_of_view (Reachable.insert t path method handler ht) hi hx
  have h4 := h3 hlit
  ext <;> simp_all

/-- On `usersRouter`, a request for `/users/7` is dispatched to handler `1` with
the variable `uid = 7` in its context, and a request for `/nope` to
`http.NotFound`. -/
theorem usersRouter_dispatch :
    usersRouter.ServeHTTP { Method := "GET".toList, Path := "/users/7".toList, ctx := [] }
      = ([Call.ServeHTTP 1
          { Method := "GET".toList, Path := "/users/7".toList,
            ctx := [(ContextKey.varsContextKey,
              ContextValue.vars [{ Name := "uid".toList, Value := "7".toList }])] }], none) ∧
    usersRouter.ServeHTTP { Method := "GET".toList, Path := "/nope".toList, ctx := [] }
      = ([Call.NotFound { Method := "GET".toList, Path := "/nope".toList, ctx := [] }], none) ∧
    (usersRouter.Handle "GET".toList "/users/static".toList (some 3)).2 ≠ none :=
  ⟨by decide, by decide, by decide⟩

theorem freshNode_slot {s : GoString} (hs : keyOf s = VarsLabel) :
    (freshNode s : TrieNode H).info.Kind = VarsNode ∨
      ((freshNode s : TrieNode H).info.Kind = PathNode ∧
        (freshNode s : TrieNode H).info.Label = VarsLabel) := by
  by_cases hr : varsNameRegex s = true
  · left
    show (freshNode s : TrieNode H).Kind = VarsNode
    rw [freshNode_Kind, if_pos hr]
  · right
    have hr2 : varsNameRegex s = false := by simpa using hr
    rw [keyOf_of_not_regex hr2] at hs
    show (freshNode s : TrieNode H).Kind = PathNode ∧ (freshNode s : TrieNode H).Label = VarsLabel
    unfold freshNode
    rw [if_neg hr]
    exact ⟨rfl, hs⟩

theorem insertLoop_slotInv (m : GoString) (h : Handler H) (segs : List GoString)
    (n : TrieNode H) (hn : NoRegexKeys n) (hl : SlotInv n) :
    SlotInv (insertLoop m h segs n).1 := by
  by_cases hok : (insertLoop m h segs n).2 = none
  · intro ks i hv
    rw [view_insertLoop m h segs n hn hok] at hv
    split at hv
    · rename_i hp
      simp only [Option.some.injEq] at hv
      subst hv
      rw [insInfo_Kind, insInfo_Label]
      cases hold : view n (ks ++ [VarsLabel]) with
      | some i0 => simpa using hl ks i0 hold
      | none =>
        obtain ⟨-, hkey⟩ := prefix_map_concat hp
        simp only [Option.getD_none, List.length_append, List.length_singleton,
          Nat.add_sub_cancel]
        exact freshNode_slot hkey.symm
    · exact hl ks i hv
  · rw [insertLoop_atomic m h segs n hok]
    exact hl

theorem Reachable.slotInv {t : Trie H} (ht : Reachable t) : SlotInv t.root := by
  induction ht with
  | new =>
    intro ks i hv
    rw [view_NewTrie (by simp)] at hv
    cases hv
  | insert t p m h ht ih => exact insertLoop_slotInv m h (segmentsOf p) t.root ht.noRegexKeys ih

theorem nameOf_ne_of_specPlaceholder {s : GoString} (h : specPlaceholder s = true) :
    nameOf s ≠ VarsLabel := by
  intro e
  have hs := regex_eq_placeholder (varsNameRegex_of_specPlaceholder h)
  rw [e] at hs
  rw [hs] at h
  exact absurd h (by decide)

/-- After a successful insertion, every segment of the template has its node
on the key path of the template. -/
theorem insertLoop_node (m : GoString) (h : Handler H) (n : TrieNode H) (hn : NoRegexKeys n)
    {pre post : List GoString} {s : GoString}
    (hok : (insertLoop m h (pre ++ s :: post) n).2 = none) :
    ∃ N, descend ((pre ++ [s]).map keyOf) (insertLoop m h (pre ++ s :: post) n).1 = some N := by
  have hp : (pre ++ [s]).map keyOf <+: (pre ++ s :: post).map keyOf := by
    refine ⟨post.map keyOf, ?_⟩
    simp
  have hv := view_insertLoop m h _ n hn hok ((pre ++ [s]).map keyOf)
  rw [if_pos hp] at hv
  obtain ⟨N, hN, -⟩ := descend_of_view hv
  exact ⟨N, hN⟩

theorem getLoop_descend_length (segs : List GoString) :
    ∀ (n N : TrieNode H) (vars vars' : Vars), getLoop segs n vars = (some N, vars') →
      ∃ ks, descend ks n = some N ∧ ks.length = segs.length := by
  induction segs with
  | nil =>
    intro n N vars vars' h
    simp only [getLoop, Prod.mk.injEq, Option.some.injEq] at h
    exact ⟨[], by rw [← h.1]; rfl, rfl⟩
  | cons s rest ih =>
    intro n N vars vars' h
    simp only [getLoop] at h
    cases hc : n.Children s with
    | some c =>
      simp only [hc] at h
      obtain ⟨ks, hks, hlen⟩ := ih c N _ _ h
      exact ⟨s :: ks, by simp [descend_cons, hc, hks], by simp [hlen]⟩
    | none =>
      simp only [hc] at h
      cases hv : n.Children VarsLabel with
      | none => simp [hv] at h
      | some v =>
        simp only [hv] at h
        obtain ⟨ks, hks, hlen⟩ := ih v N _ _ h
        exact ⟨VarsLabel :: ks, by simp [descend_cons, hv, hks], by simp [hlen]⟩

theorem getLoop_vars_length (segs : List GoString) :
    ∀ (n : TrieNode H) (vars : Vars),
      (getLoop segs n vars).2.length ≤ vars.length + segs.length := by
  induction segs with
  | nil => intro n vars; simp [getLoop]
  | cons s rest ih =>
    intro n vars
    simp only [getLoop]
    cases hc : n.Children s with
    | some c =>
      have := ih c vars
      simp only [List.length_cons]
      omega
    | none =>
      cases hv : n.Children VarsLabel with
      | none => simp
      | some v =>
        have := ih v (vars ++ [{ Name := v.Label, Value := s }])
        rw [List.length_append] at this
        simp only [List.length_cons, List.length_nil] at this ⊢
        omega

/-- A successful `Get` returns the handler stored for the method at a node as
deep as the path has segments. -/
theorem Trie.Get_ok_node (t : Trie H) (path method : GoString)
    (hok : (t.Get path method).2.2 = none) :
    ∃ ks N, descend ks t.root = some N ∧ ks.length = (segmentsOf path).length ∧
      N.Value method = some (t.Get path method).1 := by
  unfold Trie.Get at hok ⊢
  rcases hg : getLoop (segmentsOf path) t.root [] with ⟨N, vars⟩
  rw [hg] at hok
  cases N with
  | none => simp [errNotFound] at hok
  | some N =>
    simp only at hok ⊢
    cases hv : N.Value method with
    | none => simp [hv, errNotFound] at hok
    | some x =>
      obtain ⟨ks, hks, hlen⟩ := getLoop_descend_length _ _ _ _ _ hg
      exact ⟨ks, N, hks, hlen, by simp [hv]⟩

/-- On the trie of `routes`, a lookup that returns a nil error returns the
handler of a registered route with the method of the lookup. -/
theorem Trie.Get_ok_registered (routes : List (Route H)) (path method : GoString)
    (hok : ((runInserts NewTrie routes).Get path method).2.2 = none) :
    ∃ r ∈ registered NewTrie routes, r.2.1 = method ∧
      r.2.2 = ((runInserts NewTrie routes).Get path method).1 ∧
      (segmentsOf r.1).length = (segmentsOf path).length := by
  obtain ⟨ks, N, hks, hlen, hval⟩ := Trie.Get_ok_node _ path method hok
  have hview : view (runInserts NewTrie routes).root ks = some N.info := by
    unfold view
    rw [hks]
    rfl
  obtain ⟨r, hr, hkeys, hm, hx⟩ :=
    (rep_runInserts_NewTrie routes).handlers ks N.info method _ hview hval
  refine ⟨r, hr, hm, hx, ?_⟩
  rw [← hlen, ← hkeys, List.length_map]

theorem selfVars_of_literal {segs : List GoString}
    (h : ∀ s ∈ segs, varsNameRegex s = false) : selfVars segs = [] := by
  unfold selfVars
  rw [List.filter_eq_nil_iff.2]
  · rfl
  · intro s hs
    simp [h s hs]

/-- Along the key path of template segments whose placeholders name the labels
on the way, the loop of `Trie.Get` reaches the node of the key path and binds
every placeholder segment to itself. -/
theorem getLoop_keyOf_descend (segs : List GoString) :
    ∀ (n N : TrieNode H) (vars : Vars), NoRegexKeys n →
      descend (segs.map keyOf) n = some N → LabelsAgree n segs →
      getLoop segs n vars = (some N, vars ++ selfVars segs) := by
  induction segs with
  | nil =>
    intro n N vars _ hd _
    simp only [List.map_nil, descend, Option.some.injEq] at hd
    simp [getLoop, selfVars, hd]
  | cons s rest ih =>
    intro n N vars hn hd hla
    rw [List.map_cons, descend_cons] at hd
    cases hc : n.Children (keyOf s) with
    | none => simp [hc] at hd
    | some c =>
      simp only [hc, Option.some_bind] at hd
      by_cases hr : varsNameRegex s = true
      · have hl := hla.head hc hr
        have := ih c N (vars ++ [{ Name := c.Label, Value := s }]) (hn.of_child hc) hd
          (hla.tail hc)
        rw [keyOf_of_regex hr] at hc
        simp only [getLoop, hn.top s hr, hc]
        rw [this, hl]
        simp [selfVars, List.filter_cons, hr]
      · have hr2 : varsNameRegex s = false := by simpa using hr
        have := ih c N vars (hn.of_child hc) hd (hla.tail hc)
        rw [keyOf_of_not_regex hr2] at hc
        simp only [getLoop, hc]
        rw [this]
        simp [selfVars, List.filter_cons, hr2]

theorem getLoop_append (a b : List GoString) :
    ∀ (n : TrieNode H) (vars : Vars),
      getLoop (a ++ b) n vars =
        match getLoop a n vars with
        | (some N, vars') => getLoop b N vars'
        | (none, vars') => (none, vars') := by
  induction a with
  | nil => intro n vars; rfl
  | cons s rest ih =>
    intro n vars
    simp only [List.cons_append, getLoop]
    cases hc : n.Children s with
    | some c => simp only [hc]; exact ih c vars
    | none =>
      simp only [hc]
      cases hv : n.Children VarsLabel with
      | none => rfl
      | some c => simp only [hv]; exact ih c _

/-- After a successful `Insert` into the empty trie, the placeholders of the
template name the labels of their nodes. -/
theorem labelsAgree_Insert_NewTrie (path method : GoString) (handler : Handler H) :
    LabelsAgree (NewTrie.Insert path method handler).1.root (segmentsOf path) := by
  intro pre s post i hsplit hs hv
  have hok : (insertLoop method handler (pre ++ s :: post) (NewTrie : Trie H).root).2 = none := by
    rw [← hsplit]
    exact Insert_NewTrie_ok path method handler
  obtain ⟨i', hi', hl'⟩ := insertLoop_label method handler _ noRegexKeys_NewTrie hok hs
  have : (NewTrie.Insert path method handler).1.root
      = (insertLoop method handler (pre ++ s :: post) (NewTrie : Trie H).root).1 := by
    rw [← hsplit]
    rfl
  rw [this, hi'] at hv
  cases hv
  exact hl'

/-- The two documented conflicts make `Insert` fail: a route registered for
the same method and segment list, or a placeholder registered under another
name after the same preceding segments. -/
theorem Insert_error_of_conflict (routes : List (Route H)) (path method : GoString)
    (handler : Handler H)
    (h : DuplicateOf (registered NewTrie routes) path method ∨
      NameClashWith (registered NewTrie routes) path) :
    ((runInserts NewTrie routes).Insert path method handler).2 ≠ none := by
  have hrep := rep_runInserts_NewTrie routes
  have hreach := runInserts_reachable routes (NewTrie : Trie H) Reachable.new
  apply (insertLoop_error_iff method handler (segmentsOf path) _ hreach.noRegexKeys).2
  rcases h with ⟨r, hr, hm, hseg⟩ | ⟨r, hr, pre, s, post, s', post', hsplit, hsplit', hs, hs', hne⟩
  · obtain ⟨i, hi, hx⟩ := hrep.stored r hr
    rw [hseg] at hi
    rw [hm] at hx
    exact Or.inr ⟨i, _, hi, hx⟩
  · obtain ⟨i, hi, hl⟩ := hrep.labels r hr pre s' post' hsplit' hs'
    refine Or.inl ⟨pre, s, post, i, hsplit, hs, ?_, by rw [hl]; exact hne⟩
    rw [List.map_append, List.map_singleton, keyOf_of_regex hs]
    rw [List.map_append, List.map_singleton, keyOf_of_regex hs'] at hi
    exact hi

/-- Without the reserved key among the segments, `Insert` fails only on the
two documented conflicts. -/
theorem Insert_conflict_of_error (routes : List (Route H))
    (hroutes : ∀ r ∈ routes, VarsLabel ∉ segmentsOf r.1) (path method : GoString)
    (handler : Handler H) (hpath : VarsLabel ∉ segmentsOf path)
    (herr : ((runInserts NewTrie routes).Insert path method handler).2 ≠ none) :
    DuplicateOf (registered NewTrie routes) path method ∨
      NameClashWith (registered NewTrie routes) path := by
  have hrep := rep_runInserts_NewTrie routes
  have hreach := runInserts_reachable routes (NewTrie : Trie H) Reachable.new
  have hres : ∀ r ∈ registered (NewTrie : Trie H) routes, VarsLabel ∉ segmentsOf r.1 :=
    fun r hr => hroutes r (registered_subset routes _ r hr)
  have hagreeR : ∀ r ∈ registered (NewTrie : Trie H) routes,
      LabelsAgree (runInserts NewTrie routes).root (segmentsOf r.1) := by
    intro r hr pre s post i hsplit hs hv
    obtain ⟨i', hi', hl'⟩ := hrep.labels r hr pre s post hsplit hs
    rw [hv] at hi'
    cases hi'
    exact hl'
  have hconf := (insertLoop_error_iff method handler (segmentsOf path) _
    hreach.noRegexKeys).1 herr
  by_cases hagree : LabelsAgree (runInserts NewTrie routes).root (segmentsOf path)
  · left
    rcases hconf with ⟨pre, s, post, i, hsplit, hs, hv, hl⟩ | ⟨i, x, hv, hx⟩
    · exact absurd (hagree pre s post i hsplit hs hv) hl
    · obtain ⟨r, hr, hkeys, hm, -⟩ := hrep.handlers _ i method x hv hx
      refine ⟨r, hr, hm, ?_⟩
      exact keys_inj _ _ _ hkeys (hres r hr) hpath ⟨i, by rw [hkeys]; exact hv⟩
        (hagreeR r hr) hagree
  · right
    unfold LabelsAgree at hagree
    push_neg at hagree
    obtain ⟨pre0, s0, post0, i0, hsplit0, hs0, hv0, hl0⟩ := hagree
    obtain ⟨pre, s, post, i, hsplit, hs, hv, hl, hfirst⟩ :=
      exists_first_mismatch _ _ pre0.length pre0 s0 post0 i0 rfl hsplit0 hs0 hv0 hl0
    obtain ⟨r, hr, hp⟩ := hrep.onRoute _ i (by simp) hv
    rw [List.map_append, List.map_singleton] at hp
    obtain ⟨pre', s', post', hsplit', hpre', hkey'⟩ := prefix_map_decomp hp
    have hs'_ne : s' ≠ VarsLabel := fun e => hres r hr (by rw [hsplit']; simp [e])
    have hs' : varsNameRegex s' = true := by
      by_contra hcon
      have hcon2 : varsNameRegex s' = false := by simpa using hcon
      rw [keyOf_of_not_regex hcon2, keyOf_of_regex hs] at hkey'
      exact hs'_ne hkey'
    have hvr : view (runInserts NewTrie routes).root ((pre' ++ [s']).map keyOf) = some i := by
      rw [List.map_append, List.map_singleton, hpre', hkey']
      rw [List.map_append, List.map_singleton] at hv
      exact hv
    have hl' : i.Label = nameOf s' := hagreeR r hr pre' s' post' i hsplit' hs' hvr
    have hpre : pre' = pre := by
      apply keys_inj pre' _ pre hpre'
      · intro e; exact hres r hr (by rw [hsplit']; simp [e])
      · intro e; exact hpath (by rw [hsplit]; simp [e])
      · rw [hpre']
        rw [List.map_append] at hv
        exact view_prefix_some hv
      · exact LabelsAgree.of_append (b := s' :: post') (by rw [← hsplit']; exact hagreeR r hr)
      · exact hfirst
    subst hpre
    exact ⟨r, hr, pre', s, post, s', post', hsplit, hsplit', hs, hs', by rw [← hl']; exact hl⟩

/-- Two registered routes with a placeholder after the same preceding segments
use the same name. -/
theorem registered_same_name (routes : List (Route H)) (r1 r2 : Route H)
    (h1 : r1 ∈ registered NewTrie routes) (h2 : r2 ∈ registered NewTrie routes)
    {pre post post' : List GoString} {s s' : GoString}
    (hsplit : segmentsOf r1.1 = pre ++ s :: post) (hsplit' : segmentsOf r2.1 = pre ++ s' :: post')
    (hs : varsNameRegex s = true) (hs' : varsNameRegex s' = true) : nameOf s' = nameOf s := by
  have hrep := rep_runInserts_NewTrie routes
  obtain ⟨i, hi, hl⟩ := hrep.labels r1 h1 pre s post hsplit hs
  obtain ⟨i', hi', hl'⟩ := hrep.labels r2 h2 pre s' post' hsplit' hs'
  rw [List.map_append, List.map_singleton, keyOf_of_regex hs] at hi
  rw [List.map_append, List.map_singleton, keyOf_of_regex hs', hi] at hi'
  cases hi'
  rw [← hl, ← hl']

end Basic

/-! ## The claims -/

section Claims

variable {H : Type}

/-- Round trip under the classification of the code. After a sequence of
`Insert` calls on `NewTrie()` that all return a nil error, `Get(path, method)`
returns, for every inserted `(path, method, handler)` none of whose segments
is matched by `varsNameRegex`, exactly `handler`, a nil error and no
variable. -/
theorem round_trip_registration (routes : List (Route H))
    (hall : allSucceed NewTrie routes = true) (path method : GoString) (handler : Handler H)
    (hmem : (path, method, handler) ∈ routes)
    (hlit : ∀ s ∈ segmentsOf path, varsNameRegex s = false) :
    (runInserts NewTrie routes).Get path method = (handler, [], none) := by
  obtain ⟨i, hi, hx⟩ := round_trip_aux routes NewTrie Reachable.new hall _ hmem
  obtain ⟨h1, h2, h3⟩ :=
    Trie.Get_of_view (runInserts_reachable routes NewTrie Reachable.new) hi hx
  have h4 := h3 hlit
  ext <;> simp_all

/-- The literal route `/users/static` wins over its sibling `/users/{uid}` and
binds no variable, whichever of the two is inserted first. -/
theorem round_trip_registration_witness :
    (allSucceed NewTrie usersRoutes = true ∧
      ("/users/static".toList, "GET".toList, some 2) ∈ usersRoutes ∧
      (∀ s ∈ segmentsOf "/users/static".toList, varsNameRegex s = false) ∧
      (runInserts NewTrie usersRoutes).Get "/users/static".toList "GET".toList
        = (some 2, [], none)) ∧
    (allSucceed NewTrie usersRoutes.reverse = true ∧
      (runInserts NewTrie usersRoutes.reverse).Get "/users/static".toList "GET".toList
        = (some 2, [], none)) :=
  ⟨⟨by decide, by decide, by decide,
      round_trip_registration usersRoutes (by decide) _ _ _ (by decide) (by decide)⟩,
    by decide,
    round_trip_registration usersRoutes.reverse (by decide) _ _ _ (by decide) (by decide)⟩

/-- C1 at the failing input. The segment `{a_b}` is no placeholder in the
words of the specification (an underscore is no ASCII letter), the call
`Insert("/{a_b}", "GET", 1)` on `NewTrie()` returns nil, and `Get("/{a_b}",
"GET")` returns the handler and a nil error but the variable `a_b = {a_b}`
instead of no variable: the pattern `[a-zA-z]` of `varsNameRegex` matches the
underscore and the route is stored as a placeholder. For every inserted route,
whatever its segments, `Get` returns the handler and a nil error. -/
theorem round_trip_registration_failing_input :
    allSucceed NewTrie [("/{a_b}".toList, "GET".toList, some 1)] = true ∧
    (∀ s ∈ segmentsOf "/{a_b}".toList, specPlaceholder s = false) ∧
    (∃ s ∈ segmentsOf "/{a_b}".toList, varsNameRegex s = true) ∧
    (runInserts NewTrie [("/{a_b}".toList, "GET".toList, some 1)]).Get
      "/{a_b}".toList "GET".toList
      = (some 1, [{ Name := "a_b".toList, Value := "{a_b}".toList }], none) ∧
    (∀ (routes : List (Route Nat)), allSucceed NewTrie routes = true →
      ∀ r ∈ routes, ((runInserts NewTrie routes).Get r.1 r.2.1).1 = r.2.2 ∧
        ((runInserts NewTrie routes).Get r.1 r.2.1).2.2 = none) := by
  refine ⟨by decide, by decide, by decide, by decide, ?_⟩
  intro routes hall r hr
  obtain ⟨i, hi, hx⟩ := round_trip_aux routes NewTrie Reachable.new hall r hr
  obtain ⟨h1, h2, -⟩ :=
    Trie.Get_of_view (runInserts_reachable routes NewTrie Reachable.new) hi hx
  exact ⟨h1, h2⟩

/-- C2 as amended (a dynamic segment matches a concrete segment and binds
it). After `Insert(P + "/{n}", m, h)` into an empty trie, for every prefix `P`
and every name `n` whose placeholder `{n}` is matched by the pattern
`varsNameRegex` of the code, `Get(P + "/" + v, m)` returns `h` and a nil error
for every non-empty `v` without a slash that is not the reserved key
`__VARS__`; the variables are one `{Name: name of s, Value: s}` for every
segment `s` of `P` that the pattern matches, followed by `{Name: n, Value: v}`;
so exactly `[{Name: n, Value: v}]` when the pattern matches no segment of
`P`. -/
theorem dynamic_segment_binds (P n m : GoString) (h : Handler H) (v : GoString)
    (hn : varsNameRegex (placeholder n) = true)
    (hv : v ≠ []) (hslash : '/' ∉ v) (hres : v ≠ VarsLabel) :
    (NewTrie.Insert (P ++ '/' :: placeholder n) m h).2 = none ∧
    (NewTrie.Insert (P ++ '/' :: placeholder n) m h).1.Get (P ++ '/' :: v) m
      = (h, selfVars (prefixSegments P) ++ [{ Name := n, Value := v }], none) ∧
    ((∀ s ∈ prefixSegments P, varsNameRegex s = false) →
      (NewTrie.Insert (P ++ '/' :: placeholder n) m h).1.Get (P ++ '/' :: v) m
        = (h, [{ Name := n, Value := v }], none)) := by
  have hmain : (NewTrie.Insert (P ++ '/' :: placeholder n) m h).1.Get (P ++ '/' :: v) m
      = (h, selfVars (prefixSegments P) ++ [{ Name := n, Value := v }], none) := by
    have hseg := segmentsOf_prefix_segment P (ne_nil_of_regex hn) (not_mem_slash_of_regex hn)
    have hsegq := segmentsOf_prefix_segment P hv hslash
    have hview := view_Insert_NewTrie (H := H) (P ++ '/' :: placeholder n) m h
    have hla := labelsAgree_Insert_NewTrie (H := H) (P ++ '/' :: placeholder n) m h
    have hreach : Reachable (NewTrie.Insert (P ++ '/' :: placeholder n) m h).1 :=
      Reachable.insert _ _ _ _ Reachable.new
    rw [hseg] at hview hla
    have hkp : (prefixSegments P ++ [placeholder n]).map keyOf
        = (prefixSegments P).map keyOf ++ [VarsLabel] := by
      simp [keyOf_of_regex hn]
    rw [hkp] at hview
    -- the node at the end of the prefix
    have h1 := hview ((prefixSegments P).map keyOf)
    rw [if_pos (List.prefix_append _ _)] at h1
    obtain ⟨N, hN, -⟩ := descend_of_view h1
    have hwalk := getLoop_keyOf_descend (prefixSegments P) _ N [] hreach.noRegexKeys hN
      hla.of_append
    -- it has no child under `v`
    have h2 : N.Children v = none := by
      have := children_of_descend hN v
      rw [hview, if_neg, view_NewTrie (by simp)] at this
      · simpa using this
      · intro hp
        rw [List.prefix_append_right_inj] at hp
        have := hp.eq_of_length (by simp)
        simp only [List.cons.injEq, and_true] at this
        exact hres this
    -- and the placeholder under the reserved key
    have h3 := children_of_descend hN VarsLabel
    rw [hview, if_pos (List.prefix_refl _)] at h3
    cases hc : N.Children VarsLabel with
    | none => simp [hc] at h3
    | some c =>
      simp only [hc, Option.map_some', Option.some.injEq] at h3
      have hlabel : c.Label = n := by
        have : c.info.Label = n := by
          rw [h3, view_NewTrie (by simp)]
          simp [insInfo, NodeInfo.setValue, freshNode, hn, TrieNode.info, nameOf_placeholder]
        exact this
      have hvalue : c.Value m = some h := by
        have : c.info.Value m = some h := by
          rw [h3]
          simp [insInfo, NodeInfo.setValue]
        exact this
      simp only [Trie.Get, hsegq, getLoop_append, hwalk, getLoop, h2, hc,
        hlabel, hvalue, List.nil_append]
  refine ⟨Insert_NewTrie_ok _ _ _, hmain, ?_⟩
  intro hP
  rw [hmain, selfVars_of_literal hP]
  rfl

/-- The request segment `__VARS__` reaches the placeholder node of
`/users/{uid}` as a child stored under that key: `Get` succeeds and binds
nothing. -/
theorem dynamic_segment_binds_counterexample :
    "__VARS__".toList ≠ [] ∧ '/' ∉ "__VARS__".toList ∧
    ((NewTrie : Trie Nat).Insert ("/users".toList ++ '/' :: placeholder "uid".toList)
        "GET".toList (some 1)).1.Get ("/users".toList ++ '/' :: "__VARS__".toList) "GET".toList
      = (some 1, [], none) ∧
    ((NewTrie : Trie Nat).Insert ("/users".toList ++ '/' :: placeholder "uid".toList)
        "GET".toList (some 1)).1.Get ("/users".toList ++ '/' :: "__VARS__".toList) "GET".toList
      ≠ (some 1, [{ Name := "uid".toList, Value := "__VARS__".toList }], none) := by
  decide

/-- The request `/users/42` against the single route `/users/{uid}`. -/
theorem dynamic_segment_binds_witness :
    (∀ s ∈ prefixSegments "/users".toList, varsNameRegex s = false) ∧
    varsNameRegex (placeholder "uid".toList) = true ∧
    "42".toList ≠ [] ∧ '/' ∉ "42".toList ∧ "42".toList ≠ VarsLabel ∧
    ((NewTrie : Trie Nat).Insert ("/users".toList ++ '/' :: placeholder "uid".toList)
        "GET".toList (some 1)).2 = none ∧
    ((NewTrie : Trie Nat).Insert ("/users".toList ++ '/' :: placeholder "uid".toList)
        "GET".toList (some 1)).1.Get ("/users".toList ++ '/' :: "42".toList) "GET".toList
      = (some 1, [{ Name := "uid".toList, Value := "42".toList }], none) :=
  ⟨by decide, by decide, by decide, by decide, by decide,
    (dynamic_segment_binds "/users".toList "uid".toList "GET".toList (some 1) "42".toList
      (by decide) (by decide) (by decide) (by decide)).1,
    (dynamic_segment_binds "/users".toList "uid".toList "GET".toList (some 1) "42".toList
      (by decide) (by decide) (by decide) (by decide)).2.2 (by decide)⟩

/-- C3 as amended (variable capture order). In a trie built from `NewTrie()` by
`Insert` calls whose templates have no segment equal to the reserved key
`__VARS__`, and for a request none of whose segments is that key, the
variables returned by `Get` are, in the order of the walk, the labels of the
dynamic nodes entered, each with the request segment consumed on entering. -/
theorem variable_capture_order (routes : List (Route H))
    (hroutes : ∀ r ∈ routes, VarsLabel ∉ segmentsOf r.1) (path method : GoString)
    (hpath : VarsLabel ∉ segmentsOf path) :
    ((runInserts NewTrie routes).Get path method).2.1
      = dynamicEntered (runInserts NewTrie routes) path := by
  rw [Trie.Get_vars, getLoop_vars_eq_trace _ _ _
    (runInserts_kindInv routes NewTrie Reachable.new kindInv_NewTrie hroutes) hpath]
  rfl

/-- The request `/v1/users/42/profiles/7` binds `uid` and then `pid`. -/
theorem variable_capture_order_witness :
    (∀ r ∈ profileRoutes, VarsLabel ∉ segmentsOf r.1) ∧
    VarsLabel ∉ segmentsOf "/v1/users/42/profiles/7".toList ∧
    ((runInserts NewTrie profileRoutes).Get "/v1/users/42/profiles/7".toList "GET".toList).2.1
      = dynamicEntered (runInserts NewTrie profileRoutes) "/v1/users/42/profiles/7".toList ∧
    (runInserts NewTrie profileRoutes).Get "/v1/users/42/profiles/7".toList "GET".toList
      = (some 1, [{ Name := "uid".toList, Value := "42".toList },
          { Name := "pid".toList, Value := "7".toList }], none) :=
  ⟨by decide, by decide,
    variable_capture_order profileRoutes (by decide) _ "GET".toList (by decide), by decide⟩

/-- On the request `/__VARS__/x` the walk enters the dynamic node `a` and then
the dynamic node `b`, and `Get` succeeds with the single variable `b`. -/
theorem variable_capture_order_counterexample :
    allSucceed NewTrie twoPlaceholderRoutes = true ∧
    (runInserts NewTrie twoPlaceholderRoutes).Get "/__VARS__/x".toList "GET".toList
      = (some 1, [{ Name := "b".toList, Value := "x".toList }], none) ∧
    dynamicEntered (runInserts NewTrie twoPlaceholderRoutes) "/__VARS__/x".toList
      = [{ Name := "a".toList, Value := "__VARS__".toList },
          { Name := "b".toList, Value := "x".toList }] ∧
    ((runInserts NewTrie twoPlaceholderRoutes).Get "/__VARS__/x".toList "GET".toList).2.1
      ≠ dynamicEntered (runInserts NewTrie twoPlaceholderRoutes) "/__VARS__/x".toList := by
  decide

/-- C4 (duplicate route conflict). Once `Insert(p, m, h)` has returned nil on a
trie reachable from `NewTrie()`, every later `Insert(p', m, h')` whose path
has the same segment list returns an error, whatever `Insert` calls were made
in between, and `Get(p, m)` returns `h` with a nil error before and after that
call. -/
theorem duplicate_route_conflict (t : Trie H) (ht : Reachable t) (p m : GoString)
    (h : Handler H) (hok : (t.Insert p m h).2 = none) (between : List (Route H))
    (p' : GoString) (h' : Handler H) (hp : segmentsOf p' = segmentsOf p) :
    ((runInserts (t.Insert p m h).1 between).Insert p' m h').2 ≠ none ∧
    ((runInserts (t.Insert p m h).1 between).Get p m).1 = h ∧
    ((runInserts (t.Insert p m h).1 between).Get p m).2.2 = none ∧
    (((runInserts (t.Insert p m h).1 between).Insert p' m h').1.Get p m).1 = h ∧
    (((runInserts (t.Insert p m h).1 between).Insert p' m h').1.Get p m).2.2 = none := by
  have ht1 : Reachable (t.Insert p m h).1 := Reachable.insert t p m h ht
  have ht2 : Reachable (runInserts (t.Insert p m h).1 between) :=
    runInserts_reachable between _ ht1
  obtain ⟨i, hi, hx⟩ := insertLoop_registers m h (segmentsOf p) t.root ht.noRegexKeys hok
  obtain ⟨i2, hi2, -, -, hv2⟩ := runInserts_mono between _ ht1 hi
  have hx2 := hv2 m h hx
  have herr : ((runInserts (t.Insert p m h).1 between).Insert p' m h').2 ≠ none := by
    apply (insertLoop_error_iff m h' (segmentsOf p') _ ht2.noRegexKeys).2
    exact Or.inr ⟨i2, h, by rw [hp]; exact hi2, hx2⟩
  obtain ⟨g1, g2, -⟩ := Trie.Get_of_view ht2 hi2 hx2
  refine ⟨herr, g1, g2, ?_, ?_⟩
  · rw [Trie.Insert_atomic _ _ _ _ herr]; exact g1
  · rw [Trie.Insert_atomic _ _ _ _ herr]; exact g2

/-- `/users` registered for `GET`, two more routes, then `users/` for `GET`
again. -/
theorem duplicate_route_conflict_witness :
    Reachable (NewTrie : Trie Nat) ∧
    ((NewTrie : Trie Nat).Insert "/users".toList "GET".toList (some 1)).2 = none ∧
    segmentsOf "users/".toList = segmentsOf "/users".toList ∧
    ((runInserts ((NewTrie : Trie Nat).Insert "/users".toList "GET".toList (some 1)).1
        betweenRoutes).Insert "users/".toList "GET".toList (some 4)).2 ≠ none ∧
    (((runInserts ((NewTrie : Trie Nat).Insert "/users".toList "GET".toList (some 1)).1
        betweenRoutes).Insert "users/".toList "GET".toList (some 4)).1.Get
          "/users".toList "GET".toList).1 = some 1 :=
  ⟨Reachable.new, by decide, by decide,
    (duplicate_route_conflict NewTrie Reachable.new "/users".toList "GET".toList (some 1)
      (by decide) betweenRoutes "users/".toList (some 4) (by decide)).1,
    (duplicate_route_conflict NewTrie Reachable.new "/users".toList "GET".toList (some 1)
      (by decide) betweenRoutes "users/".toList (some 4) (by decide)).2.2.2.1⟩

/-- C5 as amended (variable-name conflict). For every prefix `P`, names `x`
and `y` whose placeholders are matched by the pattern `varsNameRegex` of the
code, and suffixes `s1`, `s2` that are empty or start with a slash: if `x ≠ y`
and `Insert(P + "/{x}" + s1, m1, h1)` returns nil on a trie reachable from
`NewTrie()`, every later `Insert(P + "/{y}" + s2, m2, h2)` returns an error. If
`x = y` and the first route is one of the calls that returned nil on the way
from `NewTrie()`, the placeholder itself is no clash (every registered route
with a placeholder after the segments of `P` names it `x`); the later `Insert`
returns an error when (a) a registered route has its method and its segment
list or (b) one of its placeholders comes after the same preceding segments as
a registered placeholder of another name; and when no template and not the
later path has a segment equal to the reserved key `__VARS__`, it returns nil
if and only if neither (a) nor (b) holds. -/
theorem variable_name_conflict (P x y s1 s2 m1 m2 : GoString) (h1 h2 : Handler H)
    (hx : varsNameRegex (placeholder x) = true) (hy : varsNameRegex (placeholder y) = true)
    (hs1 : s1 = [] ∨ s1.head? = some '/') (hs2 : s2 = [] ∨ s2.head? = some '/') :
    (x ≠ y → ∀ t : Trie H, Reachable t →
      (t.Insert (P ++ '/' :: (placeholder x ++ s1)) m1 h1).2 = none →
      ∀ between : List (Route H),
        ((runInserts (t.Insert (P ++ '/' :: (placeholder x ++ s1)) m1 h1).1 between).Insert
          (P ++ '/' :: (placeholder y ++ s2)) m2 h2).2 ≠ none) ∧
    (x = y → ∀ routes : List (Route H),
      (P ++ '/' :: (placeholder x ++ s1), m1, h1) ∈ registered NewTrie routes →
      (∀ r ∈ registered NewTrie routes, ∀ s post,
        segmentsOf r.1 = prefixSegments P ++ s :: post → varsNameRegex s = true →
        nameOf s = y) ∧
      ((DuplicateOf (registered NewTrie routes) (P ++ '/' :: (placeholder y ++ s2)) m2 ∨
          NameClashWith (registered NewTrie routes) (P ++ '/' :: (placeholder y ++ s2))) →
        ((runInserts NewTrie routes).Insert (P ++ '/' :: (placeholder y ++ s2)) m2 h2).2
          ≠ none) ∧
      ((∀ r ∈ routes, VarsLabel ∉ segmentsOf r.1) →
        VarsLabel ∉ segmentsOf (P ++ '/' :: (placeholder y ++ s2)) →
        (((runInserts NewTrie routes).Insert (P ++ '/' :: (placeholder y ++ s2)) m2 h2).2
            = none ↔
          ¬ (DuplicateOf (registered NewTrie routes) (P ++ '/' :: (placeholder y ++ s2)) m2 ∨
            NameClashWith (registered NewTrie routes) (P ++ '/' :: (placeholder y ++ s2)))))) := by
  have hseg1 := segmentsOf_prefix_segment_suffix P (ne_nil_of_regex hx)
    (not_mem_slash_of_regex hx) hs1
  have hseg2 := segmentsOf_prefix_segment_suffix P (ne_nil_of_regex hy)
    (not_mem_slash_of_regex hy) hs2
  have hkey : (prefixSegments P ++ [placeholder y]).map keyOf
      = (prefixSegments P ++ [placeholder x]).map keyOf := by
    simp [keyOf_of_regex hx, keyOf_of_regex hy]
  constructor
  · intro hxy t ht hok between
    have ht1 : Reachable (t.Insert (P ++ '/' :: (placeholder x ++ s1)) m1 h1).1 :=
      Reachable.insert t _ m1 h1 ht
    have hok' : (insertLoop m1 h1 (prefixSegments P ++ placeholder x :: suffixSegments s1)
        t.root).2 = none := by
      rw [← hseg1]; exact hok
    obtain ⟨i, hi, hl⟩ := insertLoop_label m1 h1 t.root ht.noRegexKeys hok' hx
    rw [← hseg1] at hi
    obtain ⟨i2, hi2, hl2, -, -⟩ := runInserts_mono between _ ht1 hi
    apply (insertLoop_error_iff m2 h2 _ _ (runInserts_reachable between _ ht1).noRegexKeys).2
    refine Or.inl ⟨prefixSegments P, placeholder y, suffixSegments s2, i2, hseg2, hy, ?_, ?_⟩
    · rw [hkey]; exact hi2
    · rw [hl2, hl, nameOf_placeholder, nameOf_placeholder]
      exact hxy
  · intro hxy routes hreg
    subst hxy
    refine ⟨?_, Insert_error_of_conflict routes _ m2 h2, ?_⟩
    · intro r hr s post hsplit hs
      have := registered_same_name routes _ r hreg hr hseg1 hsplit hx hs
      rw [this, nameOf_placeholder]
    · intro hroutes hpath
      constructor
      · intro hok hc
        exact Insert_error_of_conflict routes _ m2 h2 hc hok
      · intro hc
        by_contra herr
        exact hc (Insert_conflict_of_error routes hroutes _ m2 h2 hpath herr)

/-- The route `/users/{uid}` followed by `/users/{id}`, which is rejected, and
the route `/users/{uid}/{a}/x` followed by `/users/{uid}/{a}/y`, which is
accepted: neither (a) nor (b) holds. -/
theorem variable_name_conflict_witness :
    varsNameRegex (placeholder "uid".toList) = true ∧
    varsNameRegex (placeholder "id".toList) = true ∧
    (((NewTrie : Trie Nat).Insert "/users/{uid}".toList "GET".toList (some 1)).1.Insert
      "/users/{id}".toList "GET".toList (some 2)).2 ≠ none ∧
    ("/users/{uid}/{a}/x".toList, "GET".toList, some 1) ∈ registered NewTrie sharedNameRoutes ∧
    (∀ r ∈ sharedNameRoutes, VarsLabel ∉ segmentsOf r.1) ∧
    VarsLabel ∉ segmentsOf "/users/{uid}/{a}/y".toList ∧
    ((runInserts NewTrie sharedNameRoutes).Insert "/users/{uid}/{a}/y".toList "GET".toList
      (some 2)).2 = none ∧
    ¬ (DuplicateOf (registered NewTrie sharedNameRoutes) "/users/{uid}/{a}/y".toList
        "GET".toList ∨
      NameClashWith (registered NewTrie sharedNameRoutes) "/users/{uid}/{a}/y".toList) :=
  ⟨by decide, by decide,
    (variable_name_conflict "/users".toList "uid".toList "id".toList [] [] "GET".toList
      "GET".toList (some 1) (some 2) (by decide) (by decide) (by decide) (by decide)).1
      (by decide) NewTrie Reachable.new (by decide) [],
    by decide, by decide, by decide, by decide,
    (((variable_name_conflict "/users".toList "uid".toList "uid".toList "/{a}/x".toList
      "/{a}/y".toList "GET".toList "GET".toList (some 1) (some 2) (by decide) (by decide)
      (by decide) (by decide)).2 rfl sharedNameRoutes (by decide)).2.2 (by decide)
      (by decide)).1 (by decide)⟩

/-- With the same name `uid` and different remaining routes the second
`Insert` fails: for `/{a}` then `/{b}`; for the literal `/__VARS__` then `/{a}`
under another method; and for `/{a}` then the literal `/__VARS__`. -/
theorem variable_name_conflict_counterexample :
    "/{a}".toList ≠ "/{b}".toList ∧
    ((NewTrie : Trie Nat).Insert "/users/{uid}/{a}".toList "GET".toList (some 1)).2 = none ∧
    (((NewTrie : Trie Nat).Insert "/users/{uid}/{a}".toList "GET".toList (some 1)).1.Insert
      "/users/{uid}/{b}".toList "GET".toList (some 2)).2 ≠ none ∧
    "/__VARS__".toList ≠ "/{a}".toList ∧
    ((NewTrie : Trie Nat).Insert "/users/{uid}/__VARS__".toList "GET".toList (some 1)).2
      = none ∧
    (((NewTrie : Trie Nat).Insert "/users/{uid}/__VARS__".toList "GET".toList (some 1)).1.Insert
      "/users/{uid}/{a}".toList "POST".toList (some 2)).2 ≠ none ∧
    ((NewTrie : Trie Nat).Insert "/users/{uid}/{a}".toList "GET".toList (some 1)).2 = none ∧
    (((NewTrie : Trie Nat).Insert "/users/{uid}/{a}".toList "GET".toList (some 1)).1.Insert
      "/users/{uid}/__VARS__".toList "GET".toList (some 2)).2 ≠ none := by
  decide

/-- C6 (segment classification) at the failing inputs. `varsNameRegex`
matches `{a_b}`, `{[}` and `{a^b}`, which are no placeholders in the words of
the specification, so `Insert` stores the route `/{a_b}` under the reserved key
as a placeholder named `a_b`, which `Get` matches against any request segment;
`{}` and `{a1}` are not matched and stay literal. -/
theorem segment_classification_failing_input :
    (specPlaceholder "{a_b}".toList = false ∧ varsNameRegex "{a_b}".toList = true) ∧
    (specPlaceholder "{[}".toList = false ∧ varsNameRegex "{[}".toList = true) ∧
    (specPlaceholder "{a^b}".toList = false ∧ varsNameRegex "{a^b}".toList = true) ∧
    varsNameRegex "{}".toList = false ∧ varsNameRegex "{a1}".toList = false ∧
    ((NewTrie : Trie Nat).Insert "/{a_b}".toList "GET".toList (some 1)).1.Get
      "/zzz".toList "GET".toList
      = (some 1, [{ Name := "a_b".toList, Value := "zzz".toList }], none) ∧
    ((NewTrie : Trie Nat).Insert "/{a_b}".toList "GET".toList (some 1)).1.Get
      "/{a_b}".toList "GET".toList
      = (some 1, [{ Name := "a_b".toList, Value := "{a_b}".toList }], none) ∧
    ((NewTrie : Trie Nat).Insert "/{a1}".toList "GET".toList (some 1)).1.Get
      "/zzz".toList "GET".toList = (none, [], errNotFound) ∧
    ((NewTrie : Trie Nat).Insert "/{a1}".toList "GET".toList (some 1)).1.Get
      "/{a1}".toList "GET".toList = (some 1, [], none) := by
  decide

/-- C7 as amended (Insert fails only on the two documented conflicts). After
any list of `Insert` calls on `NewTrie()` whose templates have no segment equal
to the reserved key `__VARS__`, an `Insert(path, method, handler)` whose path
has no such segment either returns an error only if (a) an earlier successful
call registered the same method for a path with the same segment list, or (b)
after the same preceding segments an earlier successful call registered a
placeholder with a name other than the one of the placeholder of `path`. -/
theorem insert_fails_only_on_conflict (routes : List (Route H))
    (hroutes : ∀ r ∈ routes, VarsLabel ∉ segmentsOf r.1) (path method : GoString)
    (handler : Handler H) (hpath : VarsLabel ∉ segmentsOf path)
    (herr : ((runInserts NewTrie routes).Insert path method handler).2 ≠ none) :
    DuplicateOf (registered NewTrie routes) path method ∨
      NameClashWith (registered NewTrie routes) path := by
  have hrep := rep_runInserts_NewTrie routes
  have hreach := runInserts_reachable routes (NewTrie : Trie H) Reachable.new
  have hres : ∀ r ∈ registered (NewTrie : Trie H) routes, VarsLabel ∉ segmentsOf r.1 :=
    fun r hr => hroutes r (registered_subset routes _ r hr)
  have hagreeR : ∀ r ∈ registered (NewTrie : Trie H) routes,
      LabelsAgree (runInserts NewTrie routes).root (segmentsOf r.1) := by
    intro r hr pre s post i hsplit hs hv
    obtain ⟨i', hi', hl'⟩ := hrep.labels r hr pre s post hsplit hs
    rw [hv] at hi'
    cases hi'
    exact hl'
  have hconf := (insertLoop_error_iff method handler (segmentsOf path) _
    hreach.noRegexKeys).1 herr
  by_cases hagree : LabelsAgree (runInserts NewTrie routes).root (segmentsOf path)
  · -- no placeholder of `path` meets another label: the handler is taken
    left
    rcases hconf with ⟨pre, s, post, i, hsplit, hs, hv, hl⟩ | ⟨i, x, hv, hx⟩
    · exact absurd (hagree pre s post i hsplit hs hv) hl
    · obtain ⟨r, hr, hkeys, hm, -⟩ := hrep.handlers _ i method x hv hx
      refine ⟨r, hr, hm, ?_⟩
      exact keys_inj _ _ _ hkeys (hres r hr) hpath ⟨i, by rw [hkeys]; exact hv⟩
        (hagreeR r hr) hagree
  · -- the first placeholder of `path` that meets another label
    right
    unfold LabelsAgree at hagree
    push_neg at hagree
    obtain ⟨pre0, s0, post0, i0, hsplit0, hs0, hv0, hl0⟩ := hagree
    obtain ⟨pre, s, post, i, hsplit, hs, hv, hl, hfirst⟩ :=
      exists_first_mismatch _ _ pre0.length pre0 s0 post0 i0 rfl hsplit0 hs0 hv0 hl0
    obtain ⟨r, hr, hp⟩ := hrep.onRoute _ i (by simp) hv
    rw [List.map_append, List.map_singleton] at hp
    obtain ⟨pre', s', post', hsplit', hpre', hkey'⟩ := prefix_map_decomp hp
    have hs'_ne : s' ≠ VarsLabel := fun e => hres r hr (by rw [hsplit']; simp [e])
    have hs' : varsNameRegex s' = true := by
      by_contra hcon
      have hcon2 : varsNameRegex s' = false := by simpa using hcon
      rw [keyOf_of_not_regex hcon2, keyOf_of_regex hs] at hkey'
      exact hs'_ne hkey'
    have hvr : view (runInserts NewTrie routes).root ((pre' ++ [s']).map keyOf) = some i := by
      rw [List.map_append, List.map_singleton, hpre', hkey']
      rw [List.map_append, List.map_singleton] at hv
      exact hv
    have hl' : i.Label = nameOf s' := hagreeR r hr pre' s' post' i hsplit' hs' hvr
    have hpre : pre' = pre := by
      apply keys_inj pre' _ pre hpre'
      · intro e; exact hres r hr (by rw [hsplit']; simp [e])
      · intro e; exact hpath (by rw [hsplit]; simp [e])
      · rw [hpre']
        rw [List.map_append] at hv
        exact view_prefix_some hv
      · exact LabelsAgree.of_append (b := s' :: post') (by rw [← hsplit']; exact hagreeR r hr)
      · exact hfirst
    subst hpre
    exact ⟨r, hr, pre', s, post, s', post', hsplit, hsplit', hs, hs', by rw [← hl']; exact hl⟩

/-- The route `/users/{id}` after `/users/{uid}` and `/users/static` is
rejected for the clash of names; a placeholder route after a literal sibling
and a literal route after a placeholder sibling are accepted. -/
theorem insert_fails_only_on_conflict_witness :
    (∀ r ∈ usersRoutes, VarsLabel ∉ segmentsOf r.1) ∧
    VarsLabel ∉ segmentsOf "/users/{id}".toList ∧
    ((runInserts NewTrie usersRoutes).Insert "/users/{id}".toList "GET".toList (some 3)).2
      ≠ none ∧
    (DuplicateOf (registered NewTrie usersRoutes) "/users/{id}".toList "GET".toList ∨
      NameClashWith (registered NewTrie usersRoutes) "/users/{id}".toList) ∧
    (((NewTrie : Trie Nat).Insert "/users/static".toList "GET".toList (some 1)).1.Insert
      "/users/{uid}".toList "GET".toList (some 2)).2 = none ∧
    (((NewTrie : Trie Nat).Insert "/users/{uid}".toList "GET".toList (some 1)).1.Insert
      "/users/static".toList "GET".toList (some 2)).2 = none :=
  ⟨by decide, by decide, by decide,
    insert_fails_only_on_conflict usersRoutes (by decide) "/users/{id}".toList "GET".toList
      (some 3) (by decide) (by decide),
    by decide, by decide⟩

/-- After the literal route `/__VARS__` the placeholder route `/{x}` is
rejected for another method, although no route has that method and no route
has a placeholder. -/
theorem insert_fails_only_on_conflict_counterexample :
    allSucceed NewTrie reservedRoutes = true ∧
    ((runInserts NewTrie reservedRoutes).Insert "/{x}".toList "POST".toList (some 2)).2
      ≠ none ∧
    ¬ DuplicateOf (registered NewTrie reservedRoutes) "/{x}".toList "POST".toList ∧
    ¬ NameClashWith (registered NewTrie reservedRoutes) "/{x}".toList := by
  refine ⟨by decide, by decide, ?_, ?_⟩
  · unfold DuplicateOf
    decide
  · intro h
    have := h.exists_placeholder
    revert this
    decide

/-- C8 as amended (literal routes match exactly). In a trie built from
`NewTrie()` by `Insert` calls whose templates have neither a placeholder nor a
segment equal to the reserved key `__VARS__`, `Get(path, method)` returns a nil
error exactly when a successfully inserted template registered with `method`
has the segment list of `path`; a successful `Get` returns the handler of that
template and no variable, a failed one a nil handler. -/
theorem literal_routes_match_exactly (routes : List (Route H))
    (hlit : ∀ r ∈ routes, ∀ s ∈ segmentsOf r.1, varsNameRegex s = false ∧ s ≠ VarsLabel)
    (path method : GoString) :
    (((runInserts NewTrie routes).Get path method).2.2 = none ↔
      ∃ r ∈ registered NewTrie routes, r.2.1 = method ∧ segmentsOf r.1 = segmentsOf path) ∧
    (((runInserts NewTrie routes).Get path method).2.2 = none →
      ((runInserts NewTrie routes).Get path method).2.1 = [] ∧
      ∃ r ∈ registered NewTrie routes, r.2.1 = method ∧ segmentsOf r.1 = segmentsOf path ∧
        ((runInserts NewTrie routes).Get path method).1 = r.2.2) ∧
    (((runInserts NewTrie routes).Get path method).2.2 ≠ none →
      ((runInserts NewTrie routes).Get path method).1 = none) := by
  have hrep := rep_runInserts_NewTrie routes
  have hreach := runInserts_reachable routes (NewTrie : Trie H) Reachable.new
  have hlitR : ∀ r ∈ registered (NewTrie : Trie H) routes, ∀ s ∈ segmentsOf r.1,
      varsNameRegex s = false ∧ s ≠ VarsLabel :=
    fun r hr => hlit r (registered_subset routes _ r hr)
  have hno := hrep.noVarsChild hlitR
  have hfwd : ((runInserts NewTrie routes).Get path method).2.2 = none →
      ((runInserts NewTrie routes).Get path method).2.1 = [] ∧
      ∃ r ∈ registered NewTrie routes, r.2.1 = method ∧ segmentsOf r.1 = segmentsOf path ∧
        ((runInserts NewTrie routes).Get path method).1 = r.2.2 := by
    intro hnil
    unfold Trie.Get at hnil ⊢
    rcases getLoop_exact (segmentsOf path) (runInserts NewTrie routes).root [] hno with
      hg | ⟨-, hg⟩
    · rw [hg] at hnil ⊢
      cases hd : descend (segmentsOf path) (runInserts NewTrie routes).root with
      | none => simp [hd, errNotFound] at hnil
      | some N =>
        simp only [hd] at hnil ⊢
        cases hv : N.Value method with
        | none => simp [hv, errNotFound] at hnil
        | some x =>
          simp only [hv, true_and]
          have hview : view (runInserts NewTrie routes).root (segmentsOf path)
              = some N.info := by
            simp [view, hd]
          obtain ⟨r, hr, hkeys, hm, hx⟩ := hrep.handlers _ _ method x hview hv
          rw [map_keyOf_of_literal (fun s hs => (hlitR r hr s hs).1)] at hkeys
          exact ⟨r, hr, hm, hkeys, hx.symm⟩
    · exfalso
      revert hnil
      cases hgl : getLoop (segmentsOf path) (runInserts NewTrie routes).root [] with
      | mk o vars =>
        rw [hgl] at hg
        simp only at hg
        subst hg
        simp [errNotFound]
  refine ⟨⟨fun hnil => ?_, ?_⟩, hfwd, Trie.Get_error_handler _ _ _⟩
  · obtain ⟨-, r, hr, hm, hseg, -⟩ := hfwd hnil
    exact ⟨r, hr, hm, hseg⟩
  · rintro ⟨r, hr, hm, hseg⟩
    obtain ⟨i, hi, hx⟩ := hrep.stored r hr
    rw [hseg] at hi
    rw [hm] at hx
    exact (Trie.Get_of_view hreach hi hx).2.1

/-- The request `/v1/users/profiles/` is served by the second route; the request
`/v1/users/1` is not found. -/
theorem literal_routes_match_exactly_witness :
    (∀ r ∈ literalRoutes, ∀ s ∈ segmentsOf r.1, varsNameRegex s = false ∧ s ≠ VarsLabel) ∧
    (((runInserts NewTrie literalRoutes).Get "/v1/users/profiles/".toList "GET".toList).2.2
        = none ↔
      ∃ r ∈ registered NewTrie literalRoutes, r.2.1 = "GET".toList ∧
        segmentsOf r.1 = segmentsOf "/v1/users/profiles/".toList) ∧
    (runInserts NewTrie literalRoutes).Get "/v1/users/profiles/".toList "GET".toList
      = (some 2, [], none) ∧
    (runInserts NewTrie literalRoutes).Get "/v1/users/1".toList "GET".toList
      = (none, [], errNotFound) :=
  ⟨by decide,
    (literal_routes_match_exactly literalRoutes (by decide) "/v1/users/profiles/".toList
      "GET".toList).1,
    by decide, by decide⟩

/-- The template `/__VARS__` has no placeholder, yet the request `/zzz`, whose
segment list is not the one of an inserted template, is served and binds a
variable. -/
theorem literal_routes_match_exactly_counterexample :
    allSucceed NewTrie reservedRoutes = true ∧
    (∀ r ∈ reservedRoutes, ∀ s ∈ segmentsOf r.1, varsNameRegex s = false) ∧
    (runInserts NewTrie reservedRoutes).Get "/zzz".toList "GET".toList
      = (some 1, [{ Name := "__VARS__".toList, Value := "zzz".toList }], none) ∧
    ¬ ∃ r ∈ reservedRoutes, segmentsOf r.1 = segmentsOf "/zzz".toList := by
  decide

/-- C9 as amended (literal precedence without backtracking). In the trie of
`/a/x/c` and `/a/{id}/d`, inserted under one method in either order,
`Get("/a/x/d")` returns the not-found error and a nil handler, and
`Get("/a/" + y + "/d")` returns the handler of `/a/{id}/d` with the single
variable `id = y` for every non-empty `y` without a slash other than `x` and
the reserved key `__VARS__`. Whenever the visited node has a child stored under
the request segment, the loop of `Get` goes on from that child with the
variables unchanged. -/
theorem literal_precedence (m : GoString) (h1 h2 : Handler H) :
    (((NewTrie : Trie H).Insert "/a/x/c".toList m h1).1.Insert "/a/{id}/d".toList m h2).2
      = none ∧
    (((NewTrie : Trie H).Insert "/a/{id}/d".toList m h2).1.Insert "/a/x/c".toList m h1).2
      = none ∧
    (precedenceTrie m h1 h2).Get "/a/x/d".toList m = (none, [], errNotFound) ∧
    (precedenceTrieRev m h1 h2).Get "/a/x/d".toList m = (none, [], errNotFound) ∧
    (∀ y : GoString, y ≠ [] → '/' ∉ y → y ≠ "x".toList → y ≠ VarsLabel →
      (precedenceTrie m h1 h2).Get ("/a".toList ++ '/' :: (y ++ "/d".toList)) m
        = (h2, [{ Name := "id".toList, Value := y }], none) ∧
      (precedenceTrieRev m h1 h2).Get ("/a".toList ++ '/' :: (y ++ "/d".toList)) m
        = (h2, [{ Name := "id".toList, Value := y }], none)) ∧
    (∀ (n c : TrieNode H) (s : GoString) (rest : List GoString) (vars : Vars),
      n.Children s = some c → getLoop (s :: rest) n vars = getLoop rest c vars) := by
  refine ⟨rfl, rfl, rfl, rfl, ?_, ?_⟩
  · intro y hne hslash hx hres
    exact ⟨precedence_get m h1 h2 y hne hslash hx hres,
      precedence_get_rev m h1 h2 y hne hslash hx hres⟩
  · intro n c s rest vars hc
    simp only [getLoop, hc]

/-- For `y = "__VARS__"` the request `/a/__VARS__/d` is served by the handler
of `/a/{id}/d` without any variable, in both insertion orders. -/
theorem literal_precedence_counterexample :
    "__VARS__".toList ≠ [] ∧ '/' ∉ "__VARS__".toList ∧ "__VARS__".toList ≠ "x".toList ∧
    (precedenceTrie "GET".toList (some 1) (some (2 : Nat))).Get "/a/__VARS__/d".toList
      "GET".toList = (some 2, [], none) ∧
    (precedenceTrieRev "GET".toList (some 1) (some (2 : Nat))).Get "/a/__VARS__/d".toList
      "GET".toList = (some 2, [], none) ∧
    (precedenceTrie "GET".toList (some 1) (some (2 : Nat))).Get "/a/__VARS__/d".toList
      "GET".toList
      ≠ (some 2, [{ Name := "id".toList, Value := "__VARS__".toList }], none) := by
  decide

/-- The request `/a/y/d` in both insertion orders. -/
theorem literal_precedence_witness :
    (precedenceTrie "GET".toList (some 1) (some (2 : Nat))).Get "/a/y/d".toList "GET".toList
      = (some 2, [{ Name := "id".toList, Value := "y".toList }], none) ∧
    (precedenceTrieRev "GET".toList (some 1) (some (2 : Nat))).Get "/a/y/d".toList
      "GET".toList = (some 2, [{ Name := "id".toList, Value := "y".toList }], none) :=
  (literal_precedence "GET".toList (some 1) (some (2 : Nat))).2.2.2.2.1 "y".toList
    (by decide) (by decide) (by decide) (by decide)

/-- C10 (method mismatch). In the trie whose only route is `(p, m1)`,
`Get(q, m2)` returns a non-nil error and a nil handler for every path `q` and
every method `m2` other than `m1`. -/
theorem method_mismatch (p m1 m2 : GoString) (h : Handler H) (hm : m1 ≠ m2) (q : GoString) :
    ((NewTrie : Trie H).Insert p m1 h).2 = none ∧
    (((NewTrie : Trie H).Insert p m1 h).1.Get q m2).2.2 ≠ none ∧
    (((NewTrie : Trie H).Insert p m1 h).1.Get q m2).1 = none := by
  have hok := Insert_NewTrie_ok (H := H) p m1 h
  have hrep : Rep ((NewTrie : Trie H).Insert p m1 h).1 ([] ++ [(p, m1, h)]) :=
    rep_NewTrie.insert_ok Reachable.new (p, m1, h) hok
  have herr : (((NewTrie : Trie H).Insert p m1 h).1.Get q m2).2.2 ≠ none := by
    intro hnil
    unfold Trie.Get at hnil
    split at hnil
    · simp [errNotFound] at hnil
    · rename_i N vars hg
      cases hv : N.Value m2 with
      | none => simp [hv, errNotFound] at hnil
      | some x =>
        obtain ⟨ks, hks⟩ := getLoop_descend _ _ _ _ _ hg
        have hview : view ((NewTrie : Trie H).Insert p m1 h).1.root ks = some N.info := by
          simp [view, hks]
        obtain ⟨r, hr, -, hrm, -⟩ := hrep.handlers ks N.info m2 x hview hv
        simp only [List.nil_append, List.mem_singleton] at hr
        subst hr
        exact hm hrm
  exact ⟨hok, herr, Trie.Get_error_handler _ _ _ herr⟩

/-- The path `/v1/users`, registered only for `GET`, looked up with `POST`. -/
theorem method_mismatch_witness :
    "GET".toList ≠ "POST".toList ∧
    ((NewTrie : Trie Nat).Insert "/v1/users".toList "GET".toList (some 1)).2 = none ∧
    (((NewTrie : Trie Nat).Insert "/v1/users".toList "GET".toList (some 1)).1.Get
      "/v1/users".toList "POST".toList).2.2 ≠ none ∧
    (((NewTrie : Trie Nat).Insert "/v1/users".toList "GET".toList (some 1)).1.Get
      "/v1/users".toList "POST".toList).1 = none :=
  ⟨by decide,
    method_mismatch "/v1/users".toList "GET".toList "POST".toList (some 1) (by decide)
      "/v1/users".toList⟩

/-- C11 (root path). After `Insert("/", m, h)` has returned nil on a trie
reachable from `NewTrie()`, `Get("/", m)` and `Get("", m)` return `h`, a nil
error and no variable; the handler is stored at the child of the root under
the empty key, a node of kind `PathNode` labelled with the empty string, the
handler map of the root is empty, and `Insert("", m, h')` returns an error. -/
theorem root_path (t : Trie H) (ht : Reachable t) (m : GoString) (h h' : Handler H)
    (hok : (t.Insert "/".toList m h).2 = none) :
    (t.Insert "/".toList m h).1.Get "/".toList m = (h, [], none) ∧
    (t.Insert "/".toList m h).1.Get [] m = (h, [], none) ∧
    (∃ c, (t.Insert "/".toList m h).1.root.Children [] = some c ∧ c.Kind = PathNode ∧
      c.Label = [] ∧ c.Value m = some h) ∧
    (∀ k, (t.Insert "/".toList m h).1.root.Value k = none) ∧
    ((t.Insert "/".toList m h).1.Insert [] m h').2 ≠ none := by
  have ht1 : Reachable (t.Insert "/".toList m h).1 := Reachable.insert t _ m h ht
  have hseg1 : segmentsOf "/".toList = [[]] := by decide
  have hseg2 : segmentsOf [] = [[]] := by decide
  have hkeys : ([[]] : List GoString).map keyOf = [[]] := by decide
  obtain ⟨i, hi, hx⟩ := insertLoop_registers m h (segmentsOf "/".toList) t.root
    ht.noRegexKeys hok
  have hi1 : view (t.Insert "/".toList m h).1.root ((segmentsOf "/".toList).map keyOf)
      = some i := hi
  have hi2 : view (t.Insert "/".toList m h).1.root ((segmentsOf []).map keyOf) = some i := by
    rw [hseg2, ← hseg1]; exact hi
  have hlit1 : ∀ s ∈ segmentsOf "/".toList, varsNameRegex s = false := by decide
  have hlit2 : ∀ s ∈ segmentsOf ([] : GoString), varsNameRegex s = false := by decide
  obtain ⟨a1, a2, a3⟩ := Trie.Get_of_view ht1 hi1 hx
  obtain ⟨b1, b2, b3⟩ := Trie.Get_of_view ht1 hi2 hx
  refine ⟨?_, ?_, ?_, ht1.root_Value, ?_⟩
  · have := a3 hlit1
    ext <;> simp_all
  · have := b3 hlit2
    ext <;> simp_all
  · rw [hseg1, hkeys] at hi1
    obtain ⟨c, hc, hci⟩ := view_cons_eq_some hi1
    simp only [view_nil, Option.some.injEq] at hci
    have hinv := ht1.literalInv [] [] i (by simpa using hi1) (by decide)
    refine ⟨c, hc, ?_, ?_, ?_⟩
    · rw [← hci] at hinv; exact hinv.1
    · rw [← hci] at hinv; exact hinv.2
    · rw [← hci] at hx; exact hx
  · apply (insertLoop_error_iff m h' (segmentsOf []) _ ht1.noRegexKeys).2
    exact Or.inr ⟨i, h, hi2, hx⟩

/-- `Insert("/")` on the empty trie. -/
theorem root_path_witness :
    Reachable (NewTrie : Trie Nat) ∧
    ((NewTrie : Trie Nat).Insert "/".toList "GET".toList (some 1)).2 = none ∧
    ((NewTrie : Trie Nat).Insert "/".toList "GET".toList (some 1)).1.Get "/".toList
      "GET".toList = (some 1, [], none) ∧
    ((NewTrie : Trie Nat).Insert "/".toList "GET".toList (some 1)).1.Get [] "GET".toList
      = (some 1, [], none) ∧
    (((NewTrie : Trie Nat).Insert "/".toList "GET".toList (some 1)).1.Insert [] "GET".toList
      (some 2)).2 ≠ none :=
  ⟨Reachable.new, by decide,
    (root_path NewTrie Reachable.new "GET".toList (some 1) (some 2) (by decide)).1,
    (root_path NewTrie Reachable.new "GET".toList (some 1) (some 2) (by decide)).2.1,
    (root_path NewTrie Reachable.new "GET".toList (some 1) (some 2) (by decide)).2.2.2.2⟩

/-- C12 (`Vars.ByName` is first-match lookup). `vs.ByName(n)` is the `Value` of
the element of `vs` of lowest index whose `Name` is `n`, and the empty string
when no element has that name. After `Insert("/a/{x}/b/{x}")`,
`Get("/a/1/b/2")` returns two variables named `x`, on which `ByName("x")` is
`"1"`. -/
theorem byName_first_match (vs : Vars) (n : GoString) :
    (∀ (i : Nat) (e : Var), vs[i]? = some e → e.Name = n →
      (∀ (j : Nat) (e' : Var), j < i → vs[j]? = some e' → e'.Name ≠ n) →
      vs.ByName n = e.Value) ∧
    ((∀ e ∈ vs, e.Name ≠ n) → vs.ByName n = []) ∧
    allSucceed NewTrie repeatedNameRoutes = true ∧
    (runInserts NewTrie repeatedNameRoutes).Get "/a/1/b/2".toList "GET".toList
      = (some 1, [{ Name := "x".toList, Value := "1".toList },
          { Name := "x".toList, Value := "2".toList }], none) ∧
    Vars.ByName ((runInserts NewTrie repeatedNameRoutes).Get "/a/1/b/2".toList
      "GET".toList).2.1 "x".toList = "1".toList :=
  ⟨ByName_of_first vs n, ByName_of_not_mem vs n, by decide, by decide, by decide⟩

/-- C20 (path normalisation). For a path `p` that neither starts nor ends with
a slash, `"/" + p`, `p + "/"` and `"/" + p + "/"` have the segment list of `p`,
so that `Insert` and `Get` return for them what they return for `p`; for a
non-empty `p` the path `"//" + p` has the segment list of `p` behind an empty
first segment, and is another route. -/
theorem path_normalisation (p : GoString) (hhead : p.head? ≠ some '/')
    (hlast : p.getLast? ≠ some '/') :
    (segmentsOf ('/' :: p) = segmentsOf p ∧ segmentsOf (p ++ ['/']) = segmentsOf p ∧
      segmentsOf ('/' :: (p ++ ['/'])) = segmentsOf p) ∧
    (∀ (t : Trie H) (m : GoString) (h : Handler H),
      t.Insert ('/' :: p) m h = t.Insert p m h ∧ t.Insert (p ++ ['/']) m h = t.Insert p m h ∧
      t.Insert ('/' :: (p ++ ['/'])) m h = t.Insert p m h) ∧
    (∀ (t : Trie H) (m : GoString),
      t.Get ('/' :: p) m = t.Get p m ∧ t.Get (p ++ ['/']) m = t.Get p m ∧
      t.Get ('/' :: (p ++ ['/'])) m = t.Get p m) ∧
    (p ≠ [] → segmentsOf ('/' :: '/' :: p) = [] :: segmentsOf p ∧
      segmentsOf ('/' :: '/' :: p) ≠ segmentsOf p) := by
  have h1 := segmentsOf_slash_left hhead
  have h2 := segmentsOf_slash_right hhead hlast
  have h3 := segmentsOf_slash_both hhead hlast
  refine ⟨⟨h1, h2, h3⟩, ?_, ?_, ?_⟩
  · intro t m h
    exact ⟨t.Insert_congr h1 m h, t.Insert_congr h2 m h, t.Insert_congr h3 m h⟩
  · intro t m
    exact ⟨t.Get_congr h1 m, t.Get_congr h2 m, t.Get_congr h3 m⟩
  · intro hne
    rw [segmentsOf_two_slashes hne hlast, segmentsOf_of_trimmed hhead hlast]
    refine ⟨rfl, ?_⟩
    intro e
    have := congrArg List.length e
    simp at this

/-- The paths `users`, `/users`, `users/`, `/users/` and `//users`. -/
theorem path_normalisation_witness :
    "users".toList.head? ≠ some '/' ∧ "users".toList.getLast? ≠ some '/' ∧
    ((NewTrie : Trie Nat).Insert "/users/".toList "GET".toList (some 1)
      = (NewTrie : Trie Nat).Insert "users".toList "GET".toList (some 1)) ∧
    segmentsOf "//users".toList = [[], "users".toList] ∧
    (((NewTrie : Trie Nat).Insert "/users".toList "GET".toList (some 1)).1.Insert
      "//users".toList "GET".toList (some 2)).2 = none ∧
    (((NewTrie : Trie Nat).Insert "/users".toList "GET".toList (some 1)).1.Insert
      "//users".toList "GET".toList (some 2)).1.Get "//users".toList "GET".toList
      = (some 2, [], none) :=
  ⟨by decide, by decide,
    ((path_normalisation "users".toList (by decide) (by decide)).2.1 NewTrie "GET".toList
      (some 1)).2.2,
    by decide, by decide, by decide⟩

/-- C13 as stated fails: `Handle("GET", "/", nil)` returns normally, after it
`trie.Get("/", "GET")` returns the nil handler and a nil error, and `ServeHTTP`
on a `GET` request for `/` calls nothing and panics with the nil dereference
of the method call on the nil interface value. -/
theorem dispatch_decision_counterexample :
    ((NewRouter : Router Nat).Handle "GET".toList "/".toList none).2 = none ∧
    nilRouter.trie.Get rootRequest.Path rootRequest.Method = (none, [], none) ∧
    nilRouter.ServeHTTP rootRequest = ([], errNilDereference) ∧
    errNilDereference ≠ none ∧
    ¬ ∃ h q, Call.ServeHTTP h q ∈ (nilRouter.ServeHTTP rootRequest).1 :=
  ⟨by decide, by decide, by decide, by decide, by
    rw [show nilRouter.ServeHTTP rootRequest = ([], errNilDereference) by decide]
    simp⟩

/-- C13 as amended (dispatch decision of `Router.ServeHTTP`). When
`trie.Get(req.URL.Path, req.Method)` returns a nil error and a handler that is
not nil, `ServeHTTP` makes exactly one call, the `ServeHTTP` of that handler,
and returns; when `Get` returns an error it makes exactly one call,
`http.NotFound`, and returns; when `Get` returns a nil error and the nil
handler it makes no call and panics. So a handler is called if and only if
`Get` returns a nil error and a handler that is not nil; and on a router built
from `NewRouter()` by calls of `Handle` whose handlers are not nil, if and only
if `Get` returns a nil error. -/
theorem dispatch_decision (r : Router H) (req : Request) :
    (∀ h vars, r.trie.Get req.Path req.Method = (some h, vars, none) →
      r.ServeHTTP req =
        ([Call.ServeHTTP h (req.WithContext (contextWithVars req.ctx vars))], none)) ∧
    ((r.trie.Get req.Path req.Method).2.2 ≠ none →
      r.ServeHTTP req = ([Call.NotFound req], none)) ∧
    (∀ vars, r.trie.Get req.Path req.Method = (none, vars, none) →
      r.ServeHTTP req = ([], errNilDereference)) ∧
    ((∃ h q, Call.ServeHTTP h q ∈ (r.ServeHTTP req).1) ↔
      ((r.trie.Get req.Path req.Method).2.2 = none ∧
        (r.trie.Get req.Path req.Method).1 ≠ none)) ∧
    (∀ routes : List (Route H), (∀ rt ∈ routes, rt.2.2 ≠ none) →
      r = runHandles NewRouter routes →
      ((∃ h q, Call.ServeHTTP h q ∈ (r.ServeHTTP req).1) ↔
        (r.trie.Get req.Path req.Method).2.2 = none)) := by
  refine ⟨r.ServeHTTP_ok req, r.ServeHTTP_error req, r.ServeHTTP_nil req,
    r.ServeHTTP_calls_iff req, ?_⟩
  intro routes hroutes hr
  rw [r.ServeHTTP_calls_iff req]
  refine ⟨fun h => h.1, fun hok => ⟨hok, ?_⟩⟩
  have htrie : r.trie = runInserts NewTrie routes := by
    rw [hr, runHandles_trie]
    rfl
  rw [htrie] at hok ⊢
  obtain ⟨rt, hrt, -, hx, -⟩ := Trie.Get_ok_registered routes req.Path req.Method hok
  rw [← hx]
  exact hroutes rt (registered_subset routes _ rt hrt)

/-- On `usersRouter`, built by two calls of `Handle` with handlers that are not
nil, the `GET` request for `/users/7` is answered by exactly one call, of
handler `1`, with the variable `uid = 7` in the context of the request. -/
theorem dispatch_decision_witness :
    usersRouter.ServeHTTP userRequest =
      ([Call.ServeHTTP 1 (userRequest.WithContext (contextWithVars userRequest.ctx
        [{ Name := "uid".toList, Value := "7".toList }]))], none) :=
  (dispatch_decision usersRouter userRequest).1 1
    [{ Name := "uid".toList, Value := "7".toList }] (by decide)

/-- C14 (variables reach the handler unchanged). `GetVars(contextWithVars(ctx,
vs))` is `vs`; `GetVars` of a context that holds nothing under the variables
key is the nil sequence; when `trie.Get` returns a handler `h`, the variables
`vars` and a nil error, `ServeHTTP` makes exactly one call, the `ServeHTTP` of
`h` on a request with the method and the path of `req` whose context yields
`vars` through `GetVars`; and no other call of a handler is made. -/
theorem vars_reach_handler (ctx : Context) (vs : Vars) :
    GetVars (contextWithVars ctx vs) = vs ∧
    (ctx.Value ContextKey.varsContextKey = none → GetVars ctx = []) ∧
    (∀ (r : Router H) (req : Request) (h : H) (vars : Vars),
      r.trie.Get req.Path req.Method = (some h, vars, none) →
      ∃ q, r.ServeHTTP req = ([Call.ServeHTTP h q], none) ∧ GetVars q.ctx = vars ∧
        q.Method = req.Method ∧ q.Path = req.Path) ∧
    (∀ (r : Router H) (req : Request) (h : H) (q : Request),
      Call.ServeHTTP h q ∈ (r.ServeHTTP req).1 →
      r.trie.Get req.Path req.Method = (some h, GetVars q.ctx, none)) := by
  refine ⟨GetVars_contextWithVars ctx vs, ?_, ?_, ?_⟩
  · intro h
    simp [GetVars, h]
  · intro r req h vars hg
    exact ⟨_, r.ServeHTTP_ok req h vars hg, GetVars_contextWithVars _ _, rfl, rfl⟩
  · intro r req h q hm
    rcases hg : r.trie.Get req.Path req.Method with ⟨x, vars, e⟩
    cases e with
    | some err =>
      have he : (r.trie.Get req.Path req.Method).2.2 ≠ none := by rw [hg]; simp
      rw [r.ServeHTTP_error req he] at hm
      simp at hm
    | none =>
      cases x with
      | none =>
        rw [r.ServeHTTP_nil req vars hg] at hm
        simp at hm
      | some h' =>
        rw [r.ServeHTTP_ok req h' vars hg, List.mem_singleton] at hm
        injection hm with hh hq
        rw [hq, hh]
        simp [Request.WithContext, GetVars_contextWithVars]

/-- C15 (`Router.Handle` and `Router.HandleFunc`). `Handle(method, path,
handler)` panics if and only if `trie.Insert(path, method, handler)` returns an
error, and then with that error; the trie afterwards is the one `Insert(path,
method, handler)` leaves; `HandleFunc` is `Handle` of the function as a
handler; and when `Handle` does not panic on a router built by such calls,
`trie.Get(path, method)` returns `handler` and a nil error, for every `path`,
and no variable when no segment of `path` is matched by the pattern
`varsNameRegex` of the code. -/
theorem handle_fatal_on_conflict (r : Router H) (method path : GoString)
    (handler : Handler H) :
    ((r.Handle method path handler).2 ≠ none ↔
      (r.trie.Insert path method handler).2 ≠ none) ∧
    (r.Handle method path handler).2 = (r.trie.Insert path method handler).2 ∧
    (r.Handle method path handler).1.trie = (r.trie.Insert path method handler).1 ∧
    (∀ f : H, r.HandleFunc method path f = r.Handle method path (some f)) ∧
    (Reachable r.trie → (r.Handle method path handler).2 = none →
      ((r.Handle method path handler).1.trie.Get path method).1 = handler ∧
      ((r.Handle method path handler).1.trie.Get path method).2.2 = none ∧
      ((∀ s ∈ segmentsOf path, varsNameRegex s = false) →
        ((r.Handle method path handler).1.trie.Get path method).2.1 = [])) := by
  have h2 : (r.Handle method path handler).2 = (r.trie.Insert path method handler).2 := by
    unfold Router.Handle
    cases h : (r.trie.Insert path method handler).2 <;> simp [h]
  have h3 : (r.Handle method path handler).1.trie = (r.trie.Insert path method handler).1 := by
    unfold Router.Handle
    cases h : (r.trie.Insert path method handler).2 <;> simp [h]
  refine ⟨by rw [h2], h2, h3, fun f => rfl, ?_⟩
  intro ht hok
  rw [h3]
  rw [h2] at hok
  obtain ⟨i, hi, hx⟩ :=
    insertLoop_registers method handler (segmentsOf path) r.trie.root ht.noRegexKeys hok
  exact Trie.Get_of_view (Reachable.insert r.trie path method handler ht) hi hx

/-- C21 as stated fails: after `Insert("/{id}", "GET", h1)` the call
`Insert("/__VARS__", "POST", h2)` succeeds, and the node that the literal
segment `__VARS__` leads to, the child of the root stored under that segment,
is of kind `VarsNode` and labelled `id`. -/
theorem node_labelling_counterexample :
    Reachable ((NewTrie : Trie Nat).Insert "/{id}".toList "GET".toList (some 1)).1 ∧
    (((NewTrie : Trie Nat).Insert "/{id}".toList "GET".toList (some 1)).1.Insert
      "/__VARS__".toList "POST".toList (some 2)).2 = none ∧
    segmentsOf "/__VARS__".toList = ["__VARS__".toList] ∧
    varsNameRegex "__VARS__".toList = false ∧
    keyOf "__VARS__".toList = "__VARS__".toList ∧
    (descend ["__VARS__".toList] slotTrie.root).map TrieNode.Kind = some VarsNode ∧
    (descend ["__VARS__".toList] slotTrie.root).map TrieNode.Label = some "id".toList ∧
    VarsNode ≠ PathNode :=
  ⟨Reachable.insert _ _ _ _ Reachable.new, by decide, by decide, by decide, by decide,
    by decide, by decide, by decide⟩

/-- C21 as amended (node labelling after `Insert`). On a trie reachable from
`NewTrie()` by calls of `Insert`, after a successful `Insert` of a template,
the walk along the template (the child under the reserved key for a
placeholder, the child under the segment itself otherwise) reaches a node for
every segment: for a placeholder it is labelled with the name of the
placeholder and, when that name is not `__VARS__` (so for every placeholder of
ASCII letters), of kind `VarsNode`; for a literal segment other than
`__VARS__` it is of kind `PathNode` and labelled with the segment. The last
node holds the handler under the method, and a node can hold a handler and a
child at the same time. -/
theorem node_labelling (t : Trie H) (ht : Reachable t) (path method : GoString)
    (handler : Handler H) (hok : (t.Insert path method handler).2 = none) :
    (∀ pre s post, segmentsOf path = pre ++ s :: post →
      ∃ N, descend ((pre ++ [s]).map keyOf) (t.Insert path method handler).1.root = some N ∧
        (varsNameRegex s = true →
          N.Label = nameOf s ∧ (nameOf s ≠ VarsLabel → N.Kind = VarsNode)) ∧
        (specPlaceholder s = true → N.Kind = VarsNode ∧ N.Label = nameOf s) ∧
        (varsNameRegex s = false → s ≠ VarsLabel → N.Kind = PathNode ∧ N.Label = s)) ∧
    (∃ N, descend ((segmentsOf path).map keyOf) (t.Insert path method handler).1.root = some N ∧
      N.Value method = some handler) ∧
    (∃ N c, descend ["a".toList] (runInserts NewTrie nestedRoutes).root = some N ∧
      N.Value "GET".toList = some (some 1) ∧ N.Children "b".toList = some c) := by
  have ht1 : Reachable (t.Insert path method handler).1 := Reachable.insert t _ _ _ ht
  refine ⟨?_, ?_, ?_⟩
  · intro pre s post hsplit
    have hok' : (insertLoop method handler (pre ++ s :: post) t.root).2 = none := by
      rw [← hsplit]; exact hok
    obtain ⟨N, hN⟩ := insertLoop_node method handler t.root ht.noRegexKeys hok'
    have hN' : descend ((pre ++ [s]).map keyOf) (t.Insert path method handler).1.root
        = some N := by
      simp only [Trie.Insert]
      rw [hsplit]
      exact hN
    have hview : view (t.Insert path method handler).1.root ((pre ++ [s]).map keyOf)
        = some N.info := by
      unfold view
      rw [hN']
      rfl
    have hregex : varsNameRegex s = true →
        N.Label = nameOf s ∧ (nameOf s ≠ VarsLabel → N.Kind = VarsNode) := by
      intro hs
      obtain ⟨i, hi, hlab⟩ := insertLoop_label method handler t.root ht.noRegexKeys hok' hs
      have hi' : view (t.Insert path method handler).1.root ((pre ++ [s]).map keyOf)
          = some i := by
        simp only [Trie.Insert]
        rw [hsplit]
        exact hi
      rw [hview] at hi'
      have hiN : N.info = i := by simpa using hi'
      have hl : N.Label = nameOf s := by rw [← hlab, ← hiN]; rfl
      refine ⟨hl, fun hne => ?_⟩
      have hkey : (pre ++ [s]).map keyOf = pre.map keyOf ++ [VarsLabel] := by
        simp [keyOf_of_regex hs]
      rw [hkey] at hview
      rcases ht1.slotInv _ _ hview with hk | ⟨-, hlbl⟩
      · exact hk
      · exact absurd (hl.symm.trans hlbl) hne
    refine ⟨N, hN', hregex, ?_, ?_⟩
    · intro hsp
      obtain ⟨h1, h2⟩ := hregex (varsNameRegex_of_specPlaceholder hsp)
      exact ⟨h2 (nameOf_ne_of_specPlaceholder hsp), h1⟩
    · intro hs hne
      have hkey : (pre ++ [s]).map keyOf = pre.map keyOf ++ [s] := by
        simp [keyOf_of_not_regex hs]
      rw [hkey] at hview
      exact ht1.literalInv _ _ _ hview hne
  · obtain ⟨i, hi, hx⟩ :=
      insertLoop_registers method handler (segmentsOf path) t.root ht.noRegexKeys hok
    obtain ⟨N, hN, hNi⟩ := descend_of_view hi
    exact ⟨N, hN, by rw [← hNi] at hx; exact hx⟩
  · have h0 : (descend ["a".toList] (runInserts NewTrie nestedRoutes).root).isSome = true := by
      decide
    obtain ⟨N, hN⟩ := Option.isSome_iff_exists.1 h0
    have h1 : ((descend ["a".toList] (runInserts NewTrie nestedRoutes).root).bind
        (fun N => N.Value "GET".toList)) = some (some 1) := by decide
    have h2 : ((descend ["a".toList] (runInserts NewTrie nestedRoutes).root).bind
        (fun N => N.Children "b".toList)).isSome = true := by decide
    rw [hN] at h1 h2
    obtain ⟨c, hc⟩ := Option.isSome_iff_exists.1 h2
    exact ⟨N, c, hN, h1, hc⟩

/-- After `Insert("/v1/users/{uid}", "GET", 1)` on the empty trie the walk
reaches, for `v1`, a node of kind `PathNode` labelled `v1` and, for `{uid}`, a
node of kind `VarsNode` labelled `uid`. -/
theorem node_labelling_witness :
    Reachable (NewTrie : Trie Nat) ∧
    ((NewTrie : Trie Nat).Insert "/v1/users/{uid}".toList "GET".toList (some 1)).2 = none ∧
    (∃ N, descend ["v1".toList]
        ((NewTrie : Trie Nat).Insert "/v1/users/{uid}".toList "GET".toList (some 1)).1.root
          = some N ∧ N.Kind = PathNode ∧ N.Label = "v1".toList) ∧
    (∃ N, descend ["v1".toList, "users".toList, VarsLabel]
        ((NewTrie : Trie Nat).Insert "/v1/users/{uid}".toList "GET".toList (some 1)).1.root
          = some N ∧ N.Kind = VarsNode ∧ N.Label = "uid".toList) := by
  have h := (node_labelling (NewTrie : Trie Nat) Reachable.new "/v1/users/{uid}".toList
    "GET".toList (some 1) (by decide)).1
  refine ⟨Reachable.new, by decide, ?_, ?_⟩
  · obtain ⟨N, hN, -, -, h3⟩ := h [] "v1".toList ["users".toList, "{uid}".toList] (by decide)
    exact ⟨N, hN, h3 (by decide) (by decide)⟩
  · obtain ⟨N, hN, -, h2, -⟩ := h ["v1".toList, "users".toList] "{uid}".toList [] (by decide)
    exact ⟨N, hN, h2 (by decide)⟩

/-- C22 (`Insert` is atomic on failure). When `Insert` returns an error the
trie after the call is the trie before it, and every `Get` returns what it
returned before. A node made by `NewTrieNode` has no child and no handler, and
the insertion of any segments below such a node returns no error: a conflict
is met only at a node that was there before the call. -/
theorem insert_atomic_on_failure (t : Trie H) (path method : GoString) (handler : Handler H)
    (herr : (t.Insert path method handler).2 ≠ none) :
    (t.Insert path method handler).1 = t ∧
    (∀ p m, (t.Insert path method handler).1.Get p m = t.Get p m) ∧
    (∀ (kind : NodeKind) (label : GoString) (segs : List GoString),
      IsEmptyNode (NewTrieNode kind label : TrieNode H) ∧
      (insertLoop method handler segs (NewTrieNode kind label)).2 = none) := by
  have h := Trie.Insert_atomic t path method handler herr
  refine ⟨h, fun p m => by rw [h], fun kind label segs => ?_⟩
  exact ⟨isEmptyNode_new kind label,
    insertLoop_empty_ok method handler segs _ (isEmptyNode_new kind label)⟩

/-- A second `Insert("/a", "GET", 2)` fails and leaves the trie of `/a` as it
was; so does `Insert("/a/{y}/c", "GET", 3)` on the trie of `/a/{x}/b`, which
stops at the placeholder. -/
theorem insert_atomic_on_failure_witness :
    (singleTrie.Insert "/a".toList "GET".toList (some 2)).2 ≠ none ∧
    (singleTrie.Insert "/a".toList "GET".toList (some 2)).1 = singleTrie ∧
    (singleTrie.Insert "/a".toList "GET".toList (some 2)).1.Get "/a".toList "GET".toList
      = (some 1, [], none) ∧
    (namedTrie.Insert "/a/{y}/c".toList "GET".toList (some 3)).2 ≠ none ∧
    (namedTrie.Insert "/a/{y}/c".toList "GET".toList (some 3)).1 = namedTrie :=
  ⟨by decide,
    (insert_atomic_on_failure singleTrie "/a".toList "GET".toList (some 2) (by decide)).1,
    by decide, by decide,
    (insert_atomic_on_failure namedTrie "/a/{y}/c".toList "GET".toList (some 3)
      (by decide)).1⟩

/-- C23 (lookup soundness). On the trie built from `NewTrie()` by the calls
`Insert` of `routes`: when `Get(path, method)` returns a nil error, the handler
it returns is the handler of one of those calls that returned a nil error,
with the method `method` and a template of as many segments as `path`; `Get`
returns at most as many variables as `path` has segments; and when `Get`
returns an error the handler it returns is nil. -/
theorem lookup_soundness (routes : List (Route H)) (path method : GoString) :
    ((((runInserts NewTrie routes).Get path method).2.2 = none) →
      ∃ r ∈ registered NewTrie routes, r ∈ routes ∧ r.2.1 = method ∧
        r.2.2 = ((runInserts NewTrie routes).Get path method).1 ∧
        (segmentsOf r.1).length = (segmentsOf path).length) ∧
    ((runInserts NewTrie routes).Get path method).2.1.length ≤ (segmentsOf path).length ∧
    ((((runInserts NewTrie routes).Get path method).2.2 ≠ none) →
      ((runInserts NewTrie routes).Get path method).1 = none) := by
  refine ⟨?_, ?_, Trie.Get_error_handler _ path method⟩
  · intro hok
    obtain ⟨ks, N, hks, hlen, hval⟩ := Trie.Get_ok_node _ path method hok
    have hview : view (runInserts NewTrie routes).root ks = some N.info := by
      unfold view
      rw [hks]
      rfl
    obtain ⟨r, hr, hkeys, hm, hx⟩ :=
      (rep_runInserts_NewTrie routes).handlers ks N.info method _ hview hval
    refine ⟨r, hr, registered_subset routes _ r hr, hm, hx, ?_⟩
    rw [← hlen, ← hkeys, List.length_map]
  · rw [Trie.Get_vars]
    simpa using getLoop_vars_length (segmentsOf path) (runInserts NewTrie routes).root []

end Claims

end Httpmux

/-! ## Facts about the library calls, `jwt` and `sqltx` -/

namespace strconv

theorem digitChar_isDigit {d : Nat} (h : d < 10) : isDigit (digitChar d) = true := by
  interval_cases d <;> decide

theorem digitChar_toNat {d : Nat} (h : d < 10) : (digitChar d).toNat - 48 = d := by
  interval_cases d <;> decide

theorem parseDigits_append (a b : GoString) :
    ∀ acc, parseDigits (a ++ b) acc = (parseDigits a acc).bind (parseDigits b) := by
  induction a with
  | nil => intro acc; rfl
  | cons c cs ih =>
    intro acc
    simp only [List.cons_append, parseDigits]
    split
    · exact ih _
    · rfl

theorem parseDigits_formatBits :
    ∀ (fuel n : Nat), n < 10 ^ fuel → parseDigits (formatBits fuel n) 0 = some n := by
  intro fuel
  induction fuel with
  | zero =>
    intro n h
    have : n = 0 := by simpa using h
    subst this
    rfl
  | succ fuel ih =>
    intro n h
    unfold formatBits
    split
    · rename_i h10
      simp [parseDigits, digitChar_isDigit h10, digitChar_toNat h10]
    · rename_i h10
      have hq : n / 10 < 10 ^ fuel := by
        rw [pow_succ] at h
        omega
      have hr : n % 10 < 10 := Nat.mod_lt _ (by decide)
      rw [parseDigits_append, ih _ hq]
      simp only [Option.bind, parseDigits, digitChar_isDigit hr, digitChar_toNat hr, if_true]
      congr 1
      omega

theorem formatBits_isDigit :
    ∀ (fuel n : Nat), ∀ c ∈ formatBits fuel n, isDigit c = true := by
  intro fuel
  induction fuel with
  | zero => intro n c h; simp [formatBits] at h
  | succ fuel ih =>
    intro n c h
    unfold formatBits at h
    split at h
    · rename_i h10
      rw [List.mem_singleton] at h
      rw [h]
      exact digitChar_isDigit h10
    · rw [List.mem_append, List.mem_singleton] at h
      rcases h with h | h
      · exact ih _ c h
      · rw [h]
        exact digitChar_isDigit (Nat.mod_lt _ (by decide))

theorem digitChar_leading {d : Nat} (h0 : 0 < d) (h : d < 10) :
    '1' ≤ digitChar d ∧ digitChar d ≤ '9' ∧ digitChar d ≠ '0' ∧ digitChar d ≠ '-' ∧
      digitChar d ≠ '+' := by
  interval_cases d <;> decide

/-- The digits of a positive number start with a digit other than `0`. -/
theorem formatBits_leading :
    ∀ (fuel n : Nat), 0 < n → n < 10 ^ fuel →
      ∃ c rest, formatBits fuel n = c :: rest ∧ '1' ≤ c ∧ c ≤ '9' ∧ c ≠ '0' ∧ c ≠ '-' ∧
        c ≠ '+' ∧ ∀ x ∈ rest, isDigit x = true := by
  intro fuel
  induction fuel with
  | zero =>
    intro n h0 h
    have : n = 0 := by simpa using h
    omega
  | succ fuel ih =>
    intro n h0 h
    unfold formatBits
    split
    · rename_i h10
      obtain ⟨a, b, c, d, e⟩ := digitChar_leading h0 h10
      exact ⟨_, [], rfl, a, b, c, d, e, by simp⟩
    · rename_i h10
      have hq : n / 10 < 10 ^ fuel := by
        rw [pow_succ] at h
        omega
      obtain ⟨c, rest, he, h1, h2, h3, h4, h5, h6⟩ := ih (n / 10) (by omega) hq
      refine ⟨c, rest ++ [digitChar (n % 10)], by rw [he]; rfl, h1, h2, h3, h4, h5, ?_⟩
      intro x hx
      rw [List.mem_append, List.mem_singleton] at hx
      rcases hx with hx | hx
      · exact h6 x hx
      · rw [hx]
        exact digitChar_isDigit (Nat.mod_lt _ (by decide))

theorem formatBits_zero : formatBits 20 0 = ['0'] := by decide

theorem pow_bound {n : Nat} (h : n ≤ 2 ^ 63) : n < 10 ^ 20 :=
  lt_of_le_of_lt h (by norm_num)

/-- `ParseInt` reads back what `FormatInt` writes for an `int64`. -/
theorem ParseInt_FormatInt (i : Int) (hlo : -(2 : Int) ^ 63 ≤ i) (hhi : i < 2 ^ 63) :
    ParseInt (FormatInt i) = some i := by
  unfold FormatInt
  by_cases hneg : i < 0
  · rw [if_pos hneg]
    have hn : i.natAbs ≤ 2 ^ 63 := by omega
    have hpos : 0 < i.natAbs := by omega
    obtain ⟨c, rest, he, _⟩ := formatBits_leading 20 _ hpos (pow_bound hn)
    have hp := parseDigits_formatBits 20 _ (pow_bound hn)
    simp only [ParseInt, if_true, parseMagnitude]
    rw [if_neg (by rw [he]; simp), hp]
    simp only [hn, if_true]
    congr 1
    omega
  · rw [if_neg hneg]
    have hn : i.natAbs < 2 ^ 63 := by omega
    have hp := parseDigits_formatBits 20 _ (pow_bound (le_of_lt hn))
    by_cases h0 : i.natAbs = 0
    · have : i = 0 := by omega
      subst this
      decide
    · obtain ⟨c, rest, he, _, _, _, hm, hpl, _⟩ :=
        formatBits_leading 20 _ (Nat.pos_of_ne_zero h0) (pow_bound (le_of_lt hn))
      rw [he] at hp ⊢
      simp only [ParseInt, if_neg hm, if_neg hpl, parseMagnitude]
      rw [if_neg (by simp), hp]
      simp only [hn, if_true]
      congr 1
      omega

end strconv

namespace json

open strconv

theorem dropWhile_all {p : Char → Bool} {s : GoString} (h : ∀ c ∈ s, p c = true) :
    s.dropWhile p = [] := by
  rw [List.dropWhile_eq_nil_iff]
  exact h

theorem dropWhile_none {p : Char → Bool} {s : GoString} (h : ∀ c ∈ s, p c = false) :
    s.dropWhile p = s := by
  cases s with
  | nil => rfl
  | cons c cs => simp [List.dropWhile, h c (by simp)]

theorem trimSpace_of_no_space {s : GoString} (h : ∀ c ∈ s, isSpace c = false) :
    trimSpace s = s := by
  unfold trimSpace
  rw [dropWhile_none h, dropWhile_none (fun c hc => h c (List.mem_reverse.mp hc)),
    List.reverse_reverse]

theorem isSpace_of_isDigit {c : Char} (h : isDigit c = true) : isSpace c = false := by
  simp only [isDigit, decide_eq_true_eq] at h
  simp only [isSpace, decide_eq_false_iff_not, not_or]
  refine ⟨?_, ?_, ?_, ?_⟩ <;> intro e <;> subst e <;> exact absurd h (by decide)

/-- A leading digit other than `0` followed by digits is a JSON number. -/
theorem isValidNumber_digits {c : Char} {rest : GoString} (h1 : '1' ≤ c) (h9 : c ≤ '9')
    (h0 : c ≠ '0') (hm : c ≠ '-') (hr : ∀ x ∈ rest, isDigit x = true) :
    isValidNumber (c :: rest) = true := by
  simp [isValidNumber, hm, skipInt, h0, h1, h9, skipDigits, dropWhile_all hr, skipFrac, skipExp]

/-- What `FormatInt` writes is a JSON number literal without white space. -/
theorem FormatInt_valid (i : Int) (hlo : -(2 : Int) ^ 63 ≤ i) (hhi : i < 2 ^ 63) :
    isValidNumber (FormatInt i) = true ∧ ∀ c ∈ FormatInt i, isSpace c = false := by
  unfold FormatInt
  by_cases hneg : i < 0
  · rw [if_pos hneg]
    have hn : i.natAbs ≤ 2 ^ 63 := by omega
    obtain ⟨c, rest, he, h1, h9, h0, hm, _, hr⟩ :=
      formatBits_leading 20 _ (by omega) (pow_bound hn)
    constructor
    · have hv := isValidNumber_digits h1 h9 h0 hm hr
      rw [he]
      simp only [isValidNumber, if_true] at hv ⊢
      simp only [hm, if_false] at hv
      simpa using hv
    · intro x hx
      rw [List.mem_cons] at hx
      rcases hx with hx | hx
      · rw [hx]; decide
      · exact isSpace_of_isDigit (formatBits_isDigit _ _ x hx)
  · rw [if_neg hneg]
    have hn : i.natAbs < 2 ^ 63 := by omega
    constructor
    · by_cases h0 : i.natAbs = 0
      · rw [h0]; decide
      · obtain ⟨c, rest, he, h1, h9, h0, hm, _, hr⟩ :=
          formatBits_leading 20 _ (Nat.pos_of_ne_zero h0) (pow_bound (le_of_lt hn))
        rw [he]
        exact isValidNumber_digits h1 h9 h0 hm hr
    · intro x hx
      exact isSpace_of_isDigit (formatBits_isDigit _ _ x hx)

theorem UnmarshalNumber_FormatInt (i : Int) (hlo : -(2 : Int) ^ 63 ≤ i) (hhi : i < 2 ^ 63) :
    UnmarshalNumber (FormatInt i) = some (FormatInt i) := by
  obtain ⟨hv, hs⟩ := FormatInt_valid i hlo hhi
  unfold UnmarshalNumber
  simp only [trimSpace_of_no_space hs, hv, if_true]

end json

namespace time

theorem Truncate_Millisecond (t : Time) (h : t.nsec < 1000000000) :
    t.Truncate Millisecond
      = { sec := t.sec, nsec := t.nsec - t.nsec % 1000000, loc := t.loc } := by
  unfold Time.Truncate Millisecond unixToInternal
  rw [if_neg (by decide)]
  simp only
  congr 1
  · omega
  · omega

theorem wrapInt64_of_range {x : Int} (hlo : -(2 : Int) ^ 63 ≤ x) (hhi : x < 2 ^ 63) :
    wrapInt64 x = x := by
  unfold wrapInt64
  omega

theorem tdiv_small_neg {x : Int} (h0 : x < 0) (h1 : -1000000000 < x) :
    x.tdiv 1000000000 = 0 := by
  have h : (-x).tdiv 1000000000 = (-x) / 1000000000 := Int.tdiv_eq_ediv (by omega) (by decide)
  rw [Int.neg_tdiv] at h
  omega

/-- The quotient and the remainder of Go for a division by `1000`. -/
theorem tdiv_tmod_1000 (m : Int) :
    1000 * m.tdiv 1000 + m.tmod 1000 = m ∧
      (0 ≤ m → 0 ≤ m.tmod 1000 ∧ m.tmod 1000 < 1000) ∧
      (m < 0 → -1000 < m.tmod 1000 ∧ m.tmod 1000 ≤ 0) := by
  have h := Int.tdiv_add_tmod m 1000
  refine ⟨h, ?_, ?_⟩
  · intro hm
    exact ⟨Int.tmod_nonneg _ hm, Int.tmod_lt_of_pos _ (by decide)⟩
  · intro hm
    have h1 : (-m).tdiv 1000 = (-m) / 1000 := Int.tdiv_eq_ediv (by omega) (by decide)
    rw [Int.neg_tdiv] at h1
    omega

/-- `time.UnixMilli` of `sec*1000 + q` milliseconds, `q < 1000`, is the instant
`q` milliseconds into the second `sec`. -/
theorem UnixMilli_of_parts (sec : Int) (q : Nat) (hq : q < 1000) :
    UnixMilli (sec * 1000 + q)
      = { sec := sec, nsec := q * 1000000, loc := Location.Local } := by
  unfold UnixMilli Unix
  obtain ⟨h, hpos, hneg⟩ := tdiv_tmod_1000 (sec * 1000 + q)
  generalize (sec * 1000 + (q : Int)).tdiv 1000 = d at h
  generalize (sec * 1000 + (q : Int)).tmod 1000 = r at h hpos hneg
  by_cases hr : r < 0
  · have hlt : r * 1000000 < 0 := by omega
    have hm : sec * 1000 + (q : Int) < 0 := by
      by_contra hc
      have := hpos (by omega)
      omega
    have hb := hneg hm
    rw [if_pos (Or.inl hlt)]
    simp only
    rw [tdiv_small_neg hlt (by omega), if_pos (by omega)]
    congr 1 <;> omega
  · have hb : 0 ≤ r ∧ r < 1000 := by
      by_cases hm : 0 ≤ sec * 1000 + (q : Int)
      · exact hpos hm
      · have := hneg (by omega)
        omega
    rw [if_neg (by omega)]
    congr 1 <;> omega

end time

namespace Jwt

theorem NewTime_eq (t : time.Time) (h : t.nsec < 1000000000) :
    NewTime t
      = { Time := { sec := t.sec, nsec := t.nsec - t.nsec % 1000000, loc := t.loc } } := by
  unfold NewTime
  rw [time.Truncate_Millisecond t h]

theorem unixMillis_eq (t : time.Time) :
    unixMillis t = t.sec * 1000 + ((t.nsec / 1000000 : Nat) : Int) := by
  unfold unixMillis instant
  omega

theorem MarshalJSON_NewTime (t : time.Time) (h : t.nsec < 1000000000)
    (hlo : -(2 : Int) ^ 63 ≤ unixMillis t) (hhi : unixMillis t < 2 ^ 63) :
    (NewTime t).MarshalJSON = (strconv.FormatInt (unixMillis t), none) := by
  rw [NewTime_eq t h]
  unfold Time.MarshalJSON
  simp only
  rw [time.Truncate_Millisecond _ (by simp only; omega)]
  unfold time.Time.UnixMilli
  simp only
  have e : t.sec * 1000 + ((t.nsec - t.nsec % 1000000 - (t.nsec - t.nsec % 1000000) % 1000000 : Nat)
      : Int) / 1000000 = unixMillis t := by
    rw [unixMillis_eq]
    omega
  rw [e, time.wrapInt64_of_range hlo hhi]

theorem UnmarshalJSON_FormatInt (t0 : Jwt.Time) (i : Int) (hlo : -(2 : Int) ^ 63 ≤ i)
    (hhi : i < 2 ^ 63) :
    t0.UnmarshalJSON (strconv.FormatInt i) = ({ Time := time.UnixMilli i }, none) := by
  unfold Time.UnmarshalJSON
  rw [json.UnmarshalNumber_FormatInt i hlo hhi]
  simp only
  rw [strconv.ParseInt_FormatInt i hlo hhi]

theorem errors_distinct :
    ErrExpired ≠ ErrNotBefore ∧ ErrExpired ≠ none ∧ ErrNotBefore ≠ none := by decide

theorem After_irrefl (t : time.Time) : t.After t = false := by
  simp [time.Time.After]

theorem Before_irrefl (t : time.Time) : t.Before t = false := by
  simp [time.Time.Before]

theorem After_iff_instant (t u : time.Time) (ht : t.nsec < 1000000000)
    (hu : u.nsec < 1000000000) : t.After u = true ↔ instant u < instant t := by
  simp only [time.Time.After, decide_eq_true_eq, instant]
  omega

theorem Before_iff_instant (t u : time.Time) (ht : t.nsec < 1000000000)
    (hu : u.nsec < 1000000000) : t.Before u = true ↔ instant t < instant u := by
  simp only [time.Time.Before, decide_eq_true_eq, instant]
  omega

end Jwt

namespace strings

theorem cut_append {sep : Char} {a : GoString} (h : sep ∉ a) (b : GoString) :
    cut sep (a ++ sep :: b) = some (a, b) := by
  induction a with
  | nil => simp [cut]
  | cons c cs ih =>
    have hc : c ≠ sep := fun e => h (by simp [e])
    have hcs : sep ∉ cs := fun e => h (by simp [e])
    simp [cut, hc, ih hcs]

/-- `SplitN(a + "." + b + "." + c, ".", 3)` is `[a, b, c]` when `a` and `b`
have no dot. -/
theorem SplitN_three {sep : Char} {a b : GoString} (ha : sep ∉ a) (hb : sep ∉ b)
    (c : GoString) : SplitN (a ++ sep :: (b ++ sep :: c)) sep 3 = [a, b, c] := by
  simp [SplitN, splitUpTo, cut_append ha, cut_append hb]

end strings

namespace Sqltx

variable {K σ : Type}

theorem called_append (a b : List (Event K)) : called (a ++ b) = called a ++ called b := by
  induction a with
  | nil => rfl
  | cons e rest ih => cases e <;> simp [called, ih]

theorem failed_append (a b : List (Event K)) : failed (a ++ b) = failed a ++ failed b := by
  induction a with
  | nil => rfl
  | cons e rest ih =>
    cases e with
    | call i c c1 err => cases err <;> simp [failed, ih]
    | _ => simp [failed, ih]

theorem rollbacks_append (a b : List (Event K)) :
    rollbacks (a ++ b) = rollbacks a + rollbacks b := by
  induction a with
  | nil => simp [rollbacks]
  | cons e rest ih => cases e <;> simp [rollbacks, ih]; omega

theorem commits_append (a b : List (Event K)) : commits (a ++ b) = commits a + commits b := by
  induction a with
  | nil => simp [commits]
  | cons e rest ih => cases e <;> simp [commits, ih]; omega

theorem commitError_append_commit (a : List (Event K)) (err : GoError) :
    commitError (a ++ [Event.commit err]) = some err := by
  induction a with
  | nil => rfl
  | cons e rest ih => cases e <;> simp [commitError, ih]

theorem Chained_append_other (a : List (Event K)) (b : List (Event K)) (hb : called b = []) :
    ∀ ctx, Chained ctx a → Chained ctx (a ++ b) := by
  induction a with
  | nil =>
    intro ctx _
    induction b with
    | nil => trivial
    | cons e rest ih =>
      cases e with
      | call i c c1 err => simp [called] at hb
      | _ => exact ih (by simpa [called] using hb)
  | cons e rest ih =>
    intro ctx h
    cases e with
    | call i c c1 err => exact ⟨h.1, ih _ h.2⟩
    | _ => exact ih _ h

theorem Faithful_append_other (txs : List (Option (Transaction K σ))) (a b : List (Event K))
    (hb : called b = []) : Faithful txs a → Faithful txs (a ++ b) := by
  induction a with
  | nil =>
    intro _
    induction b with
    | nil => trivial
    | cons e rest ih =>
      cases e with
      | call i c c1 err => simp [called] at hb
      | _ => exact ih (by simpa [called] using hb)
  | cons e rest ih =>
    intro h
    cases e with
    | call i c c1 err => exact ⟨h.1, ih h.2⟩
    | _ => exact ih h

theorem nonNilFrom_ge {T : Type} (txs : List (Option T)) :
    ∀ i, ∀ j ∈ nonNilFrom i txs, i ≤ j := by
  induction txs with
  | nil => intro i j h; simp [nonNilFrom] at h
  | cons t rest ih =>
    intro i j h
    cases t with
    | none => exact Nat.le_of_succ_le (ih _ j h)
    | some t =>
      rw [nonNilFrom, List.mem_cons] at h
      rcases h with h | h
      · omega
      · exact Nat.le_of_succ_le (ih _ j h)

/-- The indexes of `nonNilFrom` are those of the transactions that are not nil,
in increasing order. -/
theorem nonNilFrom_spec {T : Type} (txs : List (Option T)) :
    ∀ i, (∀ j, j ∈ nonNilFrom i txs ↔ i ≤ j ∧ ∃ t, txs[j - i]? = some (some t)) ∧
      (nonNilFrom i txs).Pairwise (· < ·) := by
  induction txs with
  | nil => intro i; simp [nonNilFrom]
  | cons t rest ih =>
    intro i
    obtain ⟨h1, h2⟩ := ih (i + 1)
    have step : ∀ j, i + 1 ≤ j → (rest[j - (i + 1)]? = (t :: rest)[j - i]?) := by
      intro j hj
      have : j - i = (j - (i + 1)) + 1 := by omega
      rw [this, List.getElem?_cons_succ]
    cases t with
    | none =>
      refine ⟨fun j => ?_, h2⟩
      rw [nonNilFrom, h1]
      constructor
      · rintro ⟨hj, t, ht⟩
        exact ⟨by omega, t, by rw [← step j hj]; exact ht⟩
      · rintro ⟨hj, t, ht⟩
        have hne : j ≠ i := by
          intro e
          subst e
          simp at ht
        have hj' : i + 1 ≤ j := by omega
        exact ⟨hj', t, by rw [step j hj']; exact ht⟩
    | some t0 =>
      refine ⟨fun j => ?_, ?_⟩
      · rw [nonNilFrom, List.mem_cons, h1]
        constructor
        · rintro (h | ⟨hj, t, ht⟩)
          · subst h
            exact ⟨le_refl _, t0, by simp⟩
          · exact ⟨by omega, t, by rw [← step j hj]; exact ht⟩
        · rintro ⟨hj, t, ht⟩
          by_cases hji : j = i
          · exact Or.inl hji
          · have hj' : i + 1 ≤ j := by omega
            exact Or.inr ⟨hj', t, by rw [step j hj']; exact ht⟩
      · rw [nonNilFrom, List.pairwise_cons]
        exact ⟨fun j hj => nonNilFrom_ge rest (i + 1) j hj, h2⟩

/-- What the loop does: either it ends, having called every transaction that
is not nil, each successfully; or it returns a non-nil error after one failed
call, the last one, followed by one `Rollback`. -/
theorem execLoop_spec (db : DB σ) (txs : List (Option (Transaction K σ))) :
    ∀ (i : Nat) (ctx : K) (s : σ),
      Chained ctx (execLoop db txs i ctx s).2.2 ∧
      (((execLoop db txs i ctx s).1 = none ∧
          called (execLoop db txs i ctx s).2.2 = nonNilFrom i txs ∧
          failed (execLoop db txs i ctx s).2.2 = [] ∧
          rollbacks (execLoop db txs i ctx s).2.2 = 0 ∧
          commits (execLoop db txs i ctx s).2.2 = 0) ∨
        (∃ e j, (execLoop db txs i ctx s).1 = some (some e) ∧
          called (execLoop db txs i ctx s).2.2 <+: nonNilFrom i txs ∧
          (called (execLoop db txs i ctx s).2.2).getLast? = some j ∧
          failed (execLoop db txs i ctx s).2.2 = [j] ∧
          rollbacks (execLoop db txs i ctx s).2.2 = 1 ∧
          commits (execLoop db txs i ctx s).2.2 = 0)) := by
  induction txs with
  | nil =>
    intro i ctx s
    exact ⟨trivial, Or.inl ⟨rfl, rfl, rfl, rfl, rfl⟩⟩
  | cons t rest ih =>
    intro i ctx s
    cases t with
    | none => exact ih (i + 1) ctx s
    | some t =>
      rcases ht : t ctx s with ⟨⟨ctx1, err⟩, s1⟩
      cases err with
      | some err =>
        rcases hr : db.Rollback s1 with ⟨rerr, s2⟩
        cases rerr with
        | some rerr =>
          simp only [execLoop, ht, hr, nonNilFrom]
          refine ⟨⟨rfl, trivial⟩, Or.inr ⟨_, i, rfl, ?_, rfl, rfl, rfl, rfl⟩⟩
          simp [called]
        | none =>
          simp only [execLoop, ht, hr, nonNilFrom]
          refine ⟨⟨rfl, trivial⟩, Or.inr ⟨_, i, rfl, ?_, rfl, rfl, rfl, rfl⟩⟩
          simp [called]
      | none =>
        obtain ⟨hc, h⟩ := ih (i + 1) ctx1 s1
        simp only [execLoop, ht, nonNilFrom]
        refine ⟨⟨rfl, hc⟩, ?_⟩
        rcases h with ⟨h1, h2, h3, h4, h5⟩ | ⟨e, j, h1, h2, h3, h4, h5, h6⟩
        · left
          exact ⟨h1, by simp [called, h2], by simp [failed, h3], by simp [rollbacks, h4],
            by simp [commits, h5]⟩
        · right
          refine ⟨e, j, h1, by simp [called, h2], ?_, by simp [failed, h4],
            by simp [rollbacks, h5], by simp [commits, h6]⟩
          simp only [called]
          rw [List.getLast?_cons, h3]
          rfl

theorem execLoop_faithful (db : DB σ) (all : List (Option (Transaction K σ))) :
    ∀ (txs : List (Option (Transaction K σ))) (i : Nat) (ctx : K) (s : σ),
      (∀ k, txs[k]? = all[i + k]?) → Faithful all (execLoop db txs i ctx s).2.2 := by
  intro txs
  induction txs with
  | nil => intro i ctx s _; trivial
  | cons t rest ih =>
    intro i ctx s hall
    have hrest : ∀ k, rest[k]? = all[i + 1 + k]? := by
      intro k
      have := hall (k + 1)
      rw [List.getElem?_cons_succ] at this
      rw [this]
      congr 1
      omega
    have h0 : all[i]? = some t := by
      have := hall 0
      simpa using this.symm
    cases t with
    | none => exact ih (i + 1) ctx s hrest
    | some t =>
      rcases ht : t ctx s with ⟨⟨ctx1, err⟩, s1⟩
      have hcall : ∃ t' s', all[i]? = some (some t') ∧ (t' ctx s').1 = (ctx1, err) :=
        ⟨t, s, h0, by rw [ht]⟩
      cases err with
      | some err =>
        rcases hr : db.Rollback s1 with ⟨rerr, s2⟩
        cases rerr with
        | some rerr =>
          simp only [execLoop, ht, hr]
          exact ⟨hcall, trivial⟩
        | none =>
          simp only [execLoop, ht, hr]
          exact ⟨hcall, trivial⟩
      | none =>
        simp only [execLoop, ht]
        exact ⟨hcall, ih (i + 1) ctx1 s1 hrest⟩

theorem Wrap_ne_none (e message : GoString) : Wrap (some e) message ≠ none := by
  simp [Wrap]

theorem execLoop_ret_ne_none (db : DB σ) (txs : List (Option (Transaction K σ))) :
    ∀ (i : Nat) (ctx : K) (s : σ) (r : GoError),
      (execLoop db txs i ctx s).1 = some r → r ≠ none := by
  induction txs with
  | nil => intro i ctx s r h; simp [execLoop] at h
  | cons t rest ih =>
    intro i ctx s r h
    cases t with
    | none => exact ih (i + 1) ctx s r h
    | some t =>
      rcases ht : t ctx s with ⟨⟨ctx1, err⟩, s1⟩
      cases err with
      | some err =>
        rcases hr : db.Rollback s1 with ⟨rerr, s2⟩
        cases rerr with
        | some rerr =>
          simp only [execLoop, ht, hr, Option.some.injEq] at h
          rw [← h]
          exact Wrap_ne_none _ _
        | none =>
          simp only [execLoop, ht, hr, Option.some.injEq] at h
          rw [← h]
          exact Wrap_ne_none _ _
      | none =>
        simp only [execLoop, ht] at h
        exact ih (i + 1) ctx1 s1 r h

theorem le_getLast_of_pairwise {l : List Nat} (hp : l.Pairwise (· < ·)) {i : Nat}
    (hl : l.getLast? = some i) : ∀ j ∈ l, j ≤ i := by
  intro j hj
  obtain ⟨init, rfl⟩ : ∃ init, l = init ++ [i] := by
    rcases List.eq_nil_or_concat l with h | ⟨init, a, h⟩
    · subst h
      simp at hl
    · subst h
      rw [List.concat_eq_append, List.getLast?_append_of_ne_nil _ (by simp)] at hl
      simp only [List.getLast?_singleton, Option.some.injEq] at hl
      subst hl
      exact ⟨init, List.concat_eq_append _ _⟩
  rw [List.pairwise_append] at hp
  rw [List.mem_append, List.mem_singleton] at hj
  rcases hj with hj | hj
  · exact le_of_lt (hp.2.2 j hj i (List.mem_singleton.mpr rfl))
  · exact le_of_eq hj

theorem nonNilFrom_pairwise {T : Type} (i : Nat) (txs : List (Option T)) :
    (nonNilFrom i txs).Pairwise (· < ·) :=
  (nonNilFrom_spec txs i).2

theorem called_beginx (e : GoError) (l : List (Event K)) :
    called (Event.beginx e :: l) = called l := rfl

theorem failed_beginx (e : GoError) (l : List (Event K)) :
    failed (Event.beginx e :: l) = failed l := rfl

theorem rollbacks_beginx (e : GoError) (l : List (Event K)) :
    rollbacks (Event.beginx e :: l) = rollbacks l := rfl

theorem commits_beginx (e : GoError) (l : List (Event K)) :
    commits (Event.beginx e :: l) = commits l := rfl

theorem commitError_beginx (e : GoError) (l : List (Event K)) :
    commitError (Event.beginx e :: l) = commitError l := rfl

end Sqltx

/-! ## The claims about `jwt` and `sqltx` -/

namespace Jwt

/-- C16 (`StandardClaims.Valid`). `s.Valid(at)` is `ErrExpired` exactly when
`s.ExpiresAt` is set and `at` is after it; failing that it is `ErrNotBefore`
exactly when `s.NotBefore` is set and `at` is before it; failing both it is
nil. So empty claims are valid at every time, `at = ExpiresAt` and
`at = NotBefore` are valid instants, `ErrExpired` comes first when both tests
fail, and `ID`, `Issuer`, `Subject`, `Audience` and `IssuedAt` play no part.
`After` and `Before` are the strict order of instants. -/
theorem standard_claims_valid (s : StandardClaims) (at_ : Jwt.Time) :
    (s.Valid at_ = ErrExpired ↔ ∃ e, s.ExpiresAt = some e ∧ at_.Time.After e.Time = true) ∧
    (s.Valid at_ = ErrNotBefore ↔
      (¬ ∃ e, s.ExpiresAt = some e ∧ at_.Time.After e.Time = true) ∧
      ∃ n, s.NotBefore = some n ∧ at_.Time.Before n.Time = true) ∧
    (s.Valid at_ = none ↔
      (¬ ∃ e, s.ExpiresAt = some e ∧ at_.Time.After e.Time = true) ∧
      ¬ ∃ n, s.NotBefore = some n ∧ at_.Time.Before n.Time = true) ∧
    ({} : StandardClaims).Valid at_ = none ∧
    ({ ExpiresAt := some at_, NotBefore := some at_ } : StandardClaims).Valid at_ = none ∧
    (s.ExpiresAt = some at_ → s.Valid at_ ≠ ErrExpired) ∧
    (s.NotBefore = some at_ → s.Valid at_ ≠ ErrNotBefore) ∧
    (∀ (id iss sub aud : GoString) (iat : Option Jwt.Time),
      ({ s with ID := id, Issuer := iss, Subject := sub, Audience := aud, IssuedAt := iat }
        : StandardClaims).Valid at_ = s.Valid at_) ∧
    (∀ u : time.Time, at_.Time.nsec < 1000000000 → u.nsec < 1000000000 →
      ((at_.Time.After u = true ↔ instant u < instant at_.Time) ∧
        (at_.Time.Before u = true ↔ instant at_.Time < instant u))) := by
  obtain ⟨d1, d2, d3⟩ := errors_distinct
  have hE : s.ExpiresAt.any (fun e => at_.Time.After e.Time) = true ↔
      ∃ e, s.ExpiresAt = some e ∧ at_.Time.After e.Time = true := by
    cases s.ExpiresAt <;> simp [Option.any]
  have hN : s.NotBefore.any (fun n => at_.Time.Before n.Time) = true ↔
      ∃ n, s.NotBefore = some n ∧ at_.Time.Before n.Time = true := by
    cases s.NotBefore <;> simp [Option.any]
  have key : (s.Valid at_ = ErrExpired ↔
        ∃ e, s.ExpiresAt = some e ∧ at_.Time.After e.Time = true) ∧
      (s.Valid at_ = ErrNotBefore ↔
        (¬ ∃ e, s.ExpiresAt = some e ∧ at_.Time.After e.Time = true) ∧
        ∃ n, s.NotBefore = some n ∧ at_.Time.Before n.Time = true) ∧
      (s.Valid at_ = none ↔
        (¬ ∃ e, s.ExpiresAt = some e ∧ at_.Time.After e.Time = true) ∧
        ¬ ∃ n, s.NotBefore = some n ∧ at_.Time.Before n.Time = true) := by
    rw [← hE, ← hN]
    unfold StandardClaims.Valid
    by_cases h1 : s.ExpiresAt.any (fun e => at_.Time.After e.Time) = true
    · simp [h1, d1, d2]
    · by_cases h2 : s.NotBefore.any (fun n => at_.Time.Before n.Time) = true
      · simp [h1, h2, d1.symm, d3]
      · simp [h1, h2, Ne.symm d2, Ne.symm d3]
  refine ⟨key.1, key.2.1, key.2.2, rfl, ?_, ?_, ?_, fun _ _ _ _ _ => rfl, ?_⟩
  · simp [StandardClaims.Valid, Option.any, After_irrefl, Before_irrefl]
  · intro h hv
    obtain ⟨e, he, ha⟩ := key.1.mp hv
    rw [h] at he
    cases he
    rw [After_irrefl] at ha
    exact Bool.noConfusion ha
  · intro h hv
    obtain ⟨_, n, hn, hb⟩ := key.2.1.mp hv
    rw [h] at hn
    cases hn
    rw [Before_irrefl] at hb
    exact Bool.noConfusion hb
  · intro u h1 h2
    exact ⟨After_iff_instant _ _ h1 h2, Before_iff_instant _ _ h1 h2⟩

/-- C18 as stated fails. For the instant `time.Unix(1<<62, 0)` the product
`unixSec * 1000` of `UnixMilli` leaves `int64`, `MarshalJSON` of `NewTime(t)`
writes `0` instead of `4611686018427387904000`, and `UnmarshalJSON` of that
text is the Unix epoch, not `NewTime(t)`. And for the instant
`time.Unix(1700000000, 123456789).UTC()` the bytes are right, but
`UnmarshalJSON` leaves a time in the location `Local`, while `NewTime(t)` is in
UTC: the two are the same instant and are not equal. -/
theorem time_json_round_trip_counterexample :
    farFuture.nsec < 1000000000 ∧
    unixMillis farFuture = 4611686018427387904000 ∧
    (NewTime farFuture).MarshalJSON = ("0".toList, none) ∧
    (NewTime farFuture).MarshalJSON.1 ≠ strconv.FormatInt (unixMillis farFuture) ∧
    (Time.UnmarshalJSON { Time := { sec := 0, nsec := 0 } } (NewTime farFuture).MarshalJSON.1)
      = ({ Time := { sec := 0, nsec := 0 } }, none) ∧
    (Time.UnmarshalJSON { Time := { sec := 0, nsec := 0 } }
      (NewTime farFuture).MarshalJSON.1).1 ≠ NewTime farFuture ∧
    (NewTime sampleInstantUTC).MarshalJSON = ("1700000000123".toList, none) ∧
    (Time.UnmarshalJSON { Time := { sec := 0, nsec := 0 } }
      (NewTime sampleInstantUTC).MarshalJSON.1)
      = ({ Time := { sec := 1700000000, nsec := 123000000, loc := time.Location.Local } },
          none) ∧
    NewTime sampleInstantUTC
      = { Time := { sec := 1700000000, nsec := 123000000, loc := time.Location.UTC } } ∧
    (Time.UnmarshalJSON { Time := { sec := 0, nsec := 0 } }
      (NewTime sampleInstantUTC).MarshalJSON.1).1 ≠ NewTime sampleInstantUTC := by
  decide

/-- C18 as amended (JSON round trip of `Time`). For a time `t` whose whole
number of milliseconds since the Unix epoch, rounded down, is an `int64`,
`MarshalJSON` of `NewTime(t)` writes that number in decimal, a JSON number
literal that `ParseInt` reads back, with a nil error; `UnmarshalJSON` of these
bytes returns a nil error and leaves the instant of `NewTime(t)` in the
location `Local`; so it leaves a `Time` equal to `NewTime(t)` when `t` is in
the location `Local`, as the values of `time.Now` and `time.Unix` are. -/
theorem time_json_round_trip (t : time.Time) (hnsec : t.nsec < 1000000000)
    (hlo : -(2 : Int) ^ 63 ≤ unixMillis t) (hhi : unixMillis t < 2 ^ 63) :
    (NewTime t).MarshalJSON = (strconv.FormatInt (unixMillis t), none) ∧
    json.isValidNumber (strconv.FormatInt (unixMillis t)) = true ∧
    strconv.ParseInt (strconv.FormatInt (unixMillis t)) = some (unixMillis t) ∧
    (∀ t0 : Jwt.Time, t0.UnmarshalJSON (NewTime t).MarshalJSON.1
      = ({ Time := { (NewTime t).Time with loc := time.Location.Local } }, none)) ∧
    (t.loc = time.Location.Local →
      ∀ t0 : Jwt.Time, t0.UnmarshalJSON (NewTime t).MarshalJSON.1 = (NewTime t, none)) := by
  have hm := MarshalJSON_NewTime t hnsec hlo hhi
  have hu : ∀ t0 : Jwt.Time, t0.UnmarshalJSON (NewTime t).MarshalJSON.1
      = ({ Time := { (NewTime t).Time with loc := time.Location.Local } }, none) := by
    intro t0
    rw [hm]
    simp only
    rw [UnmarshalJSON_FormatInt t0 _ hlo hhi, NewTime_eq t hnsec, unixMillis_eq,
      time.UnixMilli_of_parts t.sec (t.nsec / 1000000) (by omega)]
    have e : t.nsec / 1000000 * 1000000 = t.nsec - t.nsec % 1000000 := by omega
    rw [e]
  refine ⟨hm, (json.FormatInt_valid _ hlo hhi).1, strconv.ParseInt_FormatInt _ hlo hhi, hu, ?_⟩
  intro hloc t0
  rw [hu t0, NewTime_eq t hnsec, hloc]

/-- The time `time.Unix(1700000000, 123456789)`, in the location `Local`, is
written as `1700000000123` and read back as `time.Unix(1700000000,
123000000)`, which is `NewTime` of it. -/
theorem time_json_round_trip_witness :
    sampleInstant.nsec < 1000000000 ∧
    sampleInstant.loc = time.Location.Local ∧
    (NewTime sampleInstant).MarshalJSON = ("1700000000123".toList, none) ∧
    (∀ t0 : Jwt.Time, t0.UnmarshalJSON (NewTime sampleInstant).MarshalJSON.1
      = (NewTime sampleInstant, none)) ∧
    NewTime sampleInstant
      = { Time := { sec := 1700000000, nsec := 123000000, loc := time.Location.Local } } :=
  ⟨by decide, by decide, by decide,
    (time_json_round_trip sampleInstant (by decide) (by decide) (by decide)).2.2.2.2
      (by decide),
    by decide⟩

end Jwt

namespace Sqltx

variable {K σ : Type}

/-- C19 as stated fails: when `db.Beginx()` returns an error, `ExecTransactions`
returns at once. With one transaction that is not nil and succeeds whenever it
is called, no transaction is executed and `Commit` is not called. -/
theorem exec_transactions_counterexample :
    (∀ ctx s, (demoInsert ctx s).1.2 = none) ∧
    nonNilFrom 0 [some demoInsert] = [0] ∧
    (ExecTransactions 0 downDB [some demoInsert] 0).events
      = [Event.beginx (some "connection refused".toList)] ∧
    called (ExecTransactions 0 downDB [some demoInsert] 0).events = [] ∧
    failed (ExecTransactions 0 downDB [some demoInsert] 0).events = [] ∧
    commits (ExecTransactions 0 downDB [some demoInsert] 0).events = 0 ∧
    (ExecTransactions 0 downDB [some demoInsert] 0).err
      = some "begin transaction: connection refused".toList :=
  ⟨fun _ _ => rfl, by decide, by decide, by decide, by decide, by decide, by decide⟩

/-- C19 as amended (`ExecTransactions` is all-or-nothing and ordered). When
`db.Beginx()` succeeds: the transactions called are, in the order of the slice,
transactions that are not nil, each called on the context the call before it
returned, the first on `ctx`; if the call of transaction `i` returns an error
it is the only failed call and the last call, no transaction of a greater index
is called, `Rollback` is called once, `Commit` is not called and the error
returned is not nil; if no call returns an error, every transaction that is not
nil is called, `Commit` is called once, `Rollback` is not called and the error
returned is nil exactly when that of `Commit` is. -/
theorem exec_transactions_all_or_nothing (ctx : K) (db : DB σ)
    (transactions : List (Option (Transaction K σ))) (s : σ)
    (hbegin : (db.Beginx s).1 = none) :
    called (ExecTransactions ctx db transactions s).events <+: nonNilFrom 0 transactions ∧
    Chained ctx (ExecTransactions ctx db transactions s).events ∧
    Faithful transactions (ExecTransactions ctx db transactions s).events ∧
    (∀ i ∈ failed (ExecTransactions ctx db transactions s).events,
      failed (ExecTransactions ctx db transactions s).events = [i] ∧
      (called (ExecTransactions ctx db transactions s).events).getLast? = some i ∧
      (∀ j ∈ called (ExecTransactions ctx db transactions s).events, j ≤ i) ∧
      rollbacks (ExecTransactions ctx db transactions s).events = 1 ∧
      commits (ExecTransactions ctx db transactions s).events = 0 ∧
      (ExecTransactions ctx db transactions s).err ≠ none) ∧
    (failed (ExecTransactions ctx db transactions s).events = [] →
      called (ExecTransactions ctx db transactions s).events = nonNilFrom 0 transactions ∧
      commits (ExecTransactions ctx db transactions s).events = 1 ∧
      rollbacks (ExecTransactions ctx db transactions s).events = 0 ∧
      ∃ e, commitError (ExecTransactions ctx db transactions s).events = some e ∧
        ((ExecTransactions ctx db transactions s).err = none ↔ e = none)) := by
  rcases hb : db.Beginx s with ⟨be, s1⟩
  rw [hb] at hbegin
  simp only at hbegin
  subst hbegin
  obtain ⟨hch, hspec⟩ := execLoop_spec db transactions 0 ctx s1
  have hfa := execLoop_faithful db transactions transactions 0 ctx s1 (fun k => by simp)
  have hne := execLoop_ret_ne_none db transactions 0 ctx s1
  rcases hl : execLoop db transactions 0 ctx s1 with ⟨ret, s2, evs⟩
  rw [hl] at hch hspec hfa hne
  simp only at hch hspec hfa hne
  rcases hspec with ⟨h1, h2, h3, h4, h5⟩ | ⟨e, j, h1, h2, h3, h4, h5, h6⟩
  · subst h1
    have hshape : ∃ ce s3, db.Commit s2 = (ce, s3) ∧
        (ExecTransactions ctx db transactions s).events
          = Event.beginx none :: (evs ++ [Event.commit ce]) ∧
        ((ExecTransactions ctx db transactions s).err = none ↔ ce = none) := by
      rcases hc : db.Commit s2 with ⟨ce, s3⟩
      refine ⟨ce, s3, rfl, ?_, ?_⟩
      · cases ce <;> simp [ExecTransactions, hb, hl, hc]
      · cases ce <;> simp [ExecTransactions, hb, hl, hc, Wrap]
    obtain ⟨ce, s3, _, hev, herr⟩ := hshape
    rw [hev]
    simp only [called_beginx, failed_beginx, rollbacks_beginx, commits_beginx,
      commitError_beginx, called_append, failed_append, rollbacks_append, commits_append,
      commitError_append_commit, h2, h3, h4, h5]
    refine ⟨by simp [called], ?_, ?_, ?_, ?_⟩
    · exact Chained_append_other evs [Event.commit ce] rfl ctx hch
    · exact Faithful_append_other transactions evs [Event.commit ce] rfl hfa
    · intro i hi
      simp [failed] at hi
    · intro _
      exact ⟨by simp [called], by simp [commits], by simp [rollbacks], ce, rfl, herr⟩
  · subst h1
    have hev : (ExecTransactions ctx db transactions s).events = Event.beginx none :: evs := by
      simp [ExecTransactions, hb, hl]
    have herr : (ExecTransactions ctx db transactions s).err = some e := by
      simp [ExecTransactions, hb, hl]
    rw [hev, herr]
    simp only [called_beginx, failed_beginx, rollbacks_beginx, commits_beginx,
      commitError_beginx, h4, h5, h6]
    refine ⟨h2, hch, hfa, ?_, ?_⟩
    · intro i hi
      rw [List.mem_singleton] at hi
      subst hi
      refine ⟨rfl, h3, ?_, trivial, trivial, by simp⟩
      exact le_getLast_of_pairwise
        (List.Pairwise.sublist h2.sublist (nonNilFrom_pairwise 0 transactions)) h3
    · intro h
      simp at h

/-- On `demoBatch` the first transaction is executed, the nil one is skipped,
the third fails and is rolled back, and the fourth is not called; on
`demoBatchOk` both transactions are executed and committed. -/
theorem exec_transactions_all_or_nothing_witness :
    (demoDB.Beginx 0).1 = none ∧
    (ExecTransactions 0 demoDB demoBatch 0).events
      = [Event.beginx none, Event.call 0 0 1 none,
          Event.call 2 1 1 (some "duplicate key".toList), Event.rollback none] ∧
    (ExecTransactions 0 demoDB demoBatch 0).err
      = some "evaluating transactions[2]: duplicate key".toList ∧
    (∀ i ∈ failed (ExecTransactions 0 demoDB demoBatch 0).events,
      rollbacks (ExecTransactions 0 demoDB demoBatch 0).events = 1 ∧
      commits (ExecTransactions 0 demoDB demoBatch 0).events = 0) ∧
    (ExecTransactions 0 demoDB demoBatchOk 0).events
      = [Event.beginx none, Event.call 0 0 1 none, Event.call 2 1 2 none,
          Event.commit none] ∧
    (ExecTransactions 0 demoDB demoBatchOk 0).err = none ∧
    (ExecTransactions 0 demoDB demoBatchOk 0).state = 2 :=
  ⟨rfl, by decide, by decide,
    fun i hi =>
      ⟨((exec_transactions_all_or_nothing 0 demoDB demoBatch 0 rfl).2.2.2.1 i hi).2.2.2.1,
        ((exec_transactions_all_or_nothing 0 demoDB demoBatch 0 rfl).2.2.2.1 i hi).2.2.2.2.1⟩,
    by decide, by decide, by decide⟩

end Sqltx

namespace strings

theorem cut_eq_none {sep : Char} {s : GoString} (h : cut sep s = none) : s.count sep = 0 := by
  induction s with
  | nil => rfl
  | cons c cs ih =>
    unfold cut at h
    by_cases hc : c = sep
    · simp [hc] at h
    · rw [if_neg hc] at h
      cases hcut : cut sep cs with
      | none =>
        have hne : ¬ (c == sep) = true := by simpa using hc
        rw [List.count_cons, ih hcut, if_neg hne]
      | some p => simp [hcut] at h

theorem cut_eq_some {sep : Char} {s a b : GoString} (h : cut sep s = some (a, b)) :
    s.count sep = b.count sep + 1 ∧ s = a ++ sep :: b ∧ sep ∉ a := by
  induction s generalizing a with
  | nil => simp [cut] at h
  | cons c cs ih =>
    unfold cut at h
    by_cases hc : c = sep
    · rw [if_pos hc] at h
      simp only [Option.some.injEq, Prod.mk.injEq] at h
      obtain ⟨rfl, rfl⟩ := h
      subst hc
      simp
    · rw [if_neg hc] at h
      cases hcut : cut sep cs with
      | none => simp [hcut] at h
      | some p =>
        obtain ⟨a', b'⟩ := p
        simp only [hcut, Option.some.injEq, Prod.mk.injEq] at h
        obtain ⟨rfl, rfl⟩ := h
        obtain ⟨h1, h2, h3⟩ := ih hcut
        have hne : ¬ (c == sep) = true := by simpa using hc
        refine ⟨by rw [List.count_cons, h1, if_neg hne], by rw [h2]; rfl, ?_⟩
        intro hm
        rcases List.mem_cons.1 hm with e | e
        · exact hc e.symm
        · exact h3 e

/-- The number of pieces is one more than the number of separators, up to the
limit. -/
theorem splitUpTo_length (sep : Char) :
    ∀ (k : Nat) (s : GoString), (splitUpTo sep k s).length = min k (s.count sep) + 1 := by
  intro k
  induction k with
  | zero => intro s; simp [splitUpTo]
  | succ k ih =>
    intro s
    unfold splitUpTo
    cases hcut : cut sep s with
    | none => simp [cut_eq_none hcut]
    | some p =>
      obtain ⟨a, b⟩ := p
      simp only [List.length_cons, ih b, (cut_eq_some hcut).1]
      omega

theorem SplitN_length (s : GoString) (sep : Char) :
    (SplitN s sep 3).length = min 2 (s.count sep) + 1 := by
  simp [SplitN, splitUpTo_length]

end strings

namespace Jwt

set_option maxRecDepth 100000 in
/-- The tampered token is refused by the verifier, and the destination keeps
its claims. -/
theorem tamperedToken_refused :
    DecodeToken sampleLib demoSelector tamperedToken previousClaims
      = { ret := Outcome.returned (some "bad signature: verifying signature".toList),
          claims := previousClaims, selected := [("REV".toList, "k1".toList)] } ∧
    DecodeToken sampleLib demoSelector "abc.def".toList previousClaims
      = { ret := Outcome.returned ErrInvalidFormat, claims := previousClaims,
          selected := [] } := by
  constructor <;> decide

end Jwt

namespace Jwt

/-- C24 (`DecodeToken` verifies before it trusts). A token with fewer than two
dots, hence fewer than three parts, makes `DecodeToken` return
`ErrInvalidFormat`. For a token of three parts, if the header cannot be
decoded, or the signature cannot be decoded, or the selector returns an error,
or the verifier it returns rejects the bytes `header + "." + payload`,
`DecodeToken` returns an error that is not nil. In all these cases the claims
destination is left as it was; it differs after the call only if the verifier
accepted the signature. -/
theorem decode_verifies_first {A C : Type} (L : Lib A C) (selector : VerifierSelector)
    (token : GoString) (claims : C) :
    (token.count '.' < 2 →
      DecodeToken L selector token claims
        = { ret := Outcome.returned ErrInvalidFormat, claims := claims, selected := [] }) ∧
    ErrInvalidFormat ≠ none ∧
    (∀ part0 part1 part2, strings.SplitN token '.' 3 = [part0, part1, part2] →
      ((L.decodeHeader part0 none).2 ≠ none ∨
        (L.b64DecodeString part2).2 ≠ none ∨
        (selector ((L.decodeHeader part0 none).1.stringAt "alg".toList)
          ((L.decodeHeader part0 none).1.stringAt "kid".toList)).2 ≠ none ∨
        (∃ v, (selector ((L.decodeHeader part0 none).1.stringAt "alg".toList)
            ((L.decodeHeader part0 none).1.stringAt "kid".toList)).1 = some v ∧
          v.Verify (part0 ++ '.' :: part1) (L.b64DecodeString part2).1 ≠ none)) →
      (∃ e, (DecodeToken L selector token claims).ret = Outcome.returned (some e)) ∧
        (DecodeToken L selector token claims).claims = claims) ∧
    ((DecodeToken L selector token claims).claims ≠ claims →
      ∃ part0 part1 part2 v, strings.SplitN token '.' 3 = [part0, part1, part2] ∧
        (L.decodeHeader part0 none).2 = none ∧ (L.b64DecodeString part2).2 = none ∧
        selector ((L.decodeHeader part0 none).1.stringAt "alg".toList)
          ((L.decodeHeader part0 none).1.stringAt "kid".toList) = (some v, none) ∧
        v.Verify (part0 ++ '.' :: part1) (L.b64DecodeString part2).1 = none) := by
  refine ⟨?_, by decide, ?_, ?_⟩
  · intro hcount
    have hlen := strings.SplitN_length token '.'
    unfold DecodeToken
    split
    · rename_i p0 p1 p2 hs
      rw [hs] at hlen
      simp only [List.length_cons, List.length_nil] at hlen
      omega
    · rfl
  · intro p0 p1 p2 hs hcase
    unfold DecodeToken
    rw [hs]
    simp only [b64URLEncodeToJSON]
    rcases hh : L.decodeHeader p0 none with ⟨header, herr⟩
    rw [hh] at hcase
    simp only at hcase
    cases herr with
    | some e => exact ⟨⟨_, rfl⟩, rfl⟩
    | none =>
      simp only
      rcases hsg : L.b64DecodeString p2 with ⟨sig, serr⟩
      rw [hsg] at hcase
      simp only at hcase
      cases serr with
      | some e => exact ⟨⟨_, rfl⟩, rfl⟩
      | none =>
        simp only
        rcases hsel : selector (Header.stringAt header "alg".toList)
          (Header.stringAt header "kid".toList) with ⟨ver, verr⟩
        rw [hsel] at hcase
        simp only at hcase
        cases ver with
        | none =>
          cases verr with
          | some e => exact ⟨⟨_, rfl⟩, rfl⟩
          | none =>
            rcases hcase with h | h | h | ⟨v, hv, -⟩
            · exact absurd rfl h
            · exact absurd rfl h
            · exact absurd rfl h
            · cases hv
        | some v =>
          cases verr with
          | some e => exact ⟨⟨_, rfl⟩, rfl⟩
          | none =>
            simp only
            cases hver : v.Verify (p0 ++ '.' :: p1) sig with
            | some e => exact ⟨⟨_, rfl⟩, rfl⟩
            | none =>
              rcases hcase with h | h | h | ⟨v', hv', hrej⟩
              · exact absurd rfl h
              · exact absurd rfl h
              · exact absurd rfl h
              · simp only [Option.some.injEq] at hv'
                subst hv'
                exact absurd hver hrej
  · intro hne
    unfold DecodeToken at hne
    split at hne
    · rename_i p0 p1 p2 hs
      simp only [b64URLEncodeToJSON] at hne
      rcases hh : L.decodeHeader p0 none with ⟨header, herr⟩
      rw [hh] at hne
      cases herr with
      | some e => exact absurd rfl hne
      | none =>
        simp only at hne
        rcases hsg : L.b64DecodeString p2 with ⟨sig, serr⟩
        rw [hsg] at hne
        cases serr with
        | some e => exact absurd rfl hne
        | none =>
          simp only at hne
          rcases hsel : selector (Header.stringAt header "alg".toList)
            (Header.stringAt header "kid".toList) with ⟨ver, verr⟩
          rw [hsel] at hne
          cases ver with
          | none =>
            cases verr with
            | some e => exact absurd rfl hne
            | none => exact absurd rfl hne
          | some v =>
            cases verr with
            | some e => exact absurd rfl hne
            | none =>
              simp only at hne
              cases hver : v.Verify (p0 ++ '.' :: p1) sig with
              | some e =>
                rw [hver] at hne
                exact absurd rfl hne
              | none =>
                refine ⟨p0, p1, p2, v, hs, ?_, ?_, ?_, ?_⟩
                · rw [hh]
                · rw [hsg]
                · rw [hh]; exact hsel
                · rw [hsg]; exact hver
    · exact absurd rfl hne

end Jwt

/-! ## Facts about the library of Go and the round trip of a token -/

namespace utf8

theorem toNat_ofNat_of_lt {n : Nat} (h : n < 0xD800) : (Char.ofNat n).toNat = n := by
  have hv : n.isValidChar := Or.inl h
  unfold Char.ofNat
  rw [dif_pos hv]
  simp [Char.ofNatAux, Char.toNat, UInt32.toNat]

theorem toNat_valid (c : Char) :
    c.toNat < 0xD800 ∨ (0xDFFF < c.toNat ∧ c.toNat < 0x110000) := c.valid

theorem encodeRune_ne_nil (c : Char) : encodeRune c ≠ [] := by
  unfold encodeRune
  split
  · simp
  · split
    · simp
    · split <;> simp

/-- The bytes of a character are bytes. -/
theorem encodeRune_bytes (c : Char) : ∀ b ∈ encodeRune c, b.toNat < 256 := by
  have hv := toNat_valid c
  unfold encodeRune
  intro b hb
  split at hb
  · simp only [List.mem_singleton] at hb
    subst hb
    omega
  · split at hb
    · simp only [List.mem_cons, List.mem_singleton, List.not_mem_nil, or_false] at hb
      rcases hb with rfl | rfl <;> rw [toNat_ofNat_of_lt (by omega)] <;> omega
    · split at hb
      · simp only [List.mem_cons, List.mem_singleton, List.not_mem_nil, or_false] at hb
        rcases hb with rfl | rfl | rfl <;> rw [toNat_ofNat_of_lt (by omega)] <;> omega
      · simp only [List.mem_cons, List.mem_singleton, List.not_mem_nil, or_false] at hb
        rcases hb with rfl | rfl | rfl | rfl <;> rw [toNat_ofNat_of_lt (by omega)] <;> omega

theorem encode_bytes (s : GoString) : ∀ b ∈ encode s, b.toNat < 256 := by
  intro b hb
  unfold encode at hb
  rw [List.mem_flatten] at hb
  obtain ⟨l, hl, hbl⟩ := hb
  rw [List.mem_map] at hl
  obtain ⟨c, -, rfl⟩ := hl
  exact encodeRune_bytes c b hbl

theorem encode_cons (c : Char) (s : GoString) : encode (c :: s) = encodeRune c ++ encode s := by
  simp [encode]

theorem encode_append (a b : GoString) : encode (a ++ b) = encode a ++ encode b := by
  simp [encode]

/-- `DecodeRune` reads back the bytes of a character. -/
theorem DecodeRune_encodeRune (c : Char) (r : GoString) :
    DecodeRune (encodeRune c ++ r) = (c, (encodeRune c).length) := by
  have hv := toNat_valid c
  unfold encodeRune
  by_cases h1 : c.toNat < 0x80
  · simp [h1, DecodeRune]
  · rw [if_neg h1]
    by_cases h2 : c.toNat < 0x800
    · rw [if_pos h2]
      have e0 := toNat_ofNat_of_lt (n := 0xC0 + c.toNat / 64) (by omega)
      have e1 := toNat_ofNat_of_lt (n := 0x80 + c.toNat % 64) (by omega)
      simp only [DecodeRune, List.cons_append, List.nil_append, e0, e1, inRange]
      rw [if_neg (by omega), if_pos (by simp; omega), if_pos (by simp; omega)]
      have : (0xC0 + c.toNat / 64 - 0xC0) * 64 + (0x80 + c.toNat % 64 - 0x80) = c.toNat := by
        omega
      rw [this, Char.ofNat_toNat]
      rfl
    · rw [if_neg h2]
      by_cases h3 : c.toNat < 0x10000
      · rw [if_pos h3]
        have e0 := toNat_ofNat_of_lt (n := 0xE0 + c.toNat / 4096) (by omega)
        have e1 := toNat_ofNat_of_lt (n := 0x80 + c.toNat / 64 % 64) (by omega)
        have e2 := toNat_ofNat_of_lt (n := 0x80 + c.toNat % 64) (by omega)
        simp only [DecodeRune, List.cons_append, List.nil_append, e0, e1, e2, inRange]
        rw [if_neg (by omega), if_neg (by simp; omega), if_pos (by simp; omega)]
        rw [if_pos]
        · have : (0xE0 + c.toNat / 4096 - 0xE0) * 4096 + (0x80 + c.toNat / 64 % 64 - 0x80) * 64
              + (0x80 + c.toNat % 64 - 0x80) = c.toNat := by omega
          rw [this, Char.ofNat_toNat]
          rfl
        · simp only [Bool.and_eq_true, decide_eq_true_eq]
          refine ⟨⟨?_, ?_⟩, by omega, by omega⟩
          · split <;> omega
          · split <;> omega
      · rw [if_neg h3]
        have e0 := toNat_ofNat_of_lt (n := 0xF0 + c.toNat / 262144) (by omega)
        have e1 := toNat_ofNat_of_lt (n := 0x80 + c.toNat / 4096 % 64) (by omega)
        have e2 := toNat_ofNat_of_lt (n := 0x80 + c.toNat / 64 % 64) (by omega)
        have e3 := toNat_ofNat_of_lt (n := 0x80 + c.toNat % 64) (by omega)
        simp only [DecodeRune, List.cons_append, List.nil_append, e0, e1, e2, e3, inRange]
        rw [if_neg (by omega), if_neg (by simp; omega), if_neg (by simp; omega),
          if_pos (by simp; omega)]
        rw [if_pos]
        · have : (0xF0 + c.toNat / 262144 - 0xF0) * 262144
              + (0x80 + c.toNat / 4096 % 64 - 0x80) * 4096
              + (0x80 + c.toNat / 64 % 64 - 0x80) * 64
              + (0x80 + c.toNat % 64 - 0x80) = c.toNat := by omega
          rw [this, Char.ofNat_toNat]
          rfl
        · simp only [Bool.and_eq_true, decide_eq_true_eq]
          refine ⟨⟨⟨?_, ?_⟩, by omega, by omega⟩, by omega, by omega⟩
          · split <;> omega
          · split <;> omega

theorem decodeRunes_encode (s : GoString) :
    ∀ fuel, s.length ≤ fuel → decodeRunes fuel (encode s) = s := by
  induction s with
  | nil =>
    intro fuel _
    cases fuel <;> simp [decodeRunes, encode]
  | cons c s ih =>
    intro fuel hf
    cases fuel with
    | zero => simp at hf
    | succ fuel =>
      rw [encode_cons]
      unfold decodeRunes
      rw [if_neg (by simp [encodeRune_ne_nil]), DecodeRune_encodeRune]
      simp only [List.drop_left]
      rw [ih fuel (by simpa using hf)]

theorem length_le_encode (s : GoString) : s.length ≤ (encode s).length := by
  induction s with
  | nil => simp
  | cons c s ih =>
    rw [encode_cons, List.length_append, List.length_cons]
    have := encodeRune_ne_nil c
    have : 0 < (encodeRune c).length := List.length_pos.mpr this
    omega

/-- The characters of the bytes of a string are the string. -/
theorem decode_encode (s : GoString) : decode (encode s) = s :=
  decodeRunes_encode s _ (length_le_encode s)

end utf8

namespace base64

open Jwt (b64Raw b64Bits b64Char b64Alphabet)

theorem b64Bits_b64Char (n : Nat) (h : n < 64) : b64Bits (b64Char n) = some n := by
  interval_cases n <;> decide

theorem b64Char_plain (n : Nat) :
    b64Char n ≠ '.' ∧ b64Char n ≠ '\r' ∧ b64Char n ≠ '\n' := by
  by_cases h : n < 64
  · interval_cases n <;> decide
  · have : b64Char n = 'A' := by
      unfold b64Char
      rw [List.getD_eq_default]
      simpa [b64Alphabet] using h
    rw [this]
    decide

/-- Every character that base 64 writes is plain: no dot, no line break. -/
theorem three_step {P : GoString → Prop} (h0 : P []) (h1 : ∀ a, P [a]) (h2 : ∀ a b, P [a, b])
    (h3 : ∀ a b c rest, P rest → P (a :: b :: c :: rest)) : ∀ bs, P bs := by
  have key : ∀ n, ∀ bs : GoString, bs.length ≤ n → P bs := by
    intro n
    induction n using Nat.strong_induction_on with
    | _ n ih =>
      intro bs hl
      match bs, hl with
      | [], _ => exact h0
      | [a], _ => exact h1 a
      | [a, b], _ => exact h2 a b
      | a :: b :: c :: rest, hl =>
        simp only [List.length_cons] at hl
        exact h3 a b c rest (ih rest.length (by omega) rest (le_refl _))
  exact fun bs => key bs.length bs (le_refl _)

theorem b64Raw_plain (bs : GoString) :
    ∀ c ∈ b64Raw bs, c ≠ '.' ∧ c ≠ '\r' ∧ c ≠ '\n' := by
  induction bs using three_step with
  | h3 a b c rest ih =>
    intro ch hch
    simp only [b64Raw, List.mem_cons] at hch
    rcases hch with rfl | rfl | rfl | rfl | h
    · exact b64Char_plain _
    · exact b64Char_plain _
    · exact b64Char_plain _
    · exact b64Char_plain _
    · exact ih ch h
  | h2 a b =>
    intro ch hch
    simp only [b64Raw, List.mem_cons, List.mem_singleton, List.not_mem_nil, or_false] at hch
    rcases hch with rfl | rfl | rfl <;> exact b64Char_plain _
  | h1 a =>
    intro ch hch
    simp only [b64Raw, List.mem_cons, List.mem_singleton, List.not_mem_nil, or_false] at hch
    rcases hch with rfl | rfl <;> exact b64Char_plain _
  | h0 =>
    intro ch hch
    simp [b64Raw] at hch

theorem ofNat_toNat_byte (a : Char) {n : Nat} (h : n = a.toNat) : Char.ofNat n = a := by
  rw [h, Char.ofNat_toNat]

/-- The decoding loop reads back what base 64 writes for bytes. -/
theorem decodeQuanta_b64Raw (bs : GoString) (hb : ∀ b ∈ bs, b.toNat < 256) :
    decodeQuanta (b64Raw bs) = (bs, false) := by
  induction bs using three_step with
  | h3 a b c rest ih =>
    have ha := hb a (by simp)
    have hb' := hb b (by simp)
    have hc := hb c (by simp)
    generalize hx' : a.toNat % 256 * 65536 + b.toNat % 256 * 256 + c.toNat % 256 = x
    have hx : x = a.toNat * 65536 + b.toNat * 256 + c.toNat := by
      rw [← hx']
      omega
    have ih' := ih (fun y hy => hb y (by simp [hy]))
    simp only [b64Raw, decodeQuanta, hx']
    rw [b64Bits_b64Char _ (by omega), b64Bits_b64Char _ (by omega),
      b64Bits_b64Char _ (by omega), b64Bits_b64Char _ (by omega)]
    simp only [ih']
    have e : x / 262144 * 262144 + x / 4096 % 64 * 4096 + x / 64 % 64 * 64 + x % 64 = x := by
      omega
    simp only [e]
    rw [ofNat_toNat_byte a (by omega), ofNat_toNat_byte b (by omega),
      ofNat_toNat_byte c (by omega)]
  | h2 a b =>
    have ha := hb a (by simp)
    have hb' := hb b (by simp)
    generalize hx' : a.toNat % 256 * 1024 + b.toNat % 256 * 4 = x
    have hx : x = a.toNat * 1024 + b.toNat * 4 := by
      rw [← hx']
      omega
    simp only [b64Raw, decodeQuanta, hx']
    rw [b64Bits_b64Char _ (by omega), b64Bits_b64Char _ (by omega),
      b64Bits_b64Char _ (by omega)]
    simp only
    have e : x / 4096 * 4096 + x / 64 % 64 * 64 + x % 64 = x := by omega
    rw [e, ofNat_toNat_byte a (by omega), ofNat_toNat_byte b (by omega)]
  | h1 a =>
    have ha := hb a (by simp)
    generalize hx' : a.toNat % 256 * 16 = x
    have hx : x = a.toNat * 16 := by
      rw [← hx']
      omega
    simp only [b64Raw, decodeQuanta, hx']
    rw [b64Bits_b64Char _ (by omega), b64Bits_b64Char _ (by omega)]
    simp only
    have e : x / 64 * 64 + x % 64 = x := by omega
    rw [e, ofNat_toNat_byte a (by omega)]
  | h0 => simp [b64Raw, decodeQuanta]

/-- Go `DecodeString(EncodeToString(b)) = b`. -/
theorem DecodeString_EncodeToString (bs : GoString) (hb : ∀ b ∈ bs, b.toNat < 256) :
    DecodeString (EncodeToString bs) = (bs, none) := by
  unfold DecodeString EncodeToString
  have hf : (b64Raw bs).filter (fun c => c != '\r' && c != '\n') = b64Raw bs := by
    rw [List.filter_eq_self]
    intro c hc
    obtain ⟨-, h1, h2⟩ := b64Raw_plain bs c hc
    simp [h1, h2]
  simp only [hf, decodeQuanta_b64Raw bs hb]
  rfl

theorem EncodeToString_no_dot (bs : GoString) : '.' ∉ EncodeToString bs := by
  intro h
  exact (b64Raw_plain bs _ h).1 rfl

end base64

namespace json

theorem hexVal_hexDigit (n : Nat) (h : n < 16) : hexVal (hexDigit n) = some n := by
  interval_cases n <;> decide

theorem quoteRune_ne_nil (c : Char) : quoteRune c ≠ [] := by
  unfold quoteRune
  repeat' split
  all_goals simp

theorem quoteBody_cons (c : Char) (s : GoString) :
    quoteBody (c :: s) = quoteRune c ++ quoteBody s := by
  simp [quoteBody]

theorem quoteBody_nil : quoteBody [] = [] := rfl

theorem length_le_quoteBody (s : GoString) : s.length ≤ (quoteBody s).length := by
  induction s with
  | nil => simp [quoteBody]
  | cons c s ih =>
    rw [quoteBody_cons, List.length_append, List.length_cons]
    have : 0 < (quoteRune c).length := List.length_pos.mpr (quoteRune_ne_nil c)
    omega

theorem escapedRune_plain {rr : Nat} (h : rr < 0xD800 ∨ 0xE000 ≤ rr) (rest : GoString) :
    escapedRune rr rest = (Char.ofNat rr, rest) := by
  unfold escapedRune
  rw [if_neg (by omega)]

/-- One step of `unquote` reads back what `appendString` writes for one
character. -/
theorem unquoteBody_quoteRune (c : Char) (rest : GoString) (fuel : Nat) :
    unquoteBody (fuel + 1) (quoteRune c ++ rest) = (unquoteBody fuel rest).map (fun s => c :: s) := by
  unfold quoteRune
  by_cases h1 : c = '\x22' ∨ c = '\\'
  · rw [if_pos h1]
    rcases h1 with rfl | rfl <;> simp [unquoteBody]
  · rw [if_neg h1]
    push_neg at h1
    by_cases h2 : c = Char.ofNat 8
    · subst h2
      rw [if_pos rfl]
      simp [unquoteBody]
    · rw [if_neg h2]
      by_cases h3 : c = Char.ofNat 12
      · subst h3
        rw [if_pos rfl]
        simp [unquoteBody]
      · rw [if_neg h3]
        by_cases h4 : c = '\n'
        · subst h4
          rw [if_pos rfl]
          simp [unquoteBody]
        · rw [if_neg h4]
          by_cases h5 : c = '\r'
          · subst h5
            rw [if_pos rfl]
            simp [unquoteBody]
          · rw [if_neg h5]
            by_cases h6 : c = '\t'
            · subst h6
              rw [if_pos rfl]
              simp [unquoteBody]
            · rw [if_neg h6]
              by_cases h7 : c.toNat < 32 ∨ c = '<' ∨ c = '>' ∨ c = '&'
              · rw [if_pos h7]
                have hlt : c.toNat < 256 := by
                  rcases h7 with h | rfl | rfl | rfl
                  · omega
                  · decide
                  · decide
                  · decide
                have hg : getu4 '0' '0' (hexDigit (c.toNat / 16)) (hexDigit (c.toNat % 16))
                    = some c.toNat := by
                  unfold getu4
                  rw [hexVal_hexDigit _ (by omega), hexVal_hexDigit _ (by omega)]
                  have : hexVal '0' = some 0 := by decide
                  simp only [this]
                  congr 1
                  omega
                show unquoteBody (fuel + 1) ('\\' :: 'u' :: '0' :: '0' ::
                  hexDigit (c.toNat / 16) :: hexDigit (c.toNat % 16) :: rest) = _
                simp only [unquoteBody, if_true, hg]
                rw [escapedRune_plain (Or.inl (by omega))]
                simp
              · rw [if_neg h7]
                push_neg at h7
                by_cases h8 : c = Char.ofNat 0x2028
                · subst h8
                  rw [if_pos rfl]
                  have hg : getu4 '2' '0' '2' '8' = some 0x2028 := by decide
                  show unquoteBody (fuel + 1) ('\\' :: 'u' :: '2' :: '0' :: '2' :: '8' :: rest) = _
                  simp only [unquoteBody, if_true, hg]
                  rw [escapedRune_plain (Or.inl (by omega))]
                · rw [if_neg h8]
                  by_cases h9 : c = Char.ofNat 0x2029
                  · subst h9
                    rw [if_pos rfl]
                    have hg : getu4 '2' '0' '2' '9' = some 0x2029 := by decide
                    show unquoteBody (fuel + 1) ('\\' :: 'u' :: '2' :: '0' :: '2' :: '9' :: rest) = _
                    simp only [unquoteBody, if_true, hg]
                    rw [escapedRune_plain (Or.inl (by omega))]
                  · rw [if_neg h9]
                    show unquoteBody (fuel + 1) (c :: rest) = _
                    simp only [unquoteBody]
                    rw [if_neg h1.2, if_neg (by
                      rintro (h | h)
                      · exact h1.1 h
                      · omega)]

/-- Go `unquote` reads back the literal that `appendString` writes. -/
theorem unquoteBody_quoteBody (s : GoString) :
    ∀ fuel, s.length < fuel → unquoteBody fuel (quoteBody s) = some s := by
  induction s with
  | nil =>
    intro fuel hf
    cases fuel with
    | zero => simp at hf
    | succ fuel => rfl
  | cons c s ih =>
    intro fuel hf
    cases fuel with
    | zero => simp at hf
    | succ fuel =>
      rw [quoteBody_cons, unquoteBody_quoteRune, ih fuel (by simpa using hf)]
      rfl

/-- Inside a string the scanner passes over what `appendString` writes for one
character. -/
theorem scan_quoteRune (c : Char) (st : List Frame) (rest : GoString) :
    scan Mode.inString st (quoteRune c ++ rest) = scan Mode.inString st rest := by
  unfold quoteRune
  by_cases h1 : c = '\x22' ∨ c = '\\'
  · rw [if_pos h1]
    rcases h1 with rfl | rfl <;> simp [scan, step]
  · rw [if_neg h1]
    push_neg at h1
    by_cases h2 : c = Char.ofNat 8
    · rw [if_pos h2]
      simp [scan, step]
    · rw [if_neg h2]
      by_cases h3 : c = Char.ofNat 12
      · rw [if_pos h3]
        simp [scan, step]
      · rw [if_neg h3]
        by_cases h4 : c = '\n'
        · rw [if_pos h4]
          simp [scan, step]
        · rw [if_neg h4]
          by_cases h5 : c = '\r'
          · rw [if_pos h5]
            simp [scan, step]
          · rw [if_neg h5]
            by_cases h6 : c = '\t'
            · rw [if_pos h6]
              simp [scan, step]
            · rw [if_neg h6]
              by_cases h7 : c.toNat < 32 ∨ c = '<' ∨ c = '>' ∨ c = '&'
              · rw [if_pos h7]
                have hlt : c.toNat < 256 := by
                  rcases h7 with h | rfl | rfl | rfl
                  · omega
                  · decide
                  · decide
                  · decide
                have e1 := hexVal_hexDigit (c.toNat / 16) (by omega)
                have e2 := hexVal_hexDigit (c.toNat % 16) (by omega)
                have e0 : hexVal '0' = some 0 := by decide
                simp [scan, step, e0, e1, e2]
              · rw [if_neg h7]
                push_neg at h7
                by_cases h8 : c = Char.ofNat 0x2028
                · rw [if_pos h8]
                  have e2 : hexVal '2' = some 2 := by decide
                  have e0 : hexVal '0' = some 0 := by decide
                  have e8 : hexVal '8' = some 8 := by decide
                  simp [scan, step, e0, e2, e8]
                · rw [if_neg h8]
                  by_cases h9 : c = Char.ofNat 0x2029
                  · rw [if_pos h9]
                    have e2 : hexVal '2' = some 2 := by decide
                    have e0 : hexVal '0' = some 0 := by decide
                    have e9 : hexVal '9' = some 9 := by decide
                    simp [scan, step, e0, e2, e9]
                  · rw [if_neg h9]
                    show scan Mode.inString st (c :: rest) = _
                    simp only [scan, step]
                    rw [if_neg h1.1, if_neg h1.2, if_neg (by omega)]

theorem scan_quoteBody (s : GoString) (st : List Frame) (rest : GoString) :
    scan Mode.inString st (quoteBody s ++ rest) = scan Mode.inString st rest := by
  induction s with
  | nil => rfl
  | cons c s ih => rw [quoteBody_cons, List.append_assoc, scan_quoteRune, ih]

/-- The scanner reads a string literal written by `appendString` up to its
closing quote. -/
theorem scan_string (s rest : GoString) :
    scan Mode.inString [] (quoteBody s ++ '\x22' :: rest) = some rest := by
  rw [scan_quoteBody]
  simp [scan, step, afterValue]

theorem scan_quote (s rest : GoString) :
    scan Mode.beginValue [] (quote s ++ rest) = some rest := by
  unfold quote
  simp only [List.cons_append, List.append_assoc, List.nil_append]
  have : scan Mode.beginValue [] ('\x22' :: (quoteBody s ++ '\x22' :: rest))
      = scan Mode.inString [] (quoteBody s ++ '\x22' :: rest) := by
    simp [scan, step, stateBeginValue, isSpace]
  rw [this, scan_string]

/-- The scanner reads the digits of a number up to a comma or a closing
brace. -/
theorem scan_digits (ds : GoString) (hd : ∀ d ∈ ds, strconv.isDigit d = true) (c : Char)
    (hc : c = ',' ∨ c = '\x7d') (rest : GoString) :
    scan Mode.state1 [] (ds ++ c :: rest) = some (c :: rest) := by
  induction ds with
  | nil =>
    rcases hc with rfl | rfl <;> simp [scan, step, stateAfter0, stateEndValue, strconv.isDigit]
  | cons d ds ih =>
    have h1 := hd d (by simp)
    simp only [List.cons_append, scan, step, h1, if_true]
    exact ih (fun x hx => hd x (by simp [hx]))

/-- The scanner reads what `FormatInt` writes, up to a comma or a closing
brace. -/
theorem scan_FormatInt (i : Int) (hlo : -(2 : Int) ^ 63 ≤ i) (hhi : i < 2 ^ 63) (c : Char)
    (hc : c = ',' ∨ c = '\x7d') (rest : GoString) :
    scan Mode.beginValue [] (strconv.FormatInt i ++ c :: rest) = some (c :: rest) := by
  unfold strconv.FormatInt
  by_cases hneg : i < 0
  · rw [if_pos hneg]
    have hn : i.natAbs ≤ 2 ^ 63 := by omega
    obtain ⟨d, ds, he, h1, h9, -, -, -, hr⟩ :=
      strconv.formatBits_leading 20 _ (by omega) (strconv.pow_bound hn)
    rw [he]
    have hsp : isSpace d = false := by
      apply isSpace_of_isDigit
      simp only [strconv.isDigit, decide_eq_true_eq]
      exact ⟨le_trans (by decide) h1, h9⟩
    have hd0 : d ≠ '0' := by
      intro e
      subst e
      exact absurd h1 (by decide)
    have : scan Mode.beginValue [] ('-' :: (d :: ds) ++ c :: rest)
        = scan Mode.state1 [] (ds ++ c :: rest) := by
      simp [scan, step, stateBeginValue, isSpace, hd0, h1, h9]
    rw [this]
    exact scan_digits ds hr c hc rest
  · rw [if_neg hneg]
    have hn : i.natAbs < 2 ^ 63 := by omega
    by_cases h0 : i.natAbs = 0
    · rw [h0, strconv.formatBits_zero]
      rcases hc with rfl | rfl <;>
        simp [scan, step, stateBeginValue, stateAfter0, stateEndValue, isSpace]
    · obtain ⟨d, ds, he, h1, h9, hd0, hm, -, hr⟩ :=
        strconv.formatBits_leading 20 _ (Nat.pos_of_ne_zero h0) (strconv.pow_bound (le_of_lt hn))
      rw [he]
      have hds : strconv.isDigit d = true := by
        simp only [strconv.isDigit, decide_eq_true_eq]
        exact ⟨le_trans (by decide) h1, h9⟩
      have hsp : isSpace d = false := isSpace_of_isDigit hds
      have hne : ∀ x : Char, x < '1' → d ≠ x := by
        intro x hx e
        subst e
        exact absurd h1 (not_le.mpr hx)
      have hgt : ∀ x : Char, '9' < x → d ≠ x := by
        intro x hx e
        subst e
        exact absurd h9 (not_le.mpr hx)
      have : scan Mode.beginValue [] ((d :: ds) ++ c :: rest)
          = scan Mode.state1 [] (ds ++ c :: rest) := by
        simp only [List.cons_append, scan, step, stateBeginValue, hsp]
        simp [hgt '\x7b' (by decide), hgt '[' (by decide), hne '\x22' (by decide), hm, hd0,
          hgt 't' (by decide), hgt 'f' (by decide), hgt 'n' (by decide), h1, h9]
      rw [this]
      exact scan_digits ds hr c hc rest

end json

namespace json

theorem skipSpace_cons_of_not_space {c : Char} (h : isSpace c = false) (rest : GoString) :
    skipSpace (c :: rest) = c :: rest := by
  simp [skipSpace, List.dropWhile, h]

theorem skipSpace_quote (s rest : GoString) : skipSpace (quote s ++ rest) = quote s ++ rest := by
  unfold quote
  exact skipSpace_cons_of_not_space (by decide) _

theorem skipSpace_valueText {raw : GoString} (h : IsValueText raw) (rest : GoString) :
    skipSpace (raw ++ rest) = raw ++ rest := by
  obtain ⟨⟨c, tail, rfl, hc⟩, -⟩ := h
  exact skipSpace_cons_of_not_space hc _

theorem take_sub_length (a b : GoString) : (a ++ b).take ((a ++ b).length - b.length) = a := by
  have : (a ++ b).length - b.length = a.length := by simp
  rw [this, List.take_left]

/-- One member written by `json.Marshal`, read back: the key and the text of
the value, and the comma or the brace behind it. -/
theorem members_step (key raw : GoString) (hraw : IsValueText raw) (c : Char)
    (hc : c = ',' ∨ c = '\x7d') (rest : GoString) (fuel : Nat) (first : Bool) :
    members (fuel + 1) first (quote key ++ ':' :: (raw ++ c :: rest))
      = if c = ',' then (members fuel false rest).map (fun p => ((key, raw) :: p.1, p.2))
        else some ([(key, raw)], rest) := by
  have hscanKey : scan Mode.inString [] (quoteBody key ++ '\x22' :: ':' :: (raw ++ c :: rest))
      = some (':' :: (raw ++ c :: rest)) := scan_string key _
  have hslice : (quoteBody key ++ '\x22' :: ':' :: (raw ++ c :: rest)).take
      ((quoteBody key ++ '\x22' :: ':' :: (raw ++ c :: rest)).length
        - (':' :: (raw ++ c :: rest)).length - 1) = quoteBody key := by
    have : (quoteBody key ++ '\x22' :: ':' :: (raw ++ c :: rest)).length
        - (':' :: (raw ++ c :: rest)).length - 1 = (quoteBody key).length := by
      simp only [List.length_append, List.length_cons]
      omega
    rw [this, List.take_left]
  have hunq : unquoteBody ((quoteBody key ++ '\x22' :: ':' :: (raw ++ c :: rest)).length + 1)
      (quoteBody key) = some key := by
    apply unquoteBody_quoteBody
    have := length_le_quoteBody key
    simp only [List.length_append, List.length_cons]
    omega
  have hval : scan Mode.beginValue [] (raw ++ c :: rest) = some (c :: rest) := hraw.2 c rest hc
  have hsp : skipSpace (raw ++ c :: rest) = raw ++ c :: rest := skipSpace_valueText hraw _
  have hslice2 : (raw ++ c :: rest).take ((raw ++ c :: rest).length - (c :: rest).length)
      = raw := take_sub_length raw (c :: rest)
  have hcsp : isSpace c = false := by rcases hc with rfl | rfl <;> decide
  have hq : quote key ++ ':' :: (raw ++ c :: rest)
      = '\x22' :: (quoteBody key ++ '\x22' :: ':' :: (raw ++ c :: rest)) := by
    simp [quote]
  rw [hq]
  simp only [members]
  rw [skipSpace_cons_of_not_space (by decide)]
  simp only [↓reduceIte, hscanKey, hslice, hunq]
  rw [skipSpace_cons_of_not_space (by decide)]
  simp only [↓reduceIte, hsp, hval]
  rw [skipSpace_cons_of_not_space hcsp]
  simp only [hslice2]
  rcases hc with rfl | rfl
  · simp only [↓reduceIte, Char.reduceEq]
  · simp only [↓reduceIte, Char.reduceEq]

theorem membersText_cons_cons (m m' : GoString × GoString) (rest : List (GoString × GoString)) :
    membersText (m :: m' :: rest) = quote m.1 ++ ':' :: (m.2 ++ ',' :: membersText (m' :: rest)) :=
  rfl

/-- The members written by `json.Marshal`, read back. -/
theorem members_membersText (ms : List (GoString × GoString)) :
    ms ≠ [] → (∀ m ∈ ms, IsValueText m.2) → ∀ (fuel : Nat) (first : Bool) (rest : GoString),
      ms.length ≤ fuel →
      members fuel first (membersText ms ++ '\x7d' :: rest) = some (ms, rest) := by
  induction ms with
  | nil => intro h; exact absurd rfl h
  | cons m ms ih =>
    intro _ hval fuel first rest hf
    cases fuel with
    | zero => simp at hf
    | succ fuel =>
      cases ms with
      | nil =>
        have : membersText [m] ++ '\x7d' :: rest = quote m.1 ++ ':' :: (m.2 ++ '\x7d' :: rest) := by
          simp [membersText]
        rw [this, members_step m.1 m.2 (hval m (by simp)) '\x7d' (Or.inr rfl)]
        rw [if_neg (by decide)]
      | cons m' ms =>
        have : membersText (m :: m' :: ms) ++ '\x7d' :: rest
            = quote m.1 ++ ':' :: (m.2 ++ ',' :: (membersText (m' :: ms) ++ '\x7d' :: rest)) := by
          rw [membersText_cons_cons]
          simp
        rw [this, members_step m.1 m.2 (hval m (by simp)) ',' (Or.inl rfl), if_pos rfl,
          ih (by simp) (fun x hx => hval x (by simp [hx])) fuel false rest
            (by simpa using hf)]
        rfl

theorem length_le_membersText (ms : List (GoString × GoString)) :
    ms.length ≤ (membersText ms).length + 1 := by
  induction ms with
  | nil => simp
  | cons m ms ih =>
    cases ms with
    | nil => simp
    | cons m' ms =>
      rw [membersText_cons_cons]
      simp only [List.length_append, List.length_cons] at ih ⊢
      omega

/-- The object written by `json.Marshal` for the members `ms`, read back by
the decoder. -/
theorem top_objectText (ms : List (GoString × GoString)) (hval : ∀ m ∈ ms, IsValueText m.2)
    (rest : GoString) : top (objectText ms ++ rest) = Top.object ms := by
  unfold objectText top
  rw [List.cons_append, skipSpace_cons_of_not_space (by decide)]
  simp only [↓reduceIte]
  by_cases hms : ms = []
  · subst hms
    simp [membersText, members, skipSpace, List.dropWhile, isSpace]
  · rw [List.append_assoc, List.singleton_append,
      members_membersText ms hms hval _ true rest (by
        have := length_le_membersText ms
        simp only [List.length_append, List.length_cons]
        omega)]

/-- A string literal written by `appendString` is the text of a value. -/
theorem isValueText_quote (s : GoString) : IsValueText (quote s) := by
  refine ⟨⟨'\x22', quoteBody s ++ ['\x22'], rfl, by decide⟩, ?_⟩
  intro c rest _
  exact scan_quote s _

/-- What `FormatInt` writes for an `int64` is the text of a value. -/
theorem isValueText_FormatInt (i : Int) (hlo : -(2 : Int) ^ 63 ≤ i) (hhi : i < 2 ^ 63) :
    IsValueText (strconv.FormatInt i) := by
  refine ⟨?_, fun c rest hc => scan_FormatInt i hlo hhi c hc rest⟩
  obtain ⟨hv, hs⟩ := FormatInt_valid i hlo hhi
  cases h : strconv.FormatInt i with
  | nil => rw [h] at hv; simp [isValidNumber] at hv
  | cons c tail => exact ⟨c, tail, rfl, hs c (by rw [h]; simp)⟩

end json

namespace Jwt

/-- `UnmarshalJSON` reads back what `MarshalJSON` writes for a portable
`Time`. -/
theorem Time.Portable.round_trip {t : Jwt.Time} (h : t.Portable) :
    t.MarshalJSON = (strconv.FormatInt (unixMillis t.Time), none) ∧
      ∀ t0 : Jwt.Time, t0.UnmarshalJSON (strconv.FormatInt (unixMillis t.Time)) = (t, none) := by
  obtain ⟨hn, hms, hloc, hlo, hhi⟩ := h
  have hnew : NewTime t.Time = t := by
    rw [NewTime_eq t.Time hn]
    have : t.Time.nsec - t.Time.nsec % 1000000 = t.Time.nsec := by omega
    rw [this]
  have hm := MarshalJSON_NewTime t.Time hn hlo hhi
  rw [hnew] at hm
  refine ⟨hm, fun t0 => ?_⟩
  rw [UnmarshalJSON_FormatInt t0 _ hlo hhi, unixMillis_eq,
    time.UnixMilli_of_parts t.Time.sec (t.Time.nsec / 1000000) (by omega)]
  have e : t.Time.nsec / 1000000 * 1000000 = t.Time.nsec := by omega
  rw [e, ← hloc]

theorem FormatInt_ne_null (i : Int) (hlo : -(2 : Int) ^ 63 ≤ i) (hhi : i < 2 ^ 63) :
    strconv.FormatInt i ≠ "null".toList := by
  intro h
  have := (json.FormatInt_valid i hlo hhi).1
  rw [h] at this
  exact absurd this (by decide)

theorem storeTime_MarshalJSON {t : Jwt.Time} (h : t.Portable) (old : Option Jwt.Time) :
    storeTime t.MarshalJSON.1 old = (some t, none) := by
  obtain ⟨hm, hu⟩ := h.round_trip
  unfold storeTime
  rw [hm]
  simp only
  rw [if_neg (FormatInt_ne_null _ h.2.2.2.1 h.2.2.2.2), hu]

theorem storeString_quote (s old : GoString) : storeString (json.quote s) old = (s, none) := by
  unfold storeString json.quote
  simp only [↓reduceIte]
  rw [List.dropLast_concat, json.unquoteBody_quoteBody]
  have := json.length_le_quoteBody s
  simp only [List.length_append, List.length_cons, List.length_nil]
  omega

theorem isValueText_MarshalJSON {t : Jwt.Time} (h : t.Portable) :
    json.IsValueText t.MarshalJSON.1 := by
  rw [h.round_trip.1]
  exact json.isValueText_FormatInt _ h.2.2.2.1 h.2.2.2.2

/-- The texts of the members of portable claims are texts of values. -/
theorem claimsMembers_valueText (c : StandardClaims) (hc : c.Portable) :
    ∀ m ∈ claimsMembers c, json.IsValueText m.2 := by
  obtain ⟨h1, h2, h3⟩ := hc
  intro m hm
  simp only [claimsMembers, List.mem_append] at hm
  have hs : ∀ name value, m ∈ stringMember name value → json.IsValueText m.2 := by
    intro name value hmem
    unfold stringMember at hmem
    split at hmem
    · cases hmem
    · rw [List.mem_singleton] at hmem
      subst hmem
      exact json.isValueText_quote value
  have ht : ∀ name (value : Option Jwt.Time), (∀ t, value = some t → t.Portable) →
      m ∈ timeMember name value → json.IsValueText m.2 := by
    intro name value hp hmem
    cases value with
    | none => cases hmem
    | some t =>
      simp only [timeMember, List.mem_singleton] at hmem
      subst hmem
      exact isValueText_MarshalJSON (hp t rfl)
  rcases hm with (((((hm | hm) | hm) | hm) | hm) | hm) | hm
  · exact hs _ _ hm
  · exact hs _ _ hm
  · exact hs _ _ hm
  · exact hs _ _ hm
  · exact ht _ _ h1 hm
  · exact ht _ _ h2 hm
  · exact ht _ _ h3 hm

theorem storeClaims_jti (v : GoString) (rest : List (GoString × GoString))
    (c : StandardClaims) :
    storeClaims (stringMember "jti".toList v ++ rest) c none
      = storeClaims rest { c with ID := if v = [] then c.ID else v } none := by
  unfold stringMember
  by_cases hv : v = []
  · simp [hv]
  · simp only [hv, ↓reduceIte, List.singleton_append]
    rw [storeClaims, if_pos (by decide), storeString_quote]
    rfl

theorem storeClaims_iss (v : GoString) (rest : List (GoString × GoString))
    (c : StandardClaims) :
    storeClaims (stringMember "iss".toList v ++ rest) c none
      = storeClaims rest { c with Issuer := if v = [] then c.Issuer else v } none := by
  unfold stringMember
  by_cases hv : v = []
  · simp [hv]
  · simp only [hv, ↓reduceIte, List.singleton_append]
    rw [storeClaims, if_neg (by decide), if_pos (by decide), storeString_quote]
    rfl

theorem storeClaims_sub (v : GoString) (rest : List (GoString × GoString))
    (c : StandardClaims) :
    storeClaims (stringMember "sub".toList v ++ rest) c none
      = storeClaims rest { c with Subject := if v = [] then c.Subject else v } none := by
  unfold stringMember
  by_cases hv : v = []
  · simp [hv]
  · simp only [hv, ↓reduceIte, List.singleton_append]
    rw [storeClaims, if_neg (by decide), if_neg (by decide), if_pos (by decide),
      storeString_quote]
    rfl

theorem storeClaims_aud (v : GoString) (rest : List (GoString × GoString))
    (c : StandardClaims) :
    storeClaims (stringMember "aud".toList v ++ rest) c none
      = storeClaims rest { c with Audience := if v = [] then c.Audience else v } none := by
  unfold stringMember
  by_cases hv : v = []
  · simp [hv]
  · simp only [hv, ↓reduceIte, List.singleton_append]
    rw [storeClaims, if_neg (by decide), if_neg (by decide), if_neg (by decide),
      if_pos (by decide), storeString_quote]
    rfl

theorem storeClaims_iat (v : Option Jwt.Time) (hv : ∀ t, v = some t → t.Portable)
    (rest : List (GoString × GoString)) (c : StandardClaims) :
    storeClaims (timeMember "iat".toList v ++ rest) c none
      = storeClaims rest { c with IssuedAt := if v = none then c.IssuedAt else v } none := by
  cases v with
  | none => simp [timeMember]
  | some t =>
    simp only [timeMember, List.singleton_append]
    rw [storeClaims, if_neg (by decide), if_neg (by decide), if_neg (by decide),
      if_neg (by decide), if_pos (by decide), storeTime_MarshalJSON (hv t rfl)]
    simp

theorem storeClaims_exp (v : Option Jwt.Time) (hv : ∀ t, v = some t → t.Portable)
    (rest : List (GoString × GoString)) (c : StandardClaims) :
    storeClaims (timeMember "exp".toList v ++ rest) c none
      = storeClaims rest { c with ExpiresAt := if v = none then c.ExpiresAt else v } none := by
  cases v with
  | none => simp [timeMember]
  | some t =>
    simp only [timeMember, List.singleton_append]
    rw [storeClaims, if_neg (by decide), if_neg (by decide), if_neg (by decide),
      if_neg (by decide), if_neg (by decide), if_pos (by decide),
      storeTime_MarshalJSON (hv t rfl)]
    simp

theorem storeClaims_nbf (v : Option Jwt.Time) (hv : ∀ t, v = some t → t.Portable)
    (rest : List (GoString × GoString)) (c : StandardClaims) :
    storeClaims (timeMember "nbf".toList v ++ rest) c none
      = storeClaims rest { c with NotBefore := if v = none then c.NotBefore else v } none := by
  cases v with
  | none => simp [timeMember]
  | some t =>
    simp only [timeMember, List.singleton_append]
    rw [storeClaims, if_neg (by decide), if_neg (by decide), if_neg (by decide),
      if_neg (by decide), if_neg (by decide), if_neg (by decide), if_pos (by decide),
      storeTime_MarshalJSON (hv t rfl)]
    simp

/-- The members that `json.Marshal` writes for portable claims `c`, stored
into a destination that is fresh for `c`, leave `c`. -/
theorem storeClaims_claimsMembers (c c2 : StandardClaims) (hc : c.Portable)
    (hfresh : c2.FreshFor c) : storeClaims (claimsMembers c) c2 none = (c, none) := by
  obtain ⟨h1, h2, h3⟩ := hc
  obtain ⟨f1, f2, f3, f4, f5, f6, f7⟩ := hfresh
  unfold claimsMembers
  simp only [List.append_assoc]
  rw [storeClaims_jti, storeClaims_iss, storeClaims_sub, storeClaims_aud,
    storeClaims_iat _ h1, storeClaims_exp _ h2]
  have := storeClaims_nbf c.NotBefore h3 [] 
  rw [List.append_nil] at this
  rw [this, storeClaims]
  congr 1
  cases c with
  | mk id iss sub aud iat exp nbf =>
    simp only at f1 f2 f3 f4 f5 f6 f7 ⊢
    congr 1
    · by_cases h : id = []
      · rw [if_pos h, f1 h, h]
      · rw [if_neg h]
    · by_cases h : iss = []
      · rw [if_pos h, f2 h, h]
      · rw [if_neg h]
    · by_cases h : sub = []
      · rw [if_pos h, f3 h, h]
      · rw [if_neg h]
    · by_cases h : aud = []
      · rw [if_pos h, f4 h, h]
      · rw [if_neg h]
    · by_cases h : iat = none
      · rw [if_pos h, f5 h, h]
      · rw [if_neg h]
    · by_cases h : exp = none
      · rw [if_pos h, f6 h, h]
      · rw [if_neg h]
    · by_cases h : nbf = none
      · rw [if_pos h, f7 h, h]
      · rw [if_neg h]

/-- Go `Decode(&c2)` reads back what `json.Marshal(c)` writes, through base
64. -/
theorem DecodeClaims_MarshalClaims (c c2 : StandardClaims) (hc : c.Portable)
    (hfresh : c2.FreshFor c) :
    DecodeClaims (base64.EncodeToString (MarshalClaims c).1) c2 = (c, none) := by
  unfold DecodeClaims MarshalClaims
  simp only
  rw [base64.DecodeString_EncodeToString _ (utf8.encode_bytes _)]
  simp only
  rw [utf8.decode_encode]
  have := json.top_objectText (claimsMembers c) (claimsMembers_valueText c hc) []
  rw [List.append_nil] at this
  rw [this]
  exact storeClaims_claimsMembers c c2 hc hfresh

end Jwt

namespace Jwt

variable {A : Type}

theorem HeaderMap.get_set_self (m : HeaderMap A) (k : GoString) (v : Value A) :
    (m.set k v).get k = some v := by
  unfold HeaderMap.set HeaderMap.get
  rw [if_pos rfl]

theorem HeaderMap.get_set_ne (m : HeaderMap A) {k k' : GoString} (v : Value A) (h : k ≠ k') :
    (m.set k v).get k' = m.get k' := by
  unfold HeaderMap.set
  rw [HeaderMap.get, if_neg h]

theorem HeaderMap.get_cons (e : GoString × Value A) (rest : HeaderMap A) (k : GoString) :
    HeaderMap.get (e :: rest) k = if e.1 = k then some e.2 else HeaderMap.get rest k := rfl

theorem HeaderMap.mem_keys (m : HeaderMap A) (k : GoString) :
    k ∈ m.map Prod.fst ↔ ∃ v, m.get k = some v := by
  induction m with
  | nil =>
    constructor
    · intro h; cases h
    · rintro ⟨v, hv⟩; cases hv
  | cons e rest ih =>
    rw [List.map_cons, List.mem_cons, HeaderMap.get_cons]
    by_cases h : e.1 = k
    · rw [if_pos h]
      exact ⟨fun _ => ⟨e.2, rfl⟩, fun _ => Or.inl h.symm⟩
    · rw [if_neg h, ← ih]
      constructor
      · rintro (h' | h')
        · exact absurd h'.symm h
        · exact h'
      · exact Or.inr

theorem mem_sortedKeys (m : HeaderMap A) (k : GoString) :
    k ∈ sortedKeys m ↔ ∃ v, m.get k = some v := by
  unfold sortedKeys
  rw [(List.perm_insertionSort _ _).mem_iff, List.mem_dedup, HeaderMap.mem_keys]

theorem sortedKeys_nodup (m : HeaderMap A) : (sortedKeys m).Nodup := by
  unfold sortedKeys
  rw [(List.perm_insertionSort _ _).nodup_iff]
  exact List.nodup_dedup _

/-- The members written for the keys `ks`, when every key has a value that
`json.Marshal` encodes. -/
theorem headerMembers_eq (enc : A → GoString × GoError) (m : HeaderMap A) (ks : List GoString)
    (h : ∀ k ∈ ks, ∃ v, m.get k = some v ∧ (valueText enc v).2 = none) :
    headerMembers enc m ks
      = (ks.map (fun k => (k, (valueText enc ((m.get k).getD (Value.str []))).1)), none) := by
  induction ks with
  | nil => rfl
  | cons k ks ih =>
    obtain ⟨v, hv, hok⟩ := h k (by simp)
    have ih' := ih (fun k' hk' => h k' (by simp [hk']))
    simp only [headerMembers, hv, List.map_cons, Option.getD_some]
    rcases hvt : valueText enc v with ⟨text, err⟩
    rw [hvt] at hok
    simp only at hok
    subst hok
    simp only [ih']

theorem valueOfText_quote (dec : GoString → A) (s : GoString) :
    valueOfText dec (json.quote s) = Value.str s := by
  unfold valueOfText json.quote
  simp only [↓reduceIte]
  rw [List.dropLast_concat, json.unquoteBody_quoteBody]
  have := json.length_le_quoteBody s
  simp only [List.length_append, List.length_cons, List.length_nil]
  omega

/-- The value of a key after members with distinct keys were stored. -/
theorem get_storeHeader (dec : GoString → A) (f : GoString → GoString) (ks : List GoString) :
    ks.Nodup → ∀ (m0 : HeaderMap A) (k : GoString),
      (storeHeader dec (ks.map (fun k => (k, f k))) m0).get k
        = if k ∈ ks then some (valueOfText dec (f k)) else m0.get k := by
  induction ks with
  | nil => intro _ m0 k; simp [storeHeader]
  | cons k0 ks ih =>
    intro hnd m0 k
    rw [List.nodup_cons] at hnd
    simp only [List.map_cons, storeHeader]
    rw [ih hnd.2]
    by_cases hk : k ∈ ks
    · rw [if_pos hk, if_pos (List.mem_cons_of_mem _ hk)]
    · rw [if_neg hk]
      by_cases h0 : k0 = k
      · subst h0
        rw [HeaderMap.get_set_self, if_pos (List.mem_cons_self _ _)]
      · rw [HeaderMap.get_set_ne _ _ h0, if_neg]
        simp only [List.mem_cons, not_or]
        exact ⟨fun e => h0 e.symm, hk⟩

/-- Go `Decode(&header)` reads back the strings of what `json.Marshal(header)`
writes, through base 64, when `json.Marshal` encodes the other values. -/
theorem DecodeHeader_MarshalHeader (enc : A → GoString × GoError) (dec : GoString → A)
    (m : HeaderMap A)
    (henc : ∀ k a, m.get k = some (Value.other a) →
      (enc a).2 = none ∧ json.IsValueText (enc a).1) (h0 : Header A) :
    ∃ hb m', MarshalHeader enc m = (hb, none) ∧
      DecodeHeader dec (base64.EncodeToString hb) h0 = (some m', none) ∧
      ∀ k s, m.get k = some (Value.str s) → m'.get k = some (Value.str s) := by
  have hvals : ∀ k ∈ sortedKeys m, ∃ v, m.get k = some v ∧ (valueText enc v).2 = none := by
    intro k hk
    obtain ⟨v, hv⟩ := (mem_sortedKeys m k).1 hk
    refine ⟨v, hv, ?_⟩
    cases v with
    | str s => rfl
    | other a => exact (henc k a hv).1
  have hm := headerMembers_eq enc m (sortedKeys m) hvals
  have htext : ∀ mem ∈ (sortedKeys m).map
      (fun k => (k, (valueText enc ((m.get k).getD (Value.str []))).1)),
      json.IsValueText mem.2 := by
    intro mem hmem
    rw [List.mem_map] at hmem
    obtain ⟨k, hk, rfl⟩ := hmem
    obtain ⟨v, hv⟩ := (mem_sortedKeys m k).1 hk
    simp only [hv, Option.getD_some]
    cases v with
    | str s => exact json.isValueText_quote s
    | other a => exact (henc k a hv).2
  refine ⟨utf8.encode (json.objectText ((sortedKeys m).map
      (fun k => (k, (valueText enc ((m.get k).getD (Value.str []))).1)))),
    storeHeader dec ((sortedKeys m).map
      (fun k => (k, (valueText enc ((m.get k).getD (Value.str []))).1))) (h0.getD []),
    ?_, ?_, ?_⟩
  · unfold MarshalHeader
    rw [hm]
  · unfold DecodeHeader
    rw [base64.DecodeString_EncodeToString _ (utf8.encode_bytes _)]
    simp only
    rw [utf8.decode_encode]
    have := json.top_objectText _ htext []
    rw [List.append_nil] at this
    rw [this]
  · intro k s hk
    rw [get_storeHeader dec _ _ (sortedKeys_nodup m),
      if_pos ((mem_sortedKeys m k).2 ⟨_, hk⟩)]
    simp only [hk, Option.getD_some, valueText]
    rw [valueOfText_quote]

end Jwt

namespace base64

theorem b64Char_byte (n : Nat) : (Jwt.b64Char n).toNat < 256 := by
  by_cases h : n < 64
  · interval_cases n <;> decide
  · have : Jwt.b64Char n = 'A' := by
      unfold Jwt.b64Char
      rw [List.getD_eq_default]
      simpa [Jwt.b64Alphabet] using h
    rw [this]
    decide

/-- What base 64 writes is a text of bytes. -/
theorem EncodeToString_bytes (bs : GoString) : ∀ c ∈ EncodeToString bs, c.toNat < 256 := by
  unfold EncodeToString
  induction bs using three_step with
  | h3 a b c rest ih =>
    intro ch hch
    simp only [Jwt.b64Raw, List.mem_cons] at hch
    rcases hch with rfl | rfl | rfl | rfl | h
    · exact b64Char_byte _
    · exact b64Char_byte _
    · exact b64Char_byte _
    · exact b64Char_byte _
    · exact ih ch h
  | h2 a b =>
    intro ch hch
    simp only [Jwt.b64Raw, List.mem_cons, List.mem_singleton, List.not_mem_nil, or_false] at hch
    rcases hch with rfl | rfl | rfl <;> exact b64Char_byte _
  | h1 a =>
    intro ch hch
    simp only [Jwt.b64Raw, List.mem_cons, List.mem_singleton, List.not_mem_nil, or_false] at hch
    rcases hch with rfl | rfl <;> exact b64Char_byte _
  | h0 =>
    intro ch hch
    simp [Jwt.b64Raw] at hch

end base64

namespace Jwt

theorem demoClaims_portable : demoClaims.Portable := by
  have hp : ∀ t : time.Time, t = sampleInstant ∨ t = { sec := 1700003600, nsec := 123456789 } →
      (NewTime t).Portable := by
    rintro t (rfl | rfl) <;> unfold Time.Portable <;> decide
  refine ⟨?_, ?_, ?_⟩
  · intro t ht
    have : t = NewTime sampleInstant := (Option.some.inj ht).symm
    rw [this]
    exact hp _ (Or.inl rfl)
  · intro t ht
    have : t = NewTime { sec := 1700003600, nsec := 123456789 } := (Option.some.inj ht).symm
    rw [this]
    exact hp _ (Or.inr rfl)
  · intro t ht
    cases ht

theorem sampleHeader_encodes (k : GoString) (a : Nat)
    (h : sampleHeader.get k = some (Value.other a)) :
    (sampleEnc a).2 = none ∧ json.IsValueText (sampleEnc a).1 := by
  unfold sampleHeader at h
  rw [HeaderMap.get_cons] at h
  split at h
  · have ha : a = 5 := by
      simp only [Option.some.injEq, Value.other.injEq] at h
      exact h.symm
    subst ha
    exact ⟨rfl, json.isValueText_FormatInt 5 (by decide) (by decide)⟩
  · cases h

theorem demoSigner_bytes (b : GoString) (hb : ∀ x ∈ b, x.toNat < 256) :
    ∀ x ∈ (demoSigner.Sign b).1, x.toNat < 256 := by
  intro x hx
  exact hb x (List.mem_reverse.mp hx)

theorem demoVerifier_accepts (b : GoString) :
    demoVerifier.Verify b (demoSigner.Sign b).1 = none := by
  simp [demoVerifier, demoSigner]

end Jwt

namespace Jwt

set_option maxRecDepth 100000 in
/-- C17 as stated fails, in six ways. With a nil `header` the first statement
of `CreateToken`, `header["alg"] = signer.Alg()`, panics. With a header value
that `json.Marshal` rejects `CreateToken` returns an error. With a signer
whose `Sign` returns an error, and a verifier that accepts every signature,
`CreateToken` returns that error. For claims that
expire at `time.Unix(1<<62, 0)`, truncated to milliseconds and valid now, the
token holds `"exp":0` and `DecodeToken` returns `ErrExpired`. For claims
issued at a time in UTC `DecodeToken` returns nil and leaves the same instant
in the location `Local`, which is not equal. And for claims without an `ID`
decoded into a destination that holds the `ID` `before`, `DecodeToken` returns
nil and leaves that `ID`. -/
theorem jwt_round_trip_counterexample :
    (∀ b, demoVerifier.Verify b (demoSigner.Sign b).1 = none) ∧
    demoSelector demoSigner.Alg demoSigner.KeyID = (some demoVerifier, none) ∧
    demoClaims.Valid (NewTime sampleInstant) = none ∧
    CreateToken sampleLib demoSigner none demoClaims
      = Outcome.panicked "assignment to entry in nil map".toList ∧
    CreateToken sampleLib demoSigner (some badHeader) demoClaims
      = Outcome.returned ([], wrapError "json: unsupported type".toList
          "encode header part".toList) ∧
    ((∀ b, anyVerifier.Verify b (failSigner.Sign b).1 = none) ∧
      anySelector failSigner.Alg failSigner.KeyID = (some anyVerifier, none) ∧
      CreateToken sampleLib failSigner (some sampleHeader) demoClaims
        = Outcome.returned ([], wrapError "no key".toList "create signature".toList)) ∧
    (farClaims.Valid (NewTime sampleInstant) = none ∧
      farClaims.ExpiresAt = some (NewTime (NewTime farFuture).Time) ∧
      (MarshalClaims farClaims).1 = "\x7b\x22exp\x22:0\x7d".toList ∧
      (DecodeToken sampleLib demoSelector
        (tokenOf (CreateToken sampleLib demoSigner (some sampleHeader) farClaims)) {}).ret
        = Outcome.returned ErrExpired) ∧
    (utcClaims.Valid (NewTime sampleInstant) = none ∧
      utcClaims.IssuedAt = some (NewTime (NewTime sampleInstantUTC).Time) ∧
      (DecodeToken sampleLib demoSelector
        (tokenOf (CreateToken sampleLib demoSigner (some sampleHeader) utcClaims)) {}).ret
        = Outcome.returned none ∧
      (DecodeToken sampleLib demoSelector
        (tokenOf (CreateToken sampleLib demoSigner (some sampleHeader) utcClaims)) {}).claims
        ≠ utcClaims) ∧
    (anonClaims.Valid (NewTime sampleInstant) = none ∧
      (DecodeToken sampleLib demoSelector
        (tokenOf (CreateToken sampleLib demoSigner (some sampleHeader) anonClaims))
        previousClaims).ret = Outcome.returned none ∧
      (DecodeToken sampleLib demoSelector
        (tokenOf (CreateToken sampleLib demoSigner (some sampleHeader) anonClaims))
        previousClaims).claims = { anonClaims with ID := "before".toList } ∧
      (DecodeToken sampleLib demoSelector
        (tokenOf (CreateToken sampleLib demoSigner (some sampleHeader) anonClaims))
        previousClaims).claims ≠ anonClaims) := by
  refine ⟨demoVerifier_accepts, rfl, by decide, by decide, by decide,
    ⟨fun _ => rfl, rfl, by decide⟩,
    ⟨by decide, by decide, by decide, by decide⟩,
    ⟨by decide, by decide, by decide, by decide⟩,
    ⟨by decide, by decide, by decide, by decide⟩⟩

/-- C17 as amended (round trip of a token), with `encoding/json` and
`encoding/base64` written out in `goLib`. Let the selector return for
`signer.Alg()` and `signer.KeyID()` a verifier that accepts what the signer
signs, `Sign` return a nil error and bytes, `header` be a non-nil map whose
values other than strings `json.Marshal` encodes, `c` be claims that are valid
now and whose times are truncated to milliseconds, in the location `Local` and
with a count of milliseconds that is an `int64`, and the destination `c2` hold
nothing in the fields that `c` leaves empty. Then `json.Marshal` encodes the
header with `alg` and `kid`; `CreateToken` returns, with a nil error, the
token `base64url(header) + "." + base64url(claims) + "." +
base64url(signature)`; its first part decodes to a header that holds
`alg = signer.Alg()` and `kid = signer.KeyID()`; and `DecodeToken` on that
token calls the selector once, with that `alg` and `kid`, returns nil and
leaves `c2` equal to `c`. -/
theorem jwt_round_trip {A : Type} (enc : A → GoString × GoError) (dec : GoString → A)
    (now : time.Time) (signer : Signer) (selector : VerifierSelector) (verifier : Verifier)
    (header : HeaderMap A) (c c2 : StandardClaims)
    (hsel : selector signer.Alg signer.KeyID = (some verifier, none))
    (hsign : ∀ b, (signer.Sign b).2 = none)
    (hbytes : ∀ b, (∀ x ∈ b, x.toNat < 256) → ∀ x ∈ (signer.Sign b).1, x.toNat < 256)
    (hver : ∀ b, verifier.Verify b (signer.Sign b).1 = none)
    (henc : ∀ k a, header.get k = some (Value.other a) →
      (enc a).2 = none ∧ json.IsValueText (enc a).1)
    (hc : c.Portable) (hnow : c.Valid (NewTime now) = none) (hfresh : c2.FreshFor c) :
    (MarshalHeader enc ((header.set "alg".toList (Value.str signer.Alg)).set "kid".toList
      (Value.str signer.KeyID))).2 = none ∧
    CreateToken (goLib enc dec now) signer (some header) c
      = Outcome.returned
          (base64.EncodeToString (MarshalHeader enc ((header.set "alg".toList
              (Value.str signer.Alg)).set "kid".toList (Value.str signer.KeyID))).1
            ++ '.' :: base64.EncodeToString (MarshalClaims c).1
            ++ '.' :: base64.EncodeToString (signer.Sign
              (base64.EncodeToString (MarshalHeader enc ((header.set "alg".toList
                (Value.str signer.Alg)).set "kid".toList (Value.str signer.KeyID))).1
                ++ '.' :: base64.EncodeToString (MarshalClaims c).1)).1, none) ∧
    (DecodeHeader dec (base64.EncodeToString (MarshalHeader enc ((header.set "alg".toList
        (Value.str signer.Alg)).set "kid".toList (Value.str signer.KeyID))).1) none).2 = none ∧
    (DecodeHeader dec (base64.EncodeToString (MarshalHeader enc ((header.set "alg".toList
        (Value.str signer.Alg)).set "kid".toList (Value.str signer.KeyID))).1) none).1.stringAt
      "alg".toList = signer.Alg ∧
    (DecodeHeader dec (base64.EncodeToString (MarshalHeader enc ((header.set "alg".toList
        (Value.str signer.Alg)).set "kid".toList (Value.str signer.KeyID))).1) none).1.stringAt
      "kid".toList = signer.KeyID ∧
    DecodeToken (goLib enc dec now) selector
        (base64.EncodeToString (MarshalHeader enc ((header.set "alg".toList
              (Value.str signer.Alg)).set "kid".toList (Value.str signer.KeyID))).1
            ++ '.' :: base64.EncodeToString (MarshalClaims c).1
            ++ '.' :: base64.EncodeToString (signer.Sign
              (base64.EncodeToString (MarshalHeader enc ((header.set "alg".toList
                (Value.str signer.Alg)).set "kid".toList (Value.str signer.KeyID))).1
                ++ '.' :: base64.EncodeToString (MarshalClaims c).1)).1) c2
      = { ret := Outcome.returned none, claims := c,
          selected := [(signer.Alg, signer.KeyID)] } := by
  -- the header with `alg` and `kid`
  have hne : "kid".toList ≠ "alg".toList := by decide
  have halg : ((header.set "alg".toList (Value.str signer.Alg)).set "kid".toList
      (Value.str signer.KeyID)).get "alg".toList = some (Value.str signer.Alg) := by
    rw [HeaderMap.get_set_ne _ _ hne, HeaderMap.get_set_self]
  have hkid : ((header.set "alg".toList (Value.str signer.Alg)).set "kid".toList
      (Value.str signer.KeyID)).get "kid".toList = some (Value.str signer.KeyID) :=
    HeaderMap.get_set_self _ _ _
  have henc2 : ∀ k a, ((header.set "alg".toList (Value.str signer.Alg)).set "kid".toList
      (Value.str signer.KeyID)).get k = some (Value.other a) →
      (enc a).2 = none ∧ json.IsValueText (enc a).1 := by
    intro k a hk
    by_cases h1 : "kid".toList = k
    · subst h1
      rw [hkid] at hk
      cases hk
    · rw [HeaderMap.get_set_ne _ _ h1] at hk
      by_cases h2 : "alg".toList = k
      · subst h2
        rw [HeaderMap.get_set_self] at hk
        cases hk
      · rw [HeaderMap.get_set_ne _ _ h2] at hk
        exact henc k a hk
  obtain ⟨hb, m', hmh, hdh, hget⟩ := DecodeHeader_MarshalHeader enc dec _ henc2 none
  rw [hmh]
  simp only
  have hmc : MarshalClaims c = (utf8.encode (json.objectText (claimsMembers c)), none) := rfl
  have hdc := DecodeClaims_MarshalClaims c c2 hc hfresh
  generalize hcb : (MarshalClaims c).1 = cb at hdc ⊢
  have hmc' : MarshalClaims c = (cb, none) := by rw [← hcb]; rfl
  -- the signature
  have hcontent : ∀ x ∈ base64.EncodeToString hb ++ '.' :: base64.EncodeToString cb,
      x.toNat < 256 := by
    intro x hx
    rw [List.mem_append, List.mem_cons] at hx
    rcases hx with hx | rfl | hx
    · exact base64.EncodeToString_bytes _ x hx
    · decide
    · exact base64.EncodeToString_bytes _ x hx
  generalize hsg : signer.Sign (base64.EncodeToString hb ++ '.' :: base64.EncodeToString cb)
    = sg
  have hsg2 : sg.2 = none := by rw [← hsg]; exact hsign _
  have hsgb : ∀ x ∈ sg.1, x.toNat < 256 := by rw [← hsg]; exact hbytes _ hcontent
  have hsgv : verifier.Verify (base64.EncodeToString hb ++ '.' :: base64.EncodeToString cb) sg.1
      = none := by rw [← hsg]; exact hver _
  have hsg' : signer.Sign (base64.EncodeToString hb ++ '.' :: base64.EncodeToString cb)
      = (sg.1, none) := by rw [hsg, ← hsg2]
  have hstr1 : Header.stringAt (some m') "alg".toList = signer.Alg := by
    simp only [Header.stringAt, hget _ _ halg]
  have hstr2 : Header.stringAt (some m') "kid".toList = signer.KeyID := by
    simp only [Header.stringAt, hget _ _ hkid]
  refine ⟨trivial, ?_, ?_, ?_, ?_, ?_⟩
  · simp only [CreateToken, b64URLEncoded, goLib, hmh, hmc', hsg']
  · rw [hdh]
  · rw [hdh]; exact hstr1
  · rw [hdh]; exact hstr2
  · have hsplit : strings.SplitN
        (base64.EncodeToString hb ++ '.' :: base64.EncodeToString cb
          ++ '.' :: base64.EncodeToString sg.1) '.' 3
        = [base64.EncodeToString hb, base64.EncodeToString cb, base64.EncodeToString sg.1] := by
      have := strings.SplitN_three (base64.EncodeToString_no_dot hb)
        (base64.EncodeToString_no_dot cb) (base64.EncodeToString sg.1)
      simpa using this
    unfold DecodeToken
    rw [hsplit]
    simp only [b64URLEncodeToJSON, goLib, hdh, hstr1, hstr2, hsel,
      base64.DecodeString_EncodeToString _ hsgb, hsgv, hdc, hnow]

set_option maxRecDepth 100000 in
/-- The round trip of `demoClaims` under the header `Header{"n": 5}`, signed
by `demoSigner` and decoded into empty claims: the token is `sampleToken`,
whose first part is the base 64 of `{"alg":"REV","kid":"k1","n":5}`, and
`DecodeToken` calls the selector with `REV` and `k1`, returns nil and leaves
`demoClaims`. -/
theorem jwt_round_trip_witness :
    demoSelector demoSigner.Alg demoSigner.KeyID = (some demoVerifier, none) ∧
    demoClaims.Valid (NewTime sampleInstant) = none ∧
    (MarshalHeader sampleEnc ((sampleHeader.set "alg".toList (Value.str demoSigner.Alg)).set
      "kid".toList (Value.str demoSigner.KeyID))).1
      = "\x7b\x22alg\x22:\x22REV\x22,\x22kid\x22:\x22k1\x22,\x22n\x22:5\x7d".toList ∧
    CreateToken sampleLib demoSigner (some sampleHeader) demoClaims
      = Outcome.returned (sampleToken, none) ∧
    DecodeToken sampleLib demoSelector
        (tokenOf (CreateToken sampleLib demoSigner (some sampleHeader) demoClaims)) {}
      = { ret := Outcome.returned none, claims := demoClaims,
          selected := [("REV".toList, "k1".toList)] } :=
  have h := jwt_round_trip sampleEnc sampleDec sampleInstant demoSigner demoSelector
    demoVerifier sampleHeader demoClaims {} rfl (fun _ => rfl) demoSigner_bytes
    demoVerifier_accepts sampleHeader_encodes demoClaims_portable (by decide)
    ⟨fun _ => rfl, fun _ => rfl, fun _ => rfl, fun _ => rfl, fun _ => rfl, fun _ => rfl,
      fun _ => rfl⟩
  ⟨rfl, by decide, by decide, by decide, by
    have e : tokenOf (CreateToken sampleLib demoSigner (some sampleHeader) demoClaims) = _ :=
      congrArg tokenOf h.2.1
    rw [e]
    exact h.2.2.2.2.2⟩

end Jwt
